import Mathlib

/-!
Pirates savegame unpacker: layout resolver and leaf codecs.

A shallow embedding of `Pirates.cpp` (the decode direction, `unpack_pg_to_pst` and what it
calls) and of the line reader of `LineReading.cpp` (`read_line`, `read_world_map`), together
with theorems about them.

Conventions of the embedding.
* A `std::string` is a `List Char` (`text`); string literals are written `"...".toList`.
* A byte of the input file is a `Fin 256`.  `char` is the signed 8-bit type of the platforms the
  program was written for, so a `char` holding byte `b` has the value `schar b`.
* The `int` fields of the schema tables (`count`, `bytes_per_line`, `byte_count`, `multiplier`,
  the loop counter and the offset) never hold a negative value in the source and are natural
  numbers here.  The results of `read_int` are signed and are integers.
* `abort()`, an uncaught exception and a read that leaves part of an uninitialised buffer unset
  are the `Except.error` outcomes of the model.
-/

namespace Pirates

/-! ## Data model -/

abbrev text := List Char

abbrev byte := Fin 256

inductive translation_type
  | TEXT0 | TEXT8 | HEX | INT | BINARY | SHORT | CHAR | LCHAR | mFLOAT | uFLOAT
  | FMAP | SMAP | CMAP | BULK | ZERO
  deriving DecidableEq, Repr

open translation_type

def is_world_map (m : translation_type) : Bool :=
  m == SMAP || m == CMAP || m == FMAP

def char_for_method : translation_type → text
  | TEXT0 => "t".toList
  | TEXT8 => "t".toList
  | INT => "V".toList
  | HEX => "h".toList
  | BINARY => "B".toList
  | SHORT => "s".toList
  | CHAR => "C".toList
  | FMAP => "M".toList
  | BULK => "H".toList
  | ZERO => "x".toList
  | uFLOAT => "G".toList
  | mFLOAT => "g".toList
  | LCHAR => "c".toList
  | SMAP => "m".toList
  | CMAP => "MM".toList

/-- The map `size_for_method`; `none` is a key the map does not hold (`at` throws). -/
def size_for_method : translation_type → Option Nat
  | TEXT0 => some 0
  | TEXT8 => some 8
  | INT => some 4
  | HEX => some 4
  | BINARY => some 1
  | SHORT => some 2
  | CHAR => some 1
  | ZERO => some 0
  | uFLOAT => some 4
  | BULK => some 4
  | LCHAR => some 1
  | mFLOAT => some 4
  | FMAP => none
  | SMAP => none
  | CMAP => none

structure «section» where
  name : text
  count : Nat
  bytes_per_line : Nat
  method : translation_type := BULK
  deriving DecidableEq, Repr

structure feature where
  line_code : text
  v : byte
  deriving DecidableEq, Repr

def section_vector : List «section» := [
  ⟨"Intro".toList, 6, 4, INT⟩,
  ⟨"CityName".toList, 128, 8, TEXT8⟩,
  ⟨"Personal".toList, 57, 4, INT⟩,
  ⟨"Ship".toList, 128, 1116, BULK⟩,
  ⟨"f".toList, 128, 1116, BULK⟩,
  ⟨"City".toList, 128, 32, BULK⟩,
  ⟨"CityInfo".toList, 128, 148, BULK⟩,
  ⟨"Log".toList, 1000, 28, BULK⟩,
  ⟨"j".toList, 1, 4, HEX⟩,
  ⟨"e".toList, 30, 32, BULK⟩,
  ⟨"Quest".toList, 64, 32, BULK⟩,
  ⟨"LogCount".toList, 1, 4, INT⟩,
  ⟨"TopoMap".toList, 462, 586, BULK⟩,
  ⟨"FeatureMap".toList, 462, 293, FMAP⟩,
  ⟨"TreasureMap".toList, 4, 328, BULK⟩,
  ⟨"SailingMap".toList, 462, 293, SMAP⟩,
  ⟨"vv".toList, 256, 12, BULK⟩,
  ⟨"vvv".toList, 2, 4, INT⟩,
  ⟨"Top10".toList, 10, 28, BULK⟩,
  ⟨"d".toList, 1, 36, ZERO⟩,
  ⟨"Villain".toList, 28, 36, BULK⟩,
  ⟨"t".toList, 1, 120, BULK⟩,
  ⟨"CityLoc".toList, 128, 16, BULK⟩,
  ⟨"CoastMap".toList, 462, 293, CMAP⟩,
  ⟨"k".toList, 8, 4, INT⟩,
  ⟨"LandingParty".toList, 8, 32, BULK⟩,
  ⟨"m".toList, 1, 12, BULK⟩,
  ⟨"ShipName".toList, 8, 8, TEXT8⟩,
  ⟨"Skill".toList, 1, 4, INT⟩]

structure subsection_info where
  method : translation_type
  byte_count : Nat
  multiplier : Nat
  deriving DecidableEq, Repr

/-- The initialiser `{method}`: `byte_count` defaults to `size_for_method.at(method)` and
`multiplier` to 1.  Every use in the table names a kind the map holds. -/
def info1 (m : translation_type) : subsection_info :=
  ⟨m, (size_for_method m).getD 0, 1⟩

/-- The initialiser `{method, byte_count}`: `multiplier` defaults to 1. -/
def info2 (m : translation_type) (byte_count : Nat) : subsection_info :=
  ⟨m, byte_count, 1⟩

abbrev simple_table := List (text × translation_type)

abbrev manual_table := List (text × List subsection_info)

def subsection_simple_decode : simple_table := [
  ("Intro_0".toList, TEXT0),
  ("Intro_3".toList, HEX),
  ("Personal_2".toList, BINARY),
  ("Personal_5".toList, SHORT),
  ("Personal_6".toList, SHORT),
  ("Personal_9".toList, SHORT),
  ("Personal_10".toList, SHORT),
  ("Personal_18".toList, BINARY),
  ("Personal_45".toList, SHORT),
  ("Personal_46".toList, SHORT),
  ("Personal_47".toList, CHAR),
  ("Personal_48".toList, CHAR),
  ("Personal_49".toList, CHAR),
  ("Personal_50".toList, CHAR),
  ("Ship_x_2".toList, SHORT),
  ("Ship_x_3".toList, SHORT),
  ("Ship_x_5".toList, SHORT),
  ("Ship_x_5_4".toList, BINARY),
  ("Ship_x_6".toList, SHORT),
  ("City_x".toList, INT),
  ("City_x_2".toList, BINARY),
  ("City_x_4".toList, BULK),
  ("City_x_7".toList, BULK),
  ("CityInfo_x_0_2".toList, SHORT),
  ("CityInfo_x_0_3".toList, SHORT),
  ("CityInfo_x_3".toList, SHORT),
  ("e_x".toList, INT),
  ("Quest_x".toList, INT),
  ("TreasureMap_x".toList, INT),
  ("vv_x".toList, INT),
  ("Villain_x_4".toList, BINARY),
  ("t_7".toList, INT),
  ("LandingParty_0".toList, uFLOAT),
  ("LandingParty_1".toList, uFLOAT),
  ("LandingParty_x".toList, HEX)]

def subsection_manual_decode : manual_table := [
  ("Personal_51".toList, [info1 CHAR, info2 ZERO 3]),
  ("Personal_52".toList, [info1 BINARY, info2 BULK 3]),
  ("Ship_x".toList, [⟨BULK, 16, 10⟩, info2 ZERO 956]),
  ("Ship_x_0".toList, [⟨SHORT, 2, 6⟩, info1 uFLOAT]),
  ("Ship_x_1".toList, [info1 uFLOAT, ⟨HEX, 4, 3⟩]),
  ("Ship_x_2_6".toList, [info1 BINARY, info2 BULK 1]),
  ("Ship_x_4".toList, [⟨SHORT, 2, 4⟩, ⟨INT, 4, 1⟩, ⟨ZERO, 0, 1⟩, ⟨SHORT, 2, 2⟩]),
  ("f_x".toList, [info2 BULK 2, info2 ZERO 98, info2 BULK 2, info2 ZERO 1014]),
  ("City_x_3".toList, [⟨CHAR, 1, 3⟩, info2 BULK 1]),
  ("CityInfo_x".toList, [info2 BULK 36, info2 BULK 48, info2 BULK 28, info2 BULK 32,
    info2 BULK 4]),
  ("CityInfo_x_0".toList, [info1 BULK, ⟨INT, 4, 4⟩, ⟨BULK, 4, 3⟩, info1 INT]),
  ("CityInfo_x_1".toList, [info1 INT, info1 BULK, ⟨INT, 4, 5⟩, ⟨SHORT, 2, 10⟩]),
  ("Log_x".toList, [⟨LCHAR, 1, 8⟩, ⟨INT, 4, 3⟩, ⟨uFLOAT, 4, 2⟩]),
  ("TreasureMap_x_68".toList, [info2 BULK 1, info2 BINARY 1, info2 BULK 1, info2 BINARY 1]),
  ("Villain_x".toList, [⟨SHORT, 2, 10⟩, info2 INT 4, ⟨SHORT, 2, 6⟩]),
  ("CityLoc_x".toList, [⟨mFLOAT, 4, 2⟩, ⟨HEX, 4, 2⟩]),
  ("t".toList, [⟨BULK, 8, 1⟩, ⟨BULK, 16, 7⟩]),
  ("Top10_x".toList, [⟨INT, 4, 2⟩, ⟨SHORT, 2, 10⟩]),
  ("Top10_x_1".toList, [info1 BINARY, info2 ZERO 3])]

/-! ## Names -/

/-- The call `to_string(c)` on a non-negative `int`. -/
def nat_to_string (n : Nat) : text := Nat.toDigits 10 n

/-- The statement `subsection = mysection.name + "_" + to_string(c)`. -/
def subsection_name (name : text) (c : Nat) : text :=
  name ++ '_' :: nat_to_string c

/-- The call `regex_replace(subsection, regex(R"(^([^_]+)_\d+)"), "$1_x")`: the pattern is
anchored at the start, takes the longest run of characters other than `_` (at least one), one
`_`, and the longest run of digits (at least one); the match is replaced by the first run
followed by `_x`, and a name with no match is returned unchanged. -/
def subsection_x_of (s : text) : text :=
  match s.takeWhile (fun ch => ch != '_'), s.dropWhile (fun ch => ch != '_') with
  | [], _ => s
  | base, '_' :: r =>
    match r.takeWhile Char.isDigit with
    | [] => s
    | _ => base ++ "_x".toList ++ r.dropWhile Char.isDigit
  | _, _ => s

/-! ## Rule lookup -/

/-- Which branch of the loop body of `unpack_section` a line takes: the uniform split of
`subsection_simple_decode` (with the key that matched and its kind), the split of
`subsection_manual_decode` (with the key that matched and its list), or the leaf read. -/
inductive resolution
  | uniform (key : text) (submeth : translation_type)
  | manual (key : text) (info : List subsection_info)
  | leaf
  deriving DecidableEq, Repr

/-- The two `if` conditions of the loop body of `unpack_section` for the line named
`subsection`, with the ternaries that pick the exact key when the map holds it and the generic
key otherwise. -/
def resolve_line (simple : simple_table) (manual : manual_table) (subsection : text)
    (method : translation_type) : resolution :=
  let subsection_x := subsection_x_of subsection
  let simple_key := if (simple.lookup subsection).isSome then subsection else subsection_x
  let manual_key := if (manual.lookup subsection).isSome then subsection else subsection_x
  match simple.lookup simple_key with
  | some submeth =>
    if submeth ≠ method then resolution.uniform simple_key submeth
    else
      match manual.lookup manual_key with
      | some info => resolution.manual manual_key info
      | none => resolution.leaf
  | none =>
    match manual.lookup manual_key with
    | some info => resolution.manual manual_key info
    | none => resolution.leaf

/-- The branch taken by iteration `c` of the loop of `unpack_section`. -/
def resolve (simple : simple_table) (manual : manual_table) (mysection : «section») (c : Nat) :
    resolution :=
  resolve_line simple manual (subsection_name mysection.name c) mysection.method

/-- The sum `byte_count_check` that the loop over a heterogeneous rule accumulates. -/
def byte_count_check (info : List subsection_info) : Nat :=
  info.foldl (fun acc subinfo => acc + subinfo.multiplier * subinfo.byte_count) 0

/-- The uniform split of a line (the body of `if (submeth != mysection.method)`): `none` is the
`abort()` on a width that does not divide, otherwise the section passed to the recursive call
and its offset. -/
def uniform_split (mysection : «section») (c : Nat) (submeth : translation_type) (size : Nat) :
    Option («section» × Nat) :=
  if 0 < size ∧ mysection.bytes_per_line % size ≠ 0 then none
  else
    let count := if 0 < size then mysection.bytes_per_line / size else 1
    if count = 1 then some (⟨mysection.name, count, size, submeth⟩, c)
    else some (⟨subsection_name mysection.name c, count, size, submeth⟩, 0)


/-! ## Input stream -/

/-- An `ifstream` opened on a file: the bytes of the file, the read position, and whether the
stream has entered the failed state (`failbit`), after which reads and seeks do nothing. -/
structure ifstream where
  data : List byte
  pos : Nat
  failed : Bool
  deriving DecidableEq, Repr

/-- The call `in.read(buffer, n)`: the bytes stored into the buffer and the stream afterwards.
A negative count or a file that ends early stores what there is and sets `failbit`. -/
def ifstream.read (s : ifstream) (n : Int) : List byte × ifstream :=
  if s.failed then ([], s)
  else if n < 0 then ([], { s with failed := true })
  else
    let avail := s.data.drop s.pos
    if n.toNat ≤ avail.length then (avail.take n.toNat, { s with pos := s.pos + n.toNat })
    else (avail, { s with pos := s.data.length, failed := true })

/-- A read into an uninitialised buffer whose whole contents are used afterwards: `none` when
fewer than `n` bytes were stored (the source would go on with indeterminate bytes). -/
def ifstream.read_full (s : ifstream) (n : Nat) : Option (List byte × ifstream) :=
  let r := s.read n
  if r.1.length = n then some r else none

/-- The call `in.seekg(off, ios_base::cur)`. -/
def ifstream.seekg_cur (s : ifstream) (off : Int) : ifstream :=
  if s.failed then s
  else if (s.pos : Int) + off < 0 then { s with failed := true }
  else { s with pos := ((s.pos : Int) + off).toNat }

/-! ## Integer conversions -/

/-- The value of a `char` that holds the byte `b`. -/
def schar (b : byte) : Int :=
  if b.val < 128 then (b.val : Int) else (b.val : Int) - 256

/-- The 32-bit pattern of the `int` a `char` holding `b` is promoted to (sign extension). -/
def sext8 (b : byte) : Nat :=
  if b.val < 128 then b.val else b.val + 0xFFFFFF00

/-- The operator `<<` on a 32-bit pattern. -/
def shl32 (x k : Nat) : Nat := (x <<< k) % 2 ^ 32

/-- The `int` whose 32-bit two's-complement pattern is `u`. -/
def to_int32 (u : Nat) : Int :=
  if u % 2 ^ 32 < 2 ^ 31 then ((u % 2 ^ 32 : Nat) : Int) else ((u % 2 ^ 32 : Nat) : Int) - 2 ^ 32

/-- The cast `(unsigned int) v` of an `int`. -/
def to_uint32 (v : Int) : Nat := (v % 2 ^ 32).toNat

/-- The call `to_string(v)` on an `int`. -/
def int_to_string : Int → text
  | Int.ofNat n => nat_to_string n
  | Int.negSucc n => '-' :: nat_to_string (n + 1)

/-- The value of a run of decimal digits. -/
def digits_value (ds : text) : Nat :=
  ds.foldl (fun acc ch => 10 * acc + (ch.toNat - '0'.toNat)) 0

/-- The optional sign `stoi` accepts: whether it is a minus, and the text after it. -/
def stoi_sign : text → Bool × text
  | '-' :: r => (true, r)
  | '+' :: r => (false, r)
  | r => (false, r)

/-- The call `stoi(s)`: leading white space is skipped, a sign is optional, the longest run of
digits is converted; `none` is `invalid_argument` (no digit) or `out_of_range`. -/
def stoi (s : text) : Option Int :=
  let signed := stoi_sign (s.dropWhile Char.isWhitespace)
  match signed.2.takeWhile Char.isDigit with
  | [] => none
  | ds =>
    let v : Int := if signed.1 then -(digits_value ds : Int) else (digits_value ds : Int)
    if -(2 ^ 31 : Int) ≤ v ∧ v < 2 ^ 31 then some v else none

/-! ## Leaf decoders on the bytes read -/

/-- One hexadecimal digit in upper case. -/
def hex_upper (d : Nat) : Char :=
  Char.ofNat (if d < 10 then '0'.toNat + d else 'A'.toNat + (d - 10))

/-- One hexadecimal digit in lower case. -/
def hex_lower (d : Nat) : Char :=
  Char.ofNat (if d < 10 then '0'.toNat + d else 'a'.toNat + (d - 10))

/-- The call `sprintf(buffer, "%02X", (unsigned char) b)`. -/
def sprintf_02X (b : byte) : text := [hex_upper (b.val / 16), hex_upper (b.val % 16)]

/-- The call `sprintf(buffer, "%02x", b)`. -/
def sprintf_02x (b : byte) : text := [hex_lower (b.val / 16), hex_lower (b.val % 16)]

/-- Modelled from the spec: `str_tolower` is declared outside the files at hand; the spec has
the bulk hex dump rendered in lower case, so the helper lowers every upper-case letter. -/
def str_tolower (s : text) : text := s.map Char.toLower

/-- The byte at index `i` of a buffer. -/
def at_index (b : List byte) (i : Nat) : byte := b.getD i 0

/-- The loop of `read_hex` over `i = 3, 2, 1, 0` on the 4 bytes read. -/
def hex_value (b : List byte) : text :=
  [3, 2, 1, 0].foldl
    (fun res i => res ++ sprintf_02X (at_index b i) ++ (if 0 < i then ['.'] else [])) []

/-- The loop of `read_bulk_hex` on the bytes read, and the final `str_tolower`. -/
def bulk_hex_value (b : List byte) : text :=
  str_tolower (b.foldl (fun res x => res ++ sprintf_02X x) [])

/-- The expression `std::bitset<8>(b).to_string()`: the 8 bits, most significant first. -/
def binary_value (b : byte) : text :=
  [7, 6, 5, 4, 3, 2, 1, 0].map fun i => if b.val.testBit i then '1' else '0'

/-- The expression `to_string(b)` of `read_char`, on a `char`. -/
def char_value (b : byte) : text := int_to_string (schar b)

/-- The `int B` of `read_short`: `(unsigned char) b[0] | (char) b[1] << 8`. -/
def short_of_bytes (b0 b1 : byte) : Int :=
  to_int32 (b0.val ||| shl32 (sext8 b1) 8)

/-- The `int B` of `read_int`. -/
def int_of_bytes (b0 b1 b2 b3 : byte) : Int :=
  to_int32 (b0.val ||| shl32 b1.val 8 ||| shl32 b2.val 16 ||| shl32 (sext8 b3) 24)

/-- The call `to_string(x)` on the `double` `micro / 10^6`, where `micro` is an integer below
`2^41` in magnitude: `"%f"` prints six decimals, and the `double` nearest to `micro / 10^6` is
closer to it than half a unit of the sixth decimal, so the text is the exact decimal expansion. -/
def micro_to_string (micro : Int) : text :=
  let frac := nat_to_string (micro.natAbs % 1000000)
  (if micro < 0 then ['-'] else []) ++ nat_to_string (micro.natAbs / 1000000) ++ '.' ::
    (List.replicate (6 - frac.length) '0' ++ frac)

/-- The call `regex_replace(s, regex("000$"), "")`. -/
def strip_000 (s : text) : text :=
  if "000".toList.isSuffixOf s then s.take (s.length - 3) else s

/-- The text `read_mFloat` makes of the integer read. -/
def mFloat_value (raw : Int) : text :=
  let retstring := strip_000 (micro_to_string (raw * 1000))
  if retstring = "0.000".toList then "0".toList else retstring

/-- The text `read_uFloat` makes of the integer read. -/
def uFloat_value (raw : Int) : text := micro_to_string raw

/-- The character a `std::string` holds for the byte `b`. -/
def char_of_byte (b : byte) : Char := Char.ofNat b.val

/-- The assignment `value = buffer` from a zero-initialised buffer into which `b` was read:
the bytes before the first zero byte. -/
def c_string (b : List byte) : text :=
  (b.takeWhile fun x => x != 0).map char_of_byte

/-- The land test of `read_world_map` for one cell. -/
def is_land (m : translation_type) (x : byte) : Bool :=
  if m = CMAP then 4 < x.val else x.val != 0

/-- The anomaly test of `read_world_map` for one cell. -/
def is_anomaly (m : translation_type) (x : byte) : Bool :=
  if m = CMAP then x.val != 0 && x.val != 9 else x.val != 0 && x.val != 255

/-- The assignment `bs.at(j)[pos] = 1` on a vector of `bitset<4>`, each held as its
`to_ulong()` value. -/
def set_bit (bs : List Nat) (j pos : Nat) : List Nat :=
  bs.modify (fun v => v ||| (1 <<< pos)) j

/-- One iteration of the first loop of `read_world_map`. -/
def world_map_step (b : List byte) (m : translation_type) (line_code : text)
    (acc : List Nat × List feature) (i : Nat) : List Nat × List feature :=
  let j := i / 4
  let k := i % 4
  let x := at_index b i
  if m = CMAP then
    let bs := if 4 < x.val then set_bit acc.1 j (3 - k) else acc.1
    if x.val ≠ 0 ∧ x.val ≠ 9 then
      (bs, acc.2 ++ [⟨line_code ++ '_' :: nat_to_string i, x⟩])
    else (bs, acc.2)
  else
    if x.val ≠ 0 then
      let bs := set_bit acc.1 j (3 - k)
      if x.val ≠ 255 then (bs, acc.2 ++ [⟨line_code ++ '_' :: nat_to_string i, x⟩])
      else (bs, acc.2)
    else acc

/-- The body of `read_world_map` after the read: the text returned and the feature list
afterwards, from the `bytecount` bytes `b` read into the buffer. -/
def world_map_value (b : List byte) (bytecount : Nat) (m : translation_type) (line_code : text)
    (features : List feature) : text × List feature :=
  let acc := (List.range bytecount).foldl (world_map_step b m line_code)
    (List.replicate (bytecount / 4 + 1) 0, features)
  let ss := acc.1.map hex_lower
  (if m = SMAP then [] else ss, acc.2)

/-! ## The unpacker -/

/-- How a run of the model ends other than by returning a state.  The first five are ends of
the source as well: an `abort()`, or an exception nobody catches. -/
inductive abort_reason
  /-- `abort()` after "byte counts are not divisible". -/
  | not_divisible
  /-- `abort()` after "subsections don't add up". -/
  | dont_add_up
  /-- `abort()` on a text length above 100. -/
  | string_too_long
  /-- `abort()` on the `logic_error` of `read_zeros`. -/
  | non_zeros
  /-- An exception nobody catches: `map::at` on a missing key, or `stoi`. -/
  | uncaught_exception
  /-- A read that stored fewer bytes than the code goes on to use, or more than the buffer
  holds.  The source does not end here: it never tests the stream, and goes on with bytes of
  the buffer that no read has stored, so that what it writes is not determined by the file.
  The model has no value for such a run and stops. -/
  | short_read
  /-- The recursion bound of the model is used up. -/
  | out_of_fuel
  deriving DecidableEq, Repr

/-- One line written to the pst file, without the comment and translation columns (they come
from `full_comment` and `full_translate`, which are outside the files at hand). -/
inductive pst_line
  /-- The line `subsection : kind_width : value : ...` of a leaf. -/
  | leaf (line_code kind_width value : text)
  /-- The line `line_code : F1 : hex : ...` of a feature. -/
  | feature_line (line_code value : text)
  /-- A line that starts with `#`. -/
  | remark (s : text)
  deriving DecidableEq, Repr

/-- What a run reads and writes: the input stream, the lines written so far (oldest first) and
the global `starting_year`. -/
structure unpack_state where
  input : ifstream
  out : List pst_line
  starting_year : Int
  deriving DecidableEq, Repr

def start_of_fixed_length_section : text := "Personal_0".toList

def jump_dist : Int := 887272

/-- The function `read_int` on the stream.  `none` when the read stored fewer than 4 bytes:
the source returns an `int` then too, made from bytes of the buffer that the read has not
stored. -/
def read_int (s : ifstream) : Option (Int × ifstream) :=
  match s.read_full 4 with
  | some ([b0, b1, b2, b3], s1) => some (int_of_bytes b0 b1 b2 b3, s1)
  | _ => none

/-- The function `store_startingyear`.  When the four bytes at the end of the jump are not in
the file the model stops with `short_read`; the source returns, with `starting_year` assigned
from a buffer that the read has not filled and with the stream failed. -/
def store_startingyear (st : unpack_state) : Except abort_reason unpack_state :=
  let s1 := st.input.seekg_cur jump_dist
  match read_int s1 with
  | none => Except.error abort_reason.short_read
  | some (year, s2) =>
    Except.ok { st with input := s2.seekg_cur (-jump_dist - 4), starting_year := year }

/-- The two text cases of the `switch` of `unpack_section`; `padding` is the 8 of `TEXT8`. -/
def decode_text (padding : Option Int) (s : ifstream) : Except abort_reason (text × ifstream) :=
  match read_int s with
  | none => Except.error abort_reason.short_read
  | some (size_of_string, s1) =>
    if size_of_string > 100 then Except.error abort_reason.string_too_long
    else
      let r := s1.read size_of_string
      match padding with
      | none => Except.ok (c_string r.1, r.2)
      | some n => Except.ok (c_string r.1, (r.2.read n).2)

/-- The function `read_world_map`: the text returned, the feature list and the stream
afterwards.  The buffer holds 600 bytes, and all `bytecount` bytes of it are used. -/
def read_world_map (s : ifstream) (bytecount : Nat) (m : translation_type) (line_code : text)
    (features : List feature) : Except abort_reason (text × List feature × ifstream) :=
  if 600 < bytecount then Except.error abort_reason.short_read
  else
    match s.read_full bytecount with
    | none => Except.error abort_reason.short_read
    | some (b, s1) =>
      let r := world_map_value b bytecount m line_code features
      Except.ok (r.1, r.2, s1)

/-- A read of `n` bytes that are all used, followed by `f` on the bytes: `read_hex`,
`read_binary`, `read_short`, `read_char` and `read_bulk_hex`.  `short_read` when the read
stored fewer than `n` bytes, where the source goes on and returns a text made from bytes that
the read has not stored. -/
def decode_fixed (n : Nat) (f : List byte → text) (s : ifstream) :
    Except abort_reason (text × ifstream) :=
  match s.read_full n with
  | none => Except.error abort_reason.short_read
  | some (b, s1) => Except.ok (f b, s1)

/-- The `switch (method)` of `unpack_section`: the value of the line, the features and the
stream afterwards.  The switch of the source has no exit on a read that stored too few bytes;
the model stops there with `short_read`, as it has no value for the line. -/
def decode_leaf (method : translation_type) (bytes_per_line : Nat) (subsection : text)
    (features : List feature) (s : ifstream) :
    Except abort_reason (text × List feature × ifstream) :=
  let plain (r : Except abort_reason (text × ifstream)) :=
    r.map fun p => (p.1, features, p.2)
  match method with
  | TEXT0 => plain (decode_text none s)
  | TEXT8 => plain (decode_text (some 8) s)
  | INT =>
    match read_int s with
    | none => Except.error abort_reason.short_read
    | some (v, s1) => Except.ok (int_to_string v, features, s1)
  | ZERO =>
    match s.read_full bytes_per_line with
    | none => Except.error abort_reason.short_read
    | some (b, s1) =>
      if b.all (fun x => x == 0) then Except.ok ("zero_string".toList, features, s1)
      else Except.error abort_reason.non_zeros
  | BULK => plain (decode_fixed bytes_per_line bulk_hex_value s)
  | HEX => plain (decode_fixed 4 hex_value s)
  | FMAP | SMAP | CMAP => read_world_map s bytes_per_line method subsection features
  | BINARY => plain (decode_fixed 1 (fun b => binary_value (at_index b 0)) s)
  | SHORT =>
    plain (decode_fixed 2
      (fun b => int_to_string (short_of_bytes (at_index b 0) (at_index b 1))) s)
  | mFLOAT =>
    match read_int s with
    | none => Except.error abort_reason.short_read
    | some (v, s1) => Except.ok (mFloat_value v, features, s1)
  | uFLOAT =>
    match read_int s with
    | none => Except.error abort_reason.short_read
    | some (v, s1) => Except.ok (uFloat_value v, features, s1)
  | CHAR => plain (decode_fixed 1 (fun b => char_value (at_index b 0)) s)
  | LCHAR => plain (decode_fixed 1 (fun b => char_value (at_index b 0)) s)

/-- The statement under "Matching bugs in perl script":
`if (method==INT && stoi(value) < 0) value = to_string((unsigned int)(stoi(value)))`. -/
def remap_negative (method : translation_type) (value : text) : Except abort_reason text :=
  if method = INT then
    match stoi value with
    | none => Except.error abort_reason.uncaught_exception
    | some v => if v < 0 then Except.ok (nat_to_string (to_uint32 v)) else Except.ok value
  else Except.ok value

/-- The part of the loop body of `unpack_section` below the "big break": read one line, capture
the starting year at `Personal_0`, remap, write the line. -/
def unpack_leaf (mysection : «section») (c : Nat) (acc : unpack_state × List feature) :
    Except abort_reason (unpack_state × List feature) :=
  let subsection := subsection_name mysection.name c
  let method := mysection.method
  let bytes_per_line := mysection.bytes_per_line
  match decode_leaf method bytes_per_line subsection acc.2 acc.1.input with
  | Except.error e => Except.error e
  | Except.ok (value, features, s1) =>
    let st1 : unpack_state := { acc.1 with input := s1 }
    match (if subsection = start_of_fixed_length_section then store_startingyear st1
           else Except.ok st1) with
    | Except.error e => Except.error e
    | Except.ok st2 =>
      match remap_negative method value with
      | Except.error e => Except.error e
      | Except.ok value1 =>
        let line_code := if is_world_map method then subsection ++ "_293".toList else subsection
        Except.ok
          ({ st2 with out := st2.out ++
              [pst_line.leaf line_code (char_for_method method ++ nat_to_string bytes_per_line)
                value1] },
           features)

/-- The loop over the triples of a heterogeneous rule, with its three running variables: the
state, `suboffset` and `byte_count_check`. -/
def unpack_manual (recur : «section» → Nat → unpack_state → Except abort_reason unpack_state)
    (subsection : text) :
    List subsection_info → unpack_state × Nat × Nat → Except abort_reason (unpack_state × Nat × Nat)
  | [], acc => Except.ok acc
  | subinfo :: rest, (st, suboffset, check) =>
    match recur ⟨subsection, subinfo.multiplier, subinfo.byte_count, subinfo.method⟩
        suboffset st with
    | Except.error e => Except.error e
    | Except.ok st1 =>
      unpack_manual recur subsection rest
        (st1, suboffset + subinfo.multiplier, check + subinfo.multiplier * subinfo.byte_count)

/-- The body of the loop of `unpack_section` for one `c`; `recur` is `unpack_section` itself. -/
def unpack_line (simple : simple_table) (manual : manual_table)
    (recur : «section» → Nat → unpack_state → Except abort_reason unpack_state)
    (mysection : «section») (c : Nat) (acc : unpack_state × List feature) :
    Except abort_reason (unpack_state × List feature) :=
  match resolve simple manual mysection c with
  | resolution.uniform _ submeth =>
    match size_for_method submeth with
    | none => Except.error abort_reason.uncaught_exception
    | some size =>
      match uniform_split mysection c submeth size with
      | none => Except.error abort_reason.not_divisible
      | some (sub, suboffset) =>
        match recur sub suboffset acc.1 with
        | Except.error e => Except.error e
        | Except.ok st1 => Except.ok (st1, acc.2)
  | resolution.manual _ info =>
    match unpack_manual recur (subsection_name mysection.name c) info (acc.1, 0, 0) with
    | Except.error e => Except.error e
    | Except.ok (st1, _, check) =>
      if check ≠ mysection.bytes_per_line then Except.error abort_reason.dont_add_up
      else Except.ok (st1, acc.2)
  | resolution.leaf => unpack_leaf mysection c acc

/-- The loop `for (int c = offset; c < mysection.count + offset; c++)`, by the number of
iterations left. -/
def unpack_loop (body : Nat → unpack_state × List feature →
      Except abort_reason (unpack_state × List feature)) :
    Nat → Nat → unpack_state × List feature → Except abort_reason (unpack_state × List feature)
  | 0, _, acc => Except.ok acc
  | left + 1, c, acc =>
    match body c acc with
    | Except.error e => Except.error e
    | Except.ok acc1 => unpack_loop body left (c + 1) acc1

/-- The lines written for the features after the loop of `unpack_section`. -/
def feature_lines (features : List feature) : List pst_line :=
  features.map fun f => pst_line.feature_line f.line_code (sprintf_02x f.v)

/-- The function `unpack_section`; the first argument bounds the depth of the recursion. -/
def unpack_section (simple : simple_table) (manual : manual_table) :
    Nat → «section» → Nat → unpack_state → Except abort_reason unpack_state
  | 0, _, _, _ => Except.error abort_reason.out_of_fuel
  | fuel + 1, mysection, offset, st =>
    let st0 : unpack_state :=
      if mysection.name = "Log".toList then
        { st with out := st.out ++ [pst_line.remark "# Ship's Log".toList] }
      else st
    match unpack_loop
        (unpack_line simple manual
          (fun sub suboffset st1 => unpack_section simple manual fuel sub suboffset st1)
          mysection)
        mysection.count offset (st0, []) with
    | Except.error e => Except.error e
    | Except.ok (st1, features) =>
      if is_world_map mysection.method then
        Except.ok { st1 with out := st1.out ++ feature_lines features }
      else Except.ok st1

/-- The value `in.tellg()` prints. -/
def ifstream.tellg (s : ifstream) : Int :=
  if s.failed then -1 else s.pos

/-- The loop of `unpack_pg_to_pst` over `section_vector`, from the state it starts in. -/
def unpack_sections (simple : simple_table) (manual : manual_table) (fuel : Nat) :
    List «section» → unpack_state → Except abort_reason unpack_state
  | [], st => Except.ok st
  | sec :: rest, st =>
    let st0 : unpack_state :=
      { st with out := st.out ++
          [pst_line.remark ("## ".toList ++ sec.name ++ " starts at byte ".toList ++
            int_to_string st.input.tellg)] }
    match unpack_section simple manual fuel sec 0 st0 with
    | Except.error e => Except.error e
    | Except.ok st1 => unpack_sections simple manual fuel rest st1

/-- The function `unpack_pg_to_pst` on the bytes of the savegame file, in a process whose
global `starting_year` holds `year`: the lines of the pst file and the global afterwards. -/
def unpack_pg_to_pst (fuel : Nat) (pg_file : List byte) (year : Int) :
    Except abort_reason unpack_state :=
  unpack_sections subsection_simple_decode subsection_manual_decode fuel section_vector
    ⟨⟨pg_file, 0, false⟩, [], year⟩

/-! ## The value column of a leaf -/

/-- The value column of the line `unpack_section` writes for a leaf of kind `method` in a
region of width `bytes_per_line`, read from the stream `s`: the `switch`, then the remap of
negative integers. -/
def leaf_value (method : translation_type) (bytes_per_line : Nat) (s : ifstream) :
    Except abort_reason text :=
  match decode_leaf method bytes_per_line [] [] s with
  | Except.error e => Except.error e
  | Except.ok (value, _, _) => remap_negative method value

/-- The bytes the leaf read of a kind takes from the stream in a region of width
`bytes_per_line`, for the kinds with a read of fixed size and for the bulk dump. -/
def leaf_read_size (method : translation_type) (bytes_per_line : Nat) : Nat :=
  match method with
  | INT => 4
  | HEX => 4
  | BINARY => 1
  | SHORT => 2
  | CHAR => 1
  | LCHAR => 1
  | _ => bytes_per_line

/-- A stream on a file that holds `bytes` at the cursor, after `pre` and before `rest`. -/
def stream_at (pre bytes rest : List byte) : ifstream :=
  ⟨pre ++ bytes ++ rest, pre.length, false⟩

deriving instance DecidableEq for Except

/-- The 8 zero bytes that follow the text of a `TEXT8` region in a well-formed file; `TEXT0`
has none. -/
def text_padding (method : translation_type) : List byte :=
  if method = TEXT8 then List.replicate 8 0 else []

/-! ## Region names -/

/-- The name the resolver builds for a region: each level of the recursion appends `_` and
an index to the name of the level above (`mysection.name + "_" + to_string(c)`). -/
def region_name (base : text) (idxs : List Nat) : text :=
  idxs.foldl subsection_name base

/-- The generic name as the specification words it: the trailing `_<index>` of the name is
replaced by `_x` and the components before it are unchanged. -/
def trailing_generic_name (base : text) (idxs : List Nat) : text :=
  region_name base idxs.dropLast ++ "_x".toList

/-! ## The schema walk without the stream -/

/-- The offset at which the loop over a heterogeneous rule calls `unpack_section` for each
triple: the sum of the multipliers before it, from `suboffset`. -/
def manual_offsets : Nat → List subsection_info → List (Nat × subsection_info)
  | _, [] => []
  | suboffset, subinfo :: rest =>
    (suboffset, subinfo) :: manual_offsets (suboffset + subinfo.multiplier) rest

/-- Whether a key of a rule table is `base`, `_` and then a digit: a key that can be the exact
name of a line of the top-level section `base`. -/
def key_indexed (base key : text) : Bool :=
  (base ++ ['_']).isPrefixOf key &&
    match key.drop (base.length + 1) with
    | ch :: _ => ch.isDigit
    | [] => false

/-- No key of the two tables is an exact name under the top-level section `base`. -/
def tables_free (simple : simple_table) (manual : manual_table) (base : text) : Bool :=
  (simple.all fun kv => !key_indexed base kv.1) && (manual.all fun kv => !key_indexed base kv.1)

/-- The loop body of `unpack_section` for one `c`, followed without reading the stream: the
branch is resolved, a uniform split must divide, the bytes of a heterogeneous split must add
up, and each recursive call of the code must pass `recur`. -/
def line_check (simple : simple_table) (manual : manual_table)
    (recur : «section» → Nat → Bool) (mysection : «section») (c : Nat) : Bool :=
  match resolve simple manual mysection c with
  | resolution.uniform _ submeth =>
    match size_for_method submeth with
    | none => false
    | some size =>
      match uniform_split mysection c submeth size with
      | none => false
      | some (sub, suboffset) => recur sub suboffset
  | resolution.manual _ info =>
    ((manual_offsets 0 info).all fun p =>
      recur ⟨subsection_name mysection.name c, p.2.multiplier, p.2.byte_count, p.2.method⟩ p.1)
    && byte_count_check info == mysection.bytes_per_line
  | resolution.leaf => true

/-- The recursion of `unpack_section` on a section and an offset, followed without reading the
stream: every line of the loop passes `line_check`, with the same check one level of the
recursion bound lower for the recursive calls.  `false` also when the bound is used up. -/
def section_ok (simple : simple_table) (manual : manual_table) : Nat → «section» → Nat → Bool
  | 0, _, _ => false
  | fuel + 1, mysection, offset =>
    (List.range mysection.count).all fun d =>
      line_check simple manual (fun sub suboffset => section_ok simple manual fuel sub suboffset)
        mysection (offset + d)

/-- A name that is not empty and has no `_` in it. -/
def name_plain (base : text) : Bool :=
  !base.isEmpty && base.all fun ch => ch != '_'

/-- The check of one top-level section: when the tables hold no exact key under its name it is
checked on its first line, otherwise on all its lines. -/
def top_section_ok (simple : simple_table) (manual : manual_table) (fuel : Nat)
    (sec : «section») : Bool :=
  if tables_free simple manual sec.name && name_plain sec.name then
    section_ok simple manual fuel ⟨sec.name, 1, sec.bytes_per_line, sec.method⟩ 0
  else section_ok simple manual fuel sec 0

/-- The check of the whole schema, section by section. -/
def schema_ok (simple : simple_table) (manual : manual_table) (fuel : Nat)
    (sections : List «section») : Bool :=
  sections.all fun sec => top_section_ok simple manual fuel sec

/-- The lines the walk of `section_vector` comes to when nothing aborts: iteration `c` of the
loop of a call of `unpack_section` on `mysection`.  The top-level calls are on the sections of
the list with offset 0; a uniform split and each triple of a heterogeneous split make the
recursive call of the code. -/
inductive in_walk (simple : simple_table) (manual : manual_table) (sections : List «section») :
    «section» → Nat → Prop
  | top (sec : «section») (c : Nat) (hsec : sec ∈ sections) (hc : c < sec.count) :
      in_walk simple manual sections sec c
  | uniform (mysection : «section») (c : Nat) (key : text) (submeth : translation_type)
      (size : Nat) (sub : «section») (suboffset d : Nat)
      (hparent : in_walk simple manual sections mysection c)
      (hrule : resolve simple manual mysection c = resolution.uniform key submeth)
      (hsize : size_for_method submeth = some size)
      (hsplit : uniform_split mysection c submeth size = some (sub, suboffset))
      (hd : d < sub.count) :
      in_walk simple manual sections sub (suboffset + d)
  | manual (mysection : «section») (c : Nat) (key : text) (info : List subsection_info)
      (suboffset : Nat) (subinfo : subsection_info) (d : Nat)
      (hparent : in_walk simple manual sections mysection c)
      (hrule : resolve simple manual mysection c = resolution.manual key info)
      (hmem : (suboffset, subinfo) ∈ manual_offsets 0 info)
      (hd : d < subinfo.multiplier) :
      in_walk simple manual sections
        ⟨subsection_name mysection.name c, subinfo.multiplier, subinfo.byte_count,
          subinfo.method⟩ (suboffset + d)

/-! ## Floating point -/

/-- Rounding to the nearest integer, a tie going to the even neighbour (the IEEE default). -/
def round_half_even (x : ℚ) : Int :=
  let f := ⌊x⌋
  if x - f < 1 / 2 then f
  else if 1 / 2 < x - f then f + 1
  else if f % 2 = 0 then f
  else f + 1

/-- The `double` nearest to the number `x`: 53 significant bits, with the unit in the last
place not below `2^-1074`.  Numbers beyond the largest `double` do not come up here. -/
def binary64 (x : ℚ) : ℚ :=
  if x = 0 then 0
  else
    let e := max (Int.log 2 |x| - 52) (-1074)
    round_half_even (x / 2 ^ e) * 2 ^ e

/-- The conversion `double(raw)` of an `int`, and of an `int` constant in a `double`
expression. -/
def double_of_int (n : Int) : ℚ := binary64 n

/-- The quotient `a / b` of two `double`s, rounded once. -/
def double_div (a b : ℚ) : ℚ := binary64 (a / b)

/-- The conversion of a `double` in fixed notation with `prec` decimals (`%.<prec>f`, or
`std::fixed` with `setprecision(prec)`): the exact value, rounded to `prec` decimals. -/
def fixed_string (prec : Nat) (x : ℚ) : text :=
  let m := (round_half_even (|x| * 10 ^ prec)).natAbs
  let frac := nat_to_string (m % 10 ^ prec)
  (if x < 0 then ['-'] else []) ++ nat_to_string (m / 10 ^ prec) ++
    (if prec = 0 then [] else '.' :: (List.replicate (prec - frac.length) '0' ++ frac))

/-- The call `to_string(x)` on a `double`, which formats with `%f`. -/
def to_string_double (x : ℚ) : text := fixed_string 6 x

/-- The function `read_uFloat` after its read, in the arithmetic of the source:
`to_string(double(raw)/1000000)`. -/
def read_uFloat_double (raw : Int) : text :=
  to_string_double (double_div (double_of_int raw) (double_of_int 1000000))

/-- The function `read_mFloat` after its read, in the arithmetic of the source. -/
def read_mFloat_double (raw : Int) : text :=
  let retstring :=
    strip_000 (to_string_double (double_div (double_of_int raw) (double_of_int 1000)))
  if retstring = "0.000".toList then "0".toList else retstring

/-! ## The line reader of LineReading.cpp -/

namespace LineReading

/-- The aggregate `info_for_line_decode`, with its members in the order of the initialisers
`{"", 0, line_code}` and `{buf, b[i], line_code + "_" + to_string(i)}` of LineReading.cpp: the
text `value`, the integer `v` and the line code. -/
structure info_for_line_decode where
  value : text
  v : Int
  line_code : text
  deriving DecidableEq, Repr

/-- How a call of `read_line` ends other than by returning. -/
inductive read_failure
  /-- The `logic_error` thrown on a text length above `sizeof(b)-2`. -/
  | string_too_long
  /-- The `logic_error` thrown on a byte that is not zero in a zero string. -/
  | non_zeros
  /-- The `logic_error` thrown when `bytes_per_line` is not the size of the kind. -/
  | incorrect_size
  /-- The exception of `map::at` on a missing key. -/
  | out_of_range
  /-- A read that stored fewer bytes than the code goes on to use from a buffer that was not
  initialised, or more than the buffer holds. -/
  | short_read
  deriving DecidableEq, Repr

/-- The conversion of an `int` to `size_t` that the comparison with `sizeof(b)-2` makes. -/
def to_size_t (v : Int) : Nat := (v % 2 ^ 64).toNat

/-- One iteration of the first loop of `read_world_map`. -/
def world_map_step (b : List byte) (m : translation_type) (line_code : text)
    (acc : List Nat × List info_for_line_decode) (i : Nat) :
    List Nat × List info_for_line_decode :=
  let j := i / 4
  let k := i % 4
  let x := at_index b i
  let bs :=
    if (m = CMAP ∧ 4 < x.val) ∨ (m ≠ CMAP ∧ x.val ≠ 0) then set_bit acc.1 j (3 - k) else acc.1
  if x.val ≠ 0 then
    if (m = CMAP ∧ x.val ≠ 9) ∨ (m ≠ CMAP ∧ x.val ≠ 255) then
      (bs, acc.2 ++ [⟨sprintf_02x x, x.val, line_code ++ '_' :: nat_to_string i⟩])
    else (bs, acc.2)
  else (bs, acc.2)

/-- The body of `read_world_map` after the read: the text returned and the feature list
afterwards, from the `bytecount` bytes `b` read into the buffer. -/
def world_map_value (b : List byte) (bytecount : Nat) (m : translation_type) (line_code : text)
    (features : List info_for_line_decode) : text × List info_for_line_decode :=
  let acc := (List.range bytecount).foldl (world_map_step b m line_code)
    (List.replicate (bytecount / 4 + 1) 0, features)
  let ss := acc.1.map hex_lower
  (if m = SMAP then [] else ss, acc.2)

/-- The function `read_world_map` of LineReading.cpp: the text returned, the feature list and
the stream afterwards.  The buffer holds 600 bytes, and all `bytecount` bytes of it are used. -/
def read_world_map (s : ifstream) (bytecount : Nat) (m : translation_type) (line_code : text)
    (features : List info_for_line_decode) :
    Except read_failure (text × List info_for_line_decode × ifstream) :=
  if 600 < bytecount then Except.error read_failure.short_read
  else
    match s.read_full bytecount with
    | none => Except.error read_failure.short_read
    | some (b, s1) =>
      let r := world_map_value b bytecount m line_code features
      Except.ok (r.1, r.2, s1)

/-- The byte `b[0]` after `in.read((char*)&b, 1)`: the byte read, or what was there when the
stream has no more. -/
def read_one (s : ifstream) (b0 : byte) : byte × ifstream :=
  match s.read 1 with
  | (x :: _, s1) => (x, s1)
  | ([], s1) => (b0, s1)

/-- The loop of the `BULK` case, by the number of iterations left: `b0` is `b[0]`, `ss` the
text so far. -/
def bulk_loop : Nat → ifstream → byte → text → text × ifstream
  | 0, s, _, ss => (ss, s)
  | left + 1, s, b0, ss =>
    let r := read_one s b0
    bulk_loop left r.2 r.1 (ss ++ sprintf_02x r.1)

/-- The loop of the `ZERO` case, by the number of iterations left; `none` is the throw. -/
def zero_loop : Nat → ifstream → byte → Option ifstream
  | 0, s, _ => some s
  | left + 1, s, b0 =>
    let r := read_one s b0
    if r.1 ≠ 0 then none else zero_loop left r.2 r.1

/-- One iteration of the loop of the fixed-size kinds over `i = bytes_per_line-1, ..., 0`: the
integer `info.v` and the text `ss`. -/
def number_step (b : List byte) (method : translation_type) (bytes_per_line : Nat)
    (acc : Int × text) (i : Nat) : Int × text :=
  let v : Int :=
    if i < bytes_per_line - 1 then
      to_int32 (to_uint32 (acc.1 * 256 + ((at_index b i).val : Int)))
    else schar (at_index b i)
  let ss :=
    if method = HEX then
      acc.2 ++ sprintf_02X (at_index b i) ++ (if i ≠ 0 then ['.'] else [])
    else acc.2
  (v, ss)

/-- The text the second `switch` appends for the integer `v`. -/
def number_text (method : translation_type) (v : Int) : text :=
  match method with
  | uFLOAT =>
    let t := fixed_string 6 (double_div (double_of_int v) (double_of_int 1000000))
    List.replicate (10 - t.length) ' ' ++ t
  | mFLOAT =>
    if v = 0 then "0".toList
    else
      let t := fixed_string 3 (double_div (double_of_int v) (double_of_int 1000))
      t ++ List.replicate (6 - t.length) ' '
  | BINARY => binary_value (Fin.ofNat (v % 256).toNat)
  | HEX => []
  | _ => int_to_string v

/-- The function `read_line` (its `out` argument is not used): the record returned, the
feature list and the stream afterwards. -/
def read_line (s : ifstream) (line_code : text) (method : translation_type)
    (bytes_per_line : Nat) (features : List info_for_line_decode) :
    Except read_failure (info_for_line_decode × List info_for_line_decode × ifstream) :=
  match method with
  | TEXT0 | TEXT8 =>
    match read_int s with
    | none => Except.error read_failure.short_read
    | some (size_of_string, s1) =>
      if 100 - 2 < to_size_t size_of_string then Except.error read_failure.string_too_long
      else
        let r := s1.read size_of_string
        let s2 := if method = TEXT8 then ((r.2.read 4).2.read 4).2 else r.2
        Except.ok (⟨c_string r.1, 0, line_code⟩, features, s2)
  | BULK =>
    let r := bulk_loop bytes_per_line s 0 []
    Except.ok (⟨r.1, 0, line_code⟩, features, r.2)
  | ZERO =>
    match zero_loop bytes_per_line s 0 with
    | none => Except.error read_failure.non_zeros
    | some s1 => Except.ok (⟨"zero_string".toList, 0, line_code⟩, features, s1)
  | FMAP | SMAP | CMAP =>
    match read_world_map s bytes_per_line method line_code features with
    | Except.error e => Except.error e
    | Except.ok (value, features1, s1) => Except.ok (⟨value, 0, line_code⟩, features1, s1)
  | _ =>
    match size_for_method method with
    | none => Except.error read_failure.out_of_range
    | some size =>
      if bytes_per_line ≠ size then Except.error read_failure.incorrect_size
      else
        let r := s.read bytes_per_line
        let acc := (List.range bytes_per_line).reverse.foldl
          (number_step r.1 method bytes_per_line) (0, [])
        Except.ok (⟨acc.2 ++ number_text method acc.1, acc.1, line_code⟩, features, r.2)

end LineReading

/-! ## Alignment of the stream -/

/-- The kinds whose read function takes a fixed number of bytes, whatever the width of the
region: `read_int` (also under `read_uFloat` and `read_mFloat`), `read_hex`, `read_binary`,
`read_short` and `read_char`. -/
def fixed_kinds : List translation_type := [INT, HEX, BINARY, SHORT, CHAR, LCHAR, uFLOAT, mFLOAT]

/-- A section outside the text regions: its name is not under `Intro`, its kind is not a text
kind, and a kind of `fixed_kinds` has its size in `size_for_method` as width. -/
def aligned (sec : «section») : Bool :=
  (sec.name.takeWhile fun ch => ch != '_') != "Intro".toList &&
    sec.method != TEXT0 && sec.method != TEXT8 &&
    (!fixed_kinds.contains sec.method || size_for_method sec.method == some sec.bytes_per_line)

/-- Whether the grid of a section of a world map kind fits the 600 bytes of the buffer of
`read_world_map`. -/
def map_fits (sec : «section») : Bool :=
  !is_world_map sec.method || decide (sec.bytes_per_line ≤ 600)

/-! ## Depth of the recursion -/

/-- The index levels of a name: the number of `_` in it. -/
def levels (name : text) : Nat := name.count '_'

/-- The most index levels among the keys of the two rule tables. -/
def key_levels (simple : simple_table) (manual : manual_table) : Nat :=
  ((simple.map fun kv => levels kv.1) ++ (manual.map fun kv => levels kv.1)).foldl max 0

/-! # Theorems -/

/-! ## Decimal digits -/

theorem digitChar_mem (d : Nat) (h : d < 10) : Nat.digitChar d ∈ "0123456789".toList := by
  interval_cases d <;> decide

theorem digitChar_value (d : Nat) (h : d < 10) : (Nat.digitChar d).toNat - '0'.toNat = d := by
  interval_cases d <;> decide

theorem toDigitsCore_mem (fuel : Nat) :
    ∀ (n : Nat) (ds : text), (∀ ch ∈ ds, ch ∈ "0123456789".toList) →
      ∀ ch ∈ Nat.toDigitsCore 10 fuel n ds, ch ∈ "0123456789".toList := by
  induction fuel with
  | zero => intro n ds h; simpa [Nat.toDigitsCore] using h
  | succ fuel ih =>
    intro n ds h
    have hd : Nat.digitChar (n % 10) ∈ "0123456789".toList :=
      digitChar_mem _ (Nat.mod_lt _ (by decide))
    have hcons : ∀ ch ∈ Nat.digitChar (n % 10) :: ds, ch ∈ "0123456789".toList := by
      intro ch hch
      rcases List.mem_cons.1 hch with rfl | hch
      · exact hd
      · exact h ch hch
    simp only [Nat.toDigitsCore]
    split
    · exact hcons
    · exact ih _ _ hcons

/-- What the code uses of a decimal digit: `\d` matches it, `stoi` does not skip it as white
space or take it for a sign, and it is neither `_` nor `x`. -/
theorem digit_facts {ch : Char} (h : ch ∈ "0123456789".toList) :
    ch.isDigit = true ∧ ch.isWhitespace = false ∧ ch ≠ '-' ∧ ch ≠ '+' ∧ ch ≠ '_' ∧ ch ≠ 'x' := by
  simp only [String.toList, List.mem_cons, List.mem_singleton, List.not_mem_nil, or_false] at h
  rcases h with rfl | rfl | rfl | rfl | rfl | rfl | rfl | rfl | rfl | rfl <;> decide

theorem nat_to_string_mem (n : Nat) : ∀ ch ∈ nat_to_string n, ch ∈ "0123456789".toList :=
  toDigitsCore_mem _ _ _ (by simp)

theorem nat_to_string_all_digits (n : Nat) : ∀ ch ∈ nat_to_string n, ch.isDigit = true :=
  fun ch h => (digit_facts (nat_to_string_mem n ch h)).1

theorem toDigitsCore_ne_nil (fuel : Nat) :
    ∀ (n : Nat) (ds : text), ds ≠ [] ∨ 0 < fuel → Nat.toDigitsCore 10 fuel n ds ≠ [] := by
  induction fuel with
  | zero =>
    intro n ds h
    rcases h with h | h
    · simpa [Nat.toDigitsCore] using h
    · exact absurd h (by decide)
  | succ fuel ih =>
    intro n ds _
    simp only [Nat.toDigitsCore]
    split
    · simp
    · exact ih _ _ (Or.inl (by simp))

theorem toDigitsCore_value (fuel : Nat) :
    ∀ (n : Nat) (ds : text), n < fuel →
      digits_value (Nat.toDigitsCore 10 fuel n ds) =
        ds.foldl (fun acc ch => 10 * acc + (ch.toNat - '0'.toNat)) n := by
  induction fuel with
  | zero => intro n ds h; exact absurd h (Nat.not_lt_zero _)
  | succ fuel ih =>
    intro n ds h
    have hv := digitChar_value (n % 10) (Nat.mod_lt _ (by decide))
    simp only [Nat.toDigitsCore]
    split
    · rename_i h0
      have hn : n % 10 = n := by omega
      simp only [digits_value, List.foldl_cons, hv, Nat.mul_zero, Nat.zero_add]
      rw [hn]
    · rename_i h0
      have hlt : n / 10 < fuel := by omega
      rw [ih (n / 10) _ hlt]
      simp only [List.foldl_cons, hv]
      congr 1
      omega

theorem nat_to_string_ne_nil (n : Nat) : nat_to_string n ≠ [] :=
  toDigitsCore_ne_nil _ _ _ (Or.inr (Nat.succ_pos _))

theorem digits_value_nat_to_string (n : Nat) : digits_value (nat_to_string n) = n := by
  have h := toDigitsCore_value (n + 1) n [] (Nat.lt_succ_self n)
  simpa [nat_to_string, Nat.toDigits] using h

theorem nat_to_string_injective {m n : Nat} (h : nat_to_string m = nat_to_string n) : m = n := by
  have := congrArg digits_value h
  simpa [digits_value_nat_to_string] using this

theorem nat_to_string_head_digit (n : Nat) :
    ∃ ch rest, nat_to_string n = ch :: rest ∧ ch ∈ "0123456789".toList := by
  cases h : nat_to_string n with
  | nil => exact absurd h (nat_to_string_ne_nil n)
  | cons ch rest =>
    exact ⟨ch, rest, rfl, nat_to_string_mem n ch (by simp [h])⟩

theorem int_to_string_injective {v w : Int} (h : int_to_string v = int_to_string w) : v = w := by
  cases v with
  | ofNat m =>
    cases w with
    | ofNat n => simp only [int_to_string] at h; rw [nat_to_string_injective h]
    | negSucc n =>
      simp only [int_to_string] at h
      obtain ⟨ch, rest, hr, hd⟩ := nat_to_string_head_digit m
      rw [hr] at h
      injection h with h1 _
      subst h1
      exact absurd rfl (digit_facts hd).2.2.1
  | negSucc m =>
    cases w with
    | ofNat n =>
      simp only [int_to_string] at h
      obtain ⟨ch, rest, hr, hd⟩ := nat_to_string_head_digit n
      rw [hr] at h
      injection h with h1 _
      subst h1
      exact absurd rfl (digit_facts hd).2.2.1
    | negSucc n =>
      simp only [int_to_string] at h
      injection h with _ h2
      have := nat_to_string_injective h2
      have : m = n := by omega
      rw [this]

/-! ## Integers from bytes -/

theorem or_shifted (lo hi k : Nat) (h : lo < 2 ^ k) : lo ||| hi * 2 ^ k = lo + hi * 2 ^ k := by
  rw [Nat.lor_comm, Nat.mul_comm hi, ← Nat.mul_add_lt_is_or h, Nat.add_comm]

theorem shl32_byte8 (b : byte) : shl32 b.val 8 = b.val * 2 ^ 8 := by
  have := b.isLt
  simp only [shl32, Nat.shiftLeft_eq]
  omega

theorem shl32_byte16 (b : byte) : shl32 b.val 16 = b.val * 2 ^ 16 := by
  have := b.isLt
  simp only [shl32, Nat.shiftLeft_eq]
  omega

theorem shl32_sext24 (b : byte) : shl32 (sext8 b) 24 = b.val * 2 ^ 24 := by
  have := b.isLt
  simp only [shl32, sext8, Nat.shiftLeft_eq]
  split <;> omega

theorem int_pattern (b0 b1 b2 b3 : byte) :
    b0.val ||| shl32 b1.val 8 ||| shl32 b2.val 16 ||| shl32 (sext8 b3) 24 =
      b0.val + 256 * b1.val + 65536 * b2.val + 16777216 * b3.val := by
  have h0 := b0.isLt
  have h1 := b1.isLt
  have h2 := b2.isLt
  have h3 := b3.isLt
  rw [shl32_byte8, shl32_byte16, shl32_sext24, or_shifted b0.val b1.val 8 (by omega),
    or_shifted (b0.val + b1.val * 2 ^ 8) b2.val 16 (by omega),
    or_shifted (b0.val + b1.val * 2 ^ 8 + b2.val * 2 ^ 16) b3.val 24 (by omega)]
  omega

theorem int_of_bytes_eq (b0 b1 b2 b3 : byte) :
    int_of_bytes b0 b1 b2 b3 =
      (b0.val : Int) + 256 * b1.val + 65536 * b2.val + 16777216 * schar b3 := by
  have h0 := b0.isLt
  have h1 := b1.isLt
  have h2 := b2.isLt
  have h3 := b3.isLt
  simp only [int_of_bytes, int_pattern, to_int32, schar]
  split <;> split <;> omega

theorem short_of_bytes_eq (b0 b1 : byte) :
    short_of_bytes b0 b1 = (b0.val : Int) + 256 * schar b1 := by
  have h0 := b0.isLt
  have h1 := b1.isLt
  have hs : shl32 (sext8 b1) 8 = (if b1.val < 128 then b1.val else b1.val + 0xFFFF00) * 2 ^ 8 := by
    simp only [shl32, sext8, Nat.shiftLeft_eq]
    split <;> omega
  simp only [short_of_bytes, hs]
  rw [or_shifted _ _ _ (by omega)]
  simp only [to_int32, schar]
  split <;> split <;> omega

theorem to_uint32_int_of_bytes (b0 b1 b2 b3 : byte) :
    to_uint32 (int_of_bytes b0 b1 b2 b3) =
      b0.val + 256 * b1.val + 65536 * b2.val + 16777216 * b3.val := by
  have h0 := b0.isLt
  have h1 := b1.isLt
  have h2 := b2.isLt
  have h3 := b3.isLt
  simp only [int_of_bytes_eq, to_uint32, schar]
  split <;> omega

theorem stoi_sign_other (ch : Char) (rest : text) (hm : ch ≠ '-') (hp : ch ≠ '+') :
    stoi_sign (ch :: rest) = (false, ch :: rest) := by
  unfold stoi_sign
  split
  · rename_i heq; injection heq with h1 _; exact absurd h1 hm
  · rename_i heq; injection heq with h1 _; exact absurd h1 hp
  · rfl

theorem stoi_int_to_string (v : Int) (hlo : -(2 ^ 31 : Int) ≤ v) (hhi : v < 2 ^ 31) :
    stoi (int_to_string v) = some v := by
  cases v with
  | ofNat n =>
    obtain ⟨ch, rest, hr, hd⟩ := nat_to_string_head_digit n
    obtain ⟨_, hw, hm, hp, _, _⟩ := digit_facts hd
    have htake : (ch :: rest).takeWhile Char.isDigit = ch :: rest := by
      rw [List.takeWhile_eq_self_iff, ← hr]
      exact nat_to_string_all_digits n
    have hval : digits_value (ch :: rest) = n := by rw [← hr, digits_value_nat_to_string]
    have hs1 : (ch :: rest).dropWhile Char.isWhitespace = ch :: rest := by
      simp [List.dropWhile, hw]
    have hrange : -(2 ^ 31 : Int) ≤ (n : Int) ∧ (n : Int) < 2 ^ 31 := ⟨hlo, hhi⟩
    simp only [stoi, int_to_string, hr, hs1, stoi_sign_other ch rest hm hp, htake, hval]
    simp only [Bool.false_eq_true, if_false, hrange, and_self, if_true]
    rfl
  | negSucc n =>
    obtain ⟨ch, rest, hr, hd⟩ := nat_to_string_head_digit (n + 1)
    have htake : (ch :: rest).takeWhile Char.isDigit = ch :: rest := by
      rw [List.takeWhile_eq_self_iff, ← hr]
      exact nat_to_string_all_digits (n + 1)
    have hval : digits_value (ch :: rest) = n + 1 := by rw [← hr, digits_value_nat_to_string]
    have hs1 : ('-' :: ch :: rest).dropWhile Char.isWhitespace = '-' :: ch :: rest := by
      simp [List.dropWhile]
    have hsign : stoi_sign ('-' :: ch :: rest) = (true, ch :: rest) := rfl
    have h1 : -(2 ^ 31 : Int) ≤ -((n + 1 : Nat) : Int) ∧ -((n + 1 : Nat) : Int) < 2 ^ 31 := by
      constructor
      · have := hlo; simp only [Int.negSucc_eq] at this; push_cast; omega
      · push_cast; omega
    simp only [stoi, int_to_string, hr, hs1, hsign, htake, hval]
    simp only [if_true, h1, and_self]
    simp [Int.negSucc_eq]

/-! ## Reads -/

theorem read_stream_at (pre bytes rest : List byte) :
    (stream_at pre bytes rest).read bytes.length =
      (bytes, ⟨pre ++ bytes ++ rest, pre.length + bytes.length, false⟩) := by
  simp [stream_at, ifstream.read, List.append_assoc]

theorem read_full_stream_at (pre bytes rest : List byte) (n : Nat) (h : bytes.length = n) :
    (stream_at pre bytes rest).read_full n =
      some (bytes, ⟨pre ++ bytes ++ rest, pre.length + n, false⟩) := by
  subst h
  simp [ifstream.read_full, read_stream_at]

theorem read_int_stream_at (pre rest : List byte) (b0 b1 b2 b3 : byte) :
    read_int (stream_at pre [b0, b1, b2, b3] rest) =
      some (int_of_bytes b0 b1 b2 b3, ⟨pre ++ [b0, b1, b2, b3] ++ rest, pre.length + 4, false⟩) := by
  simp [read_int, read_full_stream_at pre [b0, b1, b2, b3] rest 4 rfl]

theorem int_of_bytes_range (b0 b1 b2 b3 : byte) :
    -(2 ^ 31 : Int) ≤ int_of_bytes b0 b1 b2 b3 ∧ int_of_bytes b0 b1 b2 b3 < 2 ^ 31 := by
  have h0 := b0.isLt
  have h1 := b1.isLt
  have h2 := b2.isLt
  have h3 := b3.isLt
  simp only [int_of_bytes_eq, schar]
  split <;> constructor <;> omega

theorem int_to_string_nonneg (v : Int) (h : 0 ≤ v) : int_to_string v = nat_to_string v.toNat := by
  cases v with
  | ofNat n => rfl
  | negSucc n => exact absurd h (by simp [Int.negSucc_lt_zero])

theorem to_uint32_nonneg (v : Int) (h : 0 ≤ v) (hhi : v < 2 ^ 31) : to_uint32 v = v.toNat := by
  simp only [to_uint32]
  congr 1
  omega

theorem remap_int_to_string (v : Int) (hlo : -(2 ^ 31 : Int) ≤ v) (hhi : v < 2 ^ 31) :
    remap_negative INT (int_to_string v) = Except.ok (nat_to_string (to_uint32 v)) := by
  simp only [remap_negative, if_true, stoi_int_to_string v hlo hhi]
  split
  · rfl
  · rename_i h
    rw [int_to_string_nonneg v (by omega), to_uint32_nonneg v (by omega) hhi]

theorem leaf_value_int (w : Nat) (pre rest : List byte) (b0 b1 b2 b3 : byte) :
    leaf_value INT w (stream_at pre [b0, b1, b2, b3] rest) =
      Except.ok (nat_to_string (to_uint32 (int_of_bytes b0 b1 b2 b3))) := by
  have hr := int_of_bytes_range b0 b1 b2 b3
  simp only [leaf_value, decode_leaf, read_int_stream_at]
  exact remap_int_to_string _ hr.1 hr.2

/-- C4. For every 4-byte input `b0 b1 b2 b3`, the value column that `unpack_section` writes for
an `INT` leaf is the decimal text of the unsigned little-endian 32-bit number
`b0 + 256*b1 + 65536*b2 + 16777216*b3`, which is the signed result of `read_int` taken modulo
`2^32`; the bytes `FF FF FF FF` give `4294967295`. -/
theorem int_leaf_renders_unsigned (w : Nat) (pre rest : List byte) (b0 b1 b2 b3 : byte) :
    leaf_value INT w (stream_at pre [b0, b1, b2, b3] rest) =
        Except.ok (nat_to_string
          (b0.val + 256 * b1.val + 65536 * b2.val + 16777216 * b3.val)) ∧
      ((b0.val + 256 * b1.val + 65536 * b2.val + 16777216 * b3.val : Nat) : Int) =
        int_of_bytes b0 b1 b2 b3 % 2 ^ 32 ∧
      read_int (stream_at pre [b0, b1, b2, b3] rest) =
        some (int_of_bytes b0 b1 b2 b3,
          ⟨pre ++ [b0, b1, b2, b3] ++ rest, pre.length + 4, false⟩) ∧
      leaf_value INT w (stream_at pre [255, 255, 255, 255] rest) =
        Except.ok "4294967295".toList := by
  refine ⟨?_, ?_, read_int_stream_at pre rest b0 b1 b2 b3, ?_⟩
  · rw [leaf_value_int, to_uint32_int_of_bytes]
  · have h0 := b0.isLt
    have h1 := b1.isLt
    have h2 := b2.isLt
    have h3 := b3.isLt
    simp only [int_of_bytes_eq, schar]
    split <;> omega
  · rw [leaf_value_int, to_uint32_int_of_bytes]
    exact congrArg Except.ok (by decide)

/-! ## The fixed-size decoders determine the bytes -/

theorem hex_upper_injective (d e : Nat) (hd : d < 16) (he : e < 16)
    (h : hex_upper d = hex_upper e) : d = e := by
  have key : ∀ a b : Fin 16, hex_upper a.val = hex_upper b.val → a = b := by decide
  exact congrArg Fin.val (key ⟨d, hd⟩ ⟨e, he⟩ h)

theorem lower_hex_upper_injective (d e : Nat) (hd : d < 16) (he : e < 16)
    (h : (hex_upper d).toLower = (hex_upper e).toLower) : d = e := by
  have key : ∀ a b : Fin 16, (hex_upper a.val).toLower = (hex_upper b.val).toLower → a = b := by
    decide
  exact congrArg Fin.val (key ⟨d, hd⟩ ⟨e, he⟩ h)

theorem byte_of_nibbles (a b : byte) (hq : a.val / 16 = b.val / 16)
    (hr : a.val % 16 = b.val % 16) : a = b := by
  apply Fin.ext
  omega

theorem sprintf_02X_injective (a b : byte) (h : sprintf_02X a = sprintf_02X b) : a = b := by
  have ha := a.isLt
  have hb := b.isLt
  simp only [sprintf_02X, List.cons.injEq, and_true] at h
  exact byte_of_nibbles a b
    (hex_upper_injective _ _ (by omega) (by omega) h.1)
    (hex_upper_injective _ _ (by omega) (by omega) h.2)

theorem hex_value_four (b0 b1 b2 b3 : byte) :
    hex_value [b0, b1, b2, b3] =
      sprintf_02X b3 ++ '.' :: (sprintf_02X b2 ++ '.' :: (sprintf_02X b1 ++ '.' :: sprintf_02X b0)) := by
  simp [hex_value, at_index, sprintf_02X]

theorem length_four {α : Type} (l : List α) (h : l.length = 4) :
    ∃ a b c d, l = [a, b, c, d] := by
  match l, h with
  | [a, b, c, d], _ => exact ⟨a, b, c, d, rfl⟩

theorem length_two {α : Type} (l : List α) (h : l.length = 2) : ∃ a b, l = [a, b] := by
  match l, h with
  | [a, b], _ => exact ⟨a, b, rfl⟩

theorem length_one {α : Type} (l : List α) (h : l.length = 1) : ∃ a, l = [a] := by
  match l, h with
  | [a], _ => exact ⟨a, rfl⟩

theorem hex_value_injective (a b : List byte) (ha : a.length = 4) (hb : b.length = 4)
    (h : hex_value a = hex_value b) : a = b := by
  obtain ⟨a0, a1, a2, a3, rfl⟩ := length_four a ha
  obtain ⟨b0, b1, b2, b3, rfl⟩ := length_four b hb
  rw [hex_value_four, hex_value_four] at h
  simp only [sprintf_02X, List.cons_append, List.nil_append, List.cons.injEq, and_true] at h
  obtain ⟨h3q, h3r, -, h2q, h2r, -, h1q, h1r, -, h0q, h0r⟩ := h
  have e0 := sprintf_02X_injective a0 b0 (by simp [sprintf_02X, h0q, h0r])
  have e1 := sprintf_02X_injective a1 b1 (by simp [sprintf_02X, h1q, h1r])
  have e2 := sprintf_02X_injective a2 b2 (by simp [sprintf_02X, h2q, h2r])
  have e3 := sprintf_02X_injective a3 b3 (by simp [sprintf_02X, h3q, h3r])
  rw [e0, e1, e2, e3]

theorem bulk_fold_append (b : List byte) :
    ∀ init : text, b.foldl (fun res x => res ++ sprintf_02X x) init =
      init ++ b.foldl (fun res x => res ++ sprintf_02X x) [] := by
  induction b with
  | nil => intro init; simp
  | cons x xs ih =>
    intro init
    simp only [List.foldl_cons, List.nil_append]
    rw [ih (init ++ sprintf_02X x), ih (sprintf_02X x), List.append_assoc]

theorem bulk_hex_value_cons (x : byte) (xs : List byte) :
    bulk_hex_value (x :: xs) =
      (hex_upper (x.val / 16)).toLower :: (hex_upper (x.val % 16)).toLower :: bulk_hex_value xs := by
  simp only [bulk_hex_value, List.foldl_cons, List.nil_append]
  rw [bulk_fold_append]
  simp [str_tolower, sprintf_02X]

theorem bulk_hex_value_injective :
    ∀ a b : List byte, a.length = b.length → bulk_hex_value a = bulk_hex_value b → a = b := by
  intro a
  induction a with
  | nil =>
    intro b hl _
    cases b with
    | nil => rfl
    | cons y ys => simp at hl
  | cons x xs ih =>
    intro b hl h
    cases b with
    | nil => simp at hl
    | cons y ys =>
      rw [bulk_hex_value_cons, bulk_hex_value_cons] at h
      simp only [List.cons.injEq] at h
      have hx := x.isLt
      have hy := y.isLt
      have e : x = y := byte_of_nibbles x y
        (lower_hex_upper_injective _ _ (by omega) (by omega) h.1)
        (lower_hex_upper_injective _ _ (by omega) (by omega) h.2.1)
      rw [e, ih ys (by simpa using hl) h.2.2]

theorem bit_char_injective (p q : Bool)
    (h : (if p = true then '1' else '0') = (if q = true then '1' else '0')) : p = q := by
  cases p <;> cases q <;> simp at h ⊢

theorem binary_value_injective (a b : byte) (h : binary_value a = binary_value b) : a = b := by
  simp only [binary_value, List.map_cons, List.map_nil, List.cons.injEq, and_true] at h
  obtain ⟨h7, h6, h5, h4, h3, h2, h1, h0⟩ := h
  apply Fin.ext
  apply Nat.eq_of_testBit_eq
  intro i
  by_cases hi : i < 8
  · interval_cases i
    · exact bit_char_injective _ _ h0
    · exact bit_char_injective _ _ h1
    · exact bit_char_injective _ _ h2
    · exact bit_char_injective _ _ h3
    · exact bit_char_injective _ _ h4
    · exact bit_char_injective _ _ h5
    · exact bit_char_injective _ _ h6
    · exact bit_char_injective _ _ h7
  · have hp : (2 : Nat) ^ 8 ≤ 2 ^ i := Nat.pow_le_pow_right (by decide) (by omega)
    rw [Nat.testBit_lt_two_pow (Nat.lt_of_lt_of_le a.isLt hp),
      Nat.testBit_lt_two_pow (Nat.lt_of_lt_of_le b.isLt hp)]

theorem schar_injective (a b : byte) (h : schar a = schar b) : a = b := by
  have ha := a.isLt
  have hb := b.isLt
  apply Fin.ext
  simp only [schar] at h
  split at h <;> split at h <;> omega

theorem char_value_injective (a b : byte) (h : char_value a = char_value b) : a = b :=
  schar_injective a b (int_to_string_injective h)

theorem short_injective (a0 a1 b0 b1 : byte)
    (h : int_to_string (short_of_bytes a0 a1) = int_to_string (short_of_bytes b0 b1)) :
    a0 = b0 ∧ a1 = b1 := by
  have h' := int_to_string_injective h
  have ha0 := a0.isLt
  have ha1 := a1.isLt
  have hb0 := b0.isLt
  have hb1 := b1.isLt
  simp only [short_of_bytes_eq, schar] at h'
  constructor <;> apply Fin.ext <;> (split at h' <;> split at h' <;> omega)

theorem int_unsigned_injective (a0 a1 a2 a3 b0 b1 b2 b3 : byte)
    (h : nat_to_string (to_uint32 (int_of_bytes a0 a1 a2 a3)) =
      nat_to_string (to_uint32 (int_of_bytes b0 b1 b2 b3))) :
    a0 = b0 ∧ a1 = b1 ∧ a2 = b2 ∧ a3 = b3 := by
  have h' := nat_to_string_injective h
  rw [to_uint32_int_of_bytes, to_uint32_int_of_bytes] at h'
  have ha0 := a0.isLt
  have ha1 := a1.isLt
  have ha2 := a2.isLt
  have ha3 := a3.isLt
  have hb0 := b0.isLt
  have hb1 := b1.isLt
  have hb2 := b2.isLt
  have hb3 := b3.isLt
  refine ⟨?_, ?_, ?_, ?_⟩ <;> apply Fin.ext <;> omega

theorem decode_fixed_stream_at (n : Nat) (f : List byte → text) (pre bytes rest : List byte)
    (h : bytes.length = n) :
    decode_fixed n f (stream_at pre bytes rest) =
      Except.ok (f bytes, ⟨pre ++ bytes ++ rest, pre.length + n, false⟩) := by
  simp [decode_fixed, read_full_stream_at pre bytes rest n h]

/-- For each of the seven kinds the value column is a function of the bytes read, and that
function is injective on byte strings of the size read. -/
theorem kind_decoder (method : translation_type)
    (hm : method ∈ [INT, HEX, BINARY, SHORT, CHAR, LCHAR, BULK]) (w : Nat) :
    ∃ f : List byte → text,
      (∀ pre bytes rest : List byte, bytes.length = leaf_read_size method w →
        leaf_value method w (stream_at pre bytes rest) = Except.ok (f bytes)) ∧
      (∀ a b : List byte, a.length = leaf_read_size method w →
        b.length = leaf_read_size method w → f a = f b → a = b) := by
  simp only [List.mem_cons, List.mem_singleton, List.not_mem_nil, or_false] at hm
  rcases hm with rfl | rfl | rfl | rfl | rfl | rfl | rfl
  · -- INT
    refine ⟨fun b => nat_to_string (to_uint32
      (int_of_bytes (at_index b 0) (at_index b 1) (at_index b 2) (at_index b 3))), ?_, ?_⟩
    · intro pre bytes rest hl
      obtain ⟨b0, b1, b2, b3, rfl⟩ := length_four bytes hl
      rw [leaf_value_int]
      rfl
    · intro a b ha hb h
      obtain ⟨a0, a1, a2, a3, rfl⟩ := length_four a ha
      obtain ⟨b0, b1, b2, b3, rfl⟩ := length_four b hb
      obtain ⟨e0, e1, e2, e3⟩ := int_unsigned_injective a0 a1 a2 a3 b0 b1 b2 b3 h
      rw [e0, e1, e2, e3]
  · -- HEX
    refine ⟨hex_value, ?_, fun a b ha hb h => hex_value_injective a b ha hb h⟩
    intro pre bytes rest hl
    simp only [leaf_value, decode_leaf, decode_fixed_stream_at 4 _ pre bytes rest hl,
      Except.map, remap_negative]
    simp
  · -- BINARY
    refine ⟨fun b => binary_value (at_index b 0), ?_, ?_⟩
    · intro pre bytes rest hl
      simp only [leaf_value, decode_leaf, decode_fixed_stream_at 1 _ pre bytes rest hl,
        Except.map, remap_negative]
      simp
    · intro a b ha hb h
      obtain ⟨a0, rfl⟩ := length_one a ha
      obtain ⟨b0, rfl⟩ := length_one b hb
      rw [binary_value_injective a0 b0 h]
  · -- SHORT
    refine ⟨fun b => int_to_string (short_of_bytes (at_index b 0) (at_index b 1)), ?_, ?_⟩
    · intro pre bytes rest hl
      simp only [leaf_value, decode_leaf, decode_fixed_stream_at 2 _ pre bytes rest hl,
        Except.map, remap_negative]
      simp
    · intro a b ha hb h
      obtain ⟨a0, a1, rfl⟩ := length_two a ha
      obtain ⟨b0, b1, rfl⟩ := length_two b hb
      obtain ⟨e0, e1⟩ := short_injective a0 a1 b0 b1 h
      rw [e0, e1]
  · -- CHAR
    refine ⟨fun b => char_value (at_index b 0), ?_, ?_⟩
    · intro pre bytes rest hl
      simp only [leaf_value, decode_leaf, decode_fixed_stream_at 1 _ pre bytes rest hl,
        Except.map, remap_negative]
      simp
    · intro a b ha hb h
      obtain ⟨a0, rfl⟩ := length_one a ha
      obtain ⟨b0, rfl⟩ := length_one b hb
      rw [char_value_injective a0 b0 h]
  · -- LCHAR
    refine ⟨fun b => char_value (at_index b 0), ?_, ?_⟩
    · intro pre bytes rest hl
      simp only [leaf_value, decode_leaf, decode_fixed_stream_at 1 _ pre bytes rest hl,
        Except.map, remap_negative]
      simp
    · intro a b ha hb h
      obtain ⟨a0, rfl⟩ := length_one a ha
      obtain ⟨b0, rfl⟩ := length_one b hb
      rw [char_value_injective a0 b0 h]
  · -- BULK
    refine ⟨bulk_hex_value, ?_, fun a b ha hb h => bulk_hex_value_injective a b (ha.trans hb.symm) h⟩
    intro pre bytes rest hl
    simp only [leaf_value, decode_leaf, decode_fixed_stream_at w _ pre bytes rest hl,
      Except.map, remap_negative]
    simp

/-- C1. For the kinds INT, HEX, BINARY, SHORT, CHAR, LCHAR and BULK there is an encode
function that gives back the bytes from the value column of the leaf line: for every byte
string of the size the leaf read takes (the fixed width of the kind, which `size_for_method`
holds, or the width of the region for BULK), at any place of the stream, the decode succeeds
and `encode (decode bytes) = bytes`. -/
theorem leaf_decode_has_encode :
    ∃ encode : translation_type → Nat → text → List byte,
      ∀ (method : translation_type) (w : Nat) (pre bytes rest : List byte),
        method ∈ [INT, HEX, BINARY, SHORT, CHAR, LCHAR, BULK] →
        bytes.length = leaf_read_size method w →
          (method ≠ BULK → size_for_method method = some bytes.length) ∧
          (method = BULK → bytes.length = w) ∧
          ∃ value, leaf_value method w (stream_at pre bytes rest) = Except.ok value ∧
            encode method w value = bytes := by
  classical
  have key : ∀ (method : translation_type) (w : Nat), ∃ enc : text → List byte,
      method ∈ [INT, HEX, BINARY, SHORT, CHAR, LCHAR, BULK] →
        ∀ pre bytes rest : List byte, bytes.length = leaf_read_size method w →
          ∃ value, leaf_value method w (stream_at pre bytes rest) = Except.ok value ∧
            enc value = bytes := by
    intro method w
    by_cases hm : method ∈ [INT, HEX, BINARY, SHORT, CHAR, LCHAR, BULK]
    · obtain ⟨f, hf, hinj⟩ := kind_decoder method hm w
      refine ⟨fun v => if h : ∃ b : List byte, b.length = leaf_read_size method w ∧ f b = v
        then Classical.choose h else [], ?_⟩
      intro _ pre bytes rest hl
      refine ⟨f bytes, hf pre bytes rest hl, ?_⟩
      have hex : ∃ b : List byte, b.length = leaf_read_size method w ∧ f b = f bytes :=
        ⟨bytes, hl, rfl⟩
      simp only [hex, dif_pos]
      have hc := Classical.choose_spec hex
      exact hinj _ _ hc.1 hl hc.2
    · exact ⟨fun _ => [], fun h => absurd h hm⟩
  choose enc henc using key
  refine ⟨enc, ?_⟩
  intro method w pre bytes rest hm hl
  refine ⟨?_, ?_, henc method w hm pre bytes rest hl⟩
  · intro hb
    simp only [List.mem_cons, List.mem_singleton, List.not_mem_nil, or_false] at hm
    rcases hm with rfl | rfl | rfl | rfl | rfl | rfl | rfl <;>
      first | exact absurd rfl hb | (rw [hl]; rfl)
  · intro hb
    subst hb
    rw [hl]
    rfl

theorem leaf_decode_has_encode_witness :
    ∃ encode : translation_type → Nat → text → List byte,
      (HEX ∈ [INT, HEX, BINARY, SHORT, CHAR, LCHAR, BULK] ∧
        ([1, 2, 3, 4] : List byte).length = leaf_read_size HEX 4) ∧
      ∃ value, leaf_value HEX 4 (stream_at [] [1, 2, 3, 4] []) = Except.ok value ∧
        encode HEX 4 value = [1, 2, 3, 4] := by
  obtain ⟨encode, h⟩ := leaf_decode_has_encode
  exact ⟨encode, ⟨by decide, rfl⟩, (h HEX 4 [] [1, 2, 3, 4] [] (by decide) rfl).2.2⟩

/-! ## Length-prefixed text -/

set_option maxRecDepth 100000 in
theorem char_of_byte_toNat (b : byte) : (char_of_byte b).toNat = b.val := by
  revert b
  decide

theorem char_of_byte_injective : Function.Injective char_of_byte := by
  intro a b h
  apply Fin.ext
  rw [← char_of_byte_toNat a, ← char_of_byte_toNat b, h]

theorem c_string_no_zero (payload : List byte) (h : ∀ x ∈ payload, x ≠ 0) :
    c_string payload = payload.map char_of_byte := by
  have : payload.takeWhile (fun x => x != 0) = payload := by
    rw [List.takeWhile_eq_self_iff]
    intro x hx
    simpa using h x hx
  simp only [c_string, this]

theorem stream_at_shift (pre a b rest : List byte) :
    stream_at pre (a ++ b) rest = stream_at pre a (b ++ rest) := by
  simp [stream_at, List.append_assoc]

theorem decode_text_value (padding : Option Int) (pre payload tail : List byte)
    (b0 b1 b2 b3 : byte) (hL : int_of_bytes b0 b1 b2 b3 = (payload.length : Int))
    (h100 : payload.length ≤ 100) :
    ∃ s1, decode_text padding (stream_at pre [b0, b1, b2, b3] (payload ++ tail)) =
      Except.ok (c_string payload, s1) := by
  have hread : (⟨pre ++ [b0, b1, b2, b3] ++ (payload ++ tail), pre.length + 4, false⟩ :
      ifstream).read (payload.length : Int) =
      (payload, ⟨pre ++ [b0, b1, b2, b3] ++ payload ++ tail,
        pre.length + 4 + payload.length, false⟩) := by
    have := read_stream_at (pre ++ [b0, b1, b2, b3]) payload tail
    simpa [stream_at, List.append_assoc] using this
  have hle : ¬ ((payload.length : Int) > 100) := by omega
  simp only [decode_text, read_int_stream_at, hL, hle, if_false, hread]
  cases padding with
  | none => exact ⟨_, rfl⟩
  | some n => exact ⟨_, rfl⟩

theorem leaf_value_text (method : translation_type) (hm : method = TEXT0 ∨ method = TEXT8)
    (w : Nat) (pre payload tail : List byte) (b0 b1 b2 b3 : byte)
    (hL : int_of_bytes b0 b1 b2 b3 = (payload.length : Int)) (h100 : payload.length ≤ 100) :
    leaf_value method w (stream_at pre [b0, b1, b2, b3] (payload ++ tail)) =
      Except.ok (c_string payload) := by
  rcases hm with rfl | rfl
  · obtain ⟨s1, h⟩ := decode_text_value none pre payload tail b0 b1 b2 b3 hL h100
    simp [leaf_value, decode_leaf, h, Except.map, remap_negative]
  · obtain ⟨s1, h⟩ := decode_text_value (some 8) pre payload tail b0 b1 b2 b3 hL h100
    simp [leaf_value, decode_leaf, h, Except.map, remap_negative]

theorem length_header (b0 b1 b2 b3 : byte) (n : Nat)
    (hL : int_of_bytes b0 b1 b2 b3 = (n : Int)) (h100 : n ≤ 100) :
    [b0, b1, b2, b3] = [Fin.ofNat n, 0, 0, 0] := by
  have h0 := b0.isLt
  have h1 := b1.isLt
  have h2 := b2.isLt
  have h3 := b3.isLt
  rw [int_of_bytes_eq] at hL
  simp only [schar] at hL
  have e0 : b0 = Fin.ofNat n := by
    apply Fin.ext
    simp only [Fin.ofNat, Nat.reduceAdd]
    split at hL <;> omega
  have e1 : b1 = 0 := by
    apply Fin.ext
    simp only [Fin.val_zero]
    split at hL <;> omega
  have e2 : b2 = 0 := by
    apply Fin.ext
    simp only [Fin.val_zero]
    split at hL <;> omega
  have e3 : b3 = 0 := by
    apply Fin.ext
    simp only [Fin.val_zero]
    split at hL <;> omega
  rw [e0, e1, e2, e3]

/-- C2 as stated fails. A text byte of zero is lost (`value = buffer` stops at it), the 8
padding bytes of `TEXT8` are read and dropped, and a negative length gives the empty text:
in each pair below two different inputs of declared length at most 100 give the same text. -/
theorem text_decode_collisions :
    (leaf_value TEXT0 0 (stream_at [] [1, 0, 0, 0, 0] []) = Except.ok [] ∧
      leaf_value TEXT0 0 (stream_at [] [0, 0, 0, 0] []) = Except.ok [] ∧
      ([1, 0, 0, 0, 0] : List byte) ≠ [0, 0, 0, 0]) ∧
    (leaf_value TEXT8 8 (stream_at [] [1, 0, 0, 0, 65, 0, 0, 0, 0, 0, 0, 0, 0] []) =
        Except.ok ['A'] ∧
      leaf_value TEXT8 8 (stream_at [] [1, 0, 0, 0, 65, 1, 0, 0, 0, 0, 0, 0, 0] []) =
        Except.ok ['A'] ∧
      ([1, 0, 0, 0, 65, 0, 0, 0, 0, 0, 0, 0, 0] : List byte) ≠
        [1, 0, 0, 0, 65, 1, 0, 0, 0, 0, 0, 0, 0]) ∧
    (leaf_value TEXT0 0 (stream_at [] [255, 255, 255, 255] []) = Except.ok [] ∧
      int_of_bytes 255 255 255 255 ≤ 100 ∧
      ([255, 255, 255, 255] : List byte) ≠ [0, 0, 0, 0]) ∧
    ¬ ∃ encode : text → List byte, ∀ bytes : List byte,
        bytes = [1, 0, 0, 0, 0] ∨ bytes = [0, 0, 0, 0] →
          ∃ value, leaf_value TEXT0 0 (stream_at [] bytes []) = Except.ok value ∧
            encode value = bytes := by
  refine ⟨by decide, by decide, by decide, ?_⟩
  rintro ⟨encode, h⟩
  obtain ⟨v1, h1, e1⟩ := h [1, 0, 0, 0, 0] (Or.inl rfl)
  obtain ⟨v2, h2, e2⟩ := h [0, 0, 0, 0] (Or.inr rfl)
  have hv1 : v1 = [] := by
    have : leaf_value TEXT0 0 (stream_at [] [1, 0, 0, 0, 0] []) = Except.ok [] := by decide
    rw [this] at h1
    injection h1 with h1
    exact h1.symm
  have hv2 : v2 = [] := by
    have : leaf_value TEXT0 0 (stream_at [] [0, 0, 0, 0] []) = Except.ok [] := by decide
    rw [this] at h2
    injection h2 with h2
    exact h2.symm
  rw [hv1] at e1
  rw [hv2, e1] at e2
  exact absurd e2 (by decide)

/-- C2, amended. For `TEXT0` and `TEXT8` there is an encode function that gives back the input
from the decoded text, for every input whose declared length `L` has `0 ≤ L ≤ 100`, whose `L`
text bytes are all non-zero and, for `TEXT8`, whose 8 padding bytes are zero: the decode
succeeds and `encode (decode bytes) = bytes`. -/
theorem text_decode_has_encode :
    ∃ encode : translation_type → text → List byte,
      ∀ (method : translation_type) (w : Nat) (pre rest payload : List byte)
        (b0 b1 b2 b3 : byte),
        method = TEXT0 ∨ method = TEXT8 →
        int_of_bytes b0 b1 b2 b3 = (payload.length : Int) →
        payload.length ≤ 100 →
        (∀ x ∈ payload, x ≠ 0) →
          ∃ value,
            leaf_value method w
                (stream_at pre ([b0, b1, b2, b3] ++ payload ++ text_padding method) rest) =
              Except.ok value ∧
            encode method value = [b0, b1, b2, b3] ++ payload ++ text_padding method := by
  refine ⟨fun method value =>
    [Fin.ofNat value.length, 0, 0, 0] ++ value.map (fun ch => Fin.ofNat ch.toNat) ++
      text_padding method, ?_⟩
  intro method w pre rest payload b0 b1 b2 b3 hm hL h100 hnz
  refine ⟨payload.map char_of_byte, ?_, ?_⟩
  · have hs : stream_at pre ([b0, b1, b2, b3] ++ payload ++ text_padding method) rest =
        stream_at pre [b0, b1, b2, b3] (payload ++ (text_padding method ++ rest)) := by
      simp [stream_at, List.append_assoc]
    rw [hs, leaf_value_text method hm w pre payload _ b0 b1 b2 b3 hL h100,
      c_string_no_zero payload hnz]
  · have hback : (payload.map char_of_byte).map (fun ch => (Fin.ofNat ch.toNat : byte)) =
        payload := by
      rw [List.map_map]
      conv_rhs => rw [← List.map_id payload]
      apply List.map_congr_left
      intro x _
      apply Fin.ext
      simp only [Function.comp, char_of_byte_toNat, Fin.ofNat, id]
      have := x.isLt
      omega
    simp only [List.length_map, hback, length_header b0 b1 b2 b3 payload.length hL h100]

set_option maxRecDepth 100000 in
theorem text_decode_has_encode_witness :
    ∃ encode : translation_type → text → List byte,
      ((TEXT8 = TEXT0 ∨ TEXT8 = TEXT8) ∧ int_of_bytes 2 0 0 0 = (([72, 105] : List byte).length : Int) ∧
        ([72, 105] : List byte).length ≤ 100 ∧ ∀ x ∈ ([72, 105] : List byte), x ≠ 0) ∧
      ∃ value,
        leaf_value TEXT8 8
            (stream_at [] ([2, 0, 0, 0] ++ [72, 105] ++ text_padding TEXT8) []) =
          Except.ok value ∧
        encode TEXT8 value = [2, 0, 0, 0] ++ [72, 105] ++ text_padding TEXT8 := by
  obtain ⟨encode, h⟩ := text_decode_has_encode
  exact ⟨encode, ⟨Or.inr rfl, by decide, by decide, by decide⟩,
    h TEXT8 8 [] [] [72, 105] 2 0 0 0 (Or.inr rfl) (by decide) (by decide) (by decide)⟩

/-! ## The generic name -/

theorem takeWhile_base (base r : text) (hb : ∀ ch ∈ base, ch ≠ '_') :
    (base ++ '_' :: r).takeWhile (fun ch => ch != '_') = base := by
  rw [List.takeWhile_append_of_pos (by
    intro ch hch
    simpa using hb ch hch)]
  simp

theorem dropWhile_base (base r : text) (hb : ∀ ch ∈ base, ch ≠ '_') :
    (base ++ '_' :: r).dropWhile (fun ch => ch != '_') = '_' :: r := by
  rw [List.dropWhile_append_of_pos (by
    intro ch hch
    simpa using hb ch hch)]
  simp

/-- A text that does not go on with a digit: it is empty or starts with `_`. -/
theorem takeWhile_digits_then (ds p : text) (hd : ∀ ch ∈ ds, ch.isDigit = true)
    (hp : p = [] ∨ ∃ q, p = '_' :: q) :
    (ds ++ p).takeWhile Char.isDigit = ds ∧ (ds ++ p).dropWhile Char.isDigit = p := by
  rw [List.takeWhile_append_of_pos hd, List.dropWhile_append_of_pos hd]
  rcases hp with rfl | ⟨q, rfl⟩
  · simp
  · have : Char.isDigit '_' = false := by decide
    simp [List.takeWhile, List.dropWhile, this]

theorem subsection_x_of_indexed (base ds p : text) (hne : base ≠ [])
    (hb : ∀ ch ∈ base, ch ≠ '_') (hd : ∀ ch ∈ ds, ch.isDigit = true) (hds : ds ≠ [])
    (hp : p = [] ∨ ∃ q, p = '_' :: q) :
    subsection_x_of (base ++ '_' :: (ds ++ p)) = base ++ '_' :: 'x' :: p := by
  obtain ⟨ht, hdr⟩ := takeWhile_digits_then ds p hd hp
  unfold subsection_x_of
  rw [takeWhile_base base _ hb, dropWhile_base base _ hb]
  cases base with
  | nil => exact absurd rfl hne
  | cons b bs =>
    simp only [ht, hdr]
    cases ds with
    | nil => exact absurd rfl hds
    | cons d ds' => simp [String.toList]

theorem region_name_append (base : text) (idxs : List Nat) :
    ∀ pre : text, region_name (pre ++ base) idxs = pre ++ region_name base idxs := by
  induction idxs generalizing base with
  | nil => intro pre; rfl
  | cons i rest ih =>
    intro pre
    simp only [region_name, List.foldl_cons] at ih ⊢
    have : subsection_name (pre ++ base) i = pre ++ subsection_name base i := by
      simp [subsection_name, List.append_assoc]
    rw [this]
    exact ih _ pre

theorem region_name_tail (idxs : List Nat) :
    region_name [] idxs = [] ∨ ∃ q, region_name [] idxs = '_' :: q := by
  cases idxs with
  | nil => exact Or.inl rfl
  | cons i rest =>
    right
    have h := region_name_append [] rest ('_' :: nat_to_string i)
    simp only [List.append_nil] at h
    refine ⟨nat_to_string i ++ region_name [] rest, ?_⟩
    simp only [region_name, List.foldl_cons] at h ⊢
    simpa [subsection_name] using h

/-- C8 as stated fails: for the region `Ship_0_2` the generic name that the code looks rules up
under is `Ship_x_2` (the index after the base name is replaced), not `Ship_0_x` (the trailing
index replaced). -/
theorem generic_name_not_trailing :
    subsection_x_of (region_name "Ship".toList [0, 2]) = "Ship_x_2".toList ∧
      trailing_generic_name "Ship".toList [0, 2] = "Ship_0_x".toList ∧
      subsection_x_of (region_name "Ship".toList [0, 2]) ≠
        trailing_generic_name "Ship".toList [0, 2] := by
  decide

/-- C8, amended. For every region name built by the resolver from a base name (not empty, no
`_` in it) and one or more index components, the generic name that `unpack_section` looks rules
up under is the name with its first `_<index>` component, the one right after the base name,
replaced by `_x`, and all later components unchanged; for a name with a single index component
this is the trailing one. -/
theorem generic_name_replaces_first_index (base : text) (i : Nat) (rest : List Nat)
    (hne : base ≠ []) (hb : ∀ ch ∈ base, ch ≠ '_') :
    subsection_x_of (region_name base (i :: rest)) =
        region_name (base ++ "_x".toList) rest ∧
      subsection_x_of (region_name base [i]) = trailing_generic_name base [i] := by
  have key : ∀ rest : List Nat, subsection_x_of (region_name base (i :: rest)) =
      region_name (base ++ "_x".toList) rest := by
    intro rest
    have h1 : region_name base (i :: rest) =
        base ++ '_' :: (nat_to_string i ++ region_name [] rest) := by
      have h := region_name_append [] rest (base ++ '_' :: nat_to_string i)
      simp only [List.append_nil] at h
      simp only [region_name, List.foldl_cons] at h ⊢
      simpa [subsection_name, List.append_assoc] using h
    have h2 : region_name (base ++ "_x".toList) rest =
        base ++ '_' :: 'x' :: region_name [] rest := by
      have h := region_name_append [] rest (base ++ "_x".toList)
      simp only [List.append_nil] at h
      rw [h]
      simp [String.toList, List.append_assoc]
    rw [h1, h2]
    exact subsection_x_of_indexed base _ _ hne hb (nat_to_string_all_digits i)
      (nat_to_string_ne_nil i) (region_name_tail rest)
  refine ⟨key rest, ?_⟩
  rw [key []]
  rfl

theorem generic_name_replaces_first_index_witness :
    ("Ship".toList ≠ [] ∧ ∀ ch ∈ "Ship".toList, ch ≠ '_') ∧
      subsection_x_of (region_name "Ship".toList [0, 2]) =
        region_name ("Ship".toList ++ "_x".toList) [2] ∧
      subsection_x_of (region_name "Ship".toList [0]) =
        trailing_generic_name "Ship".toList [0] :=
  ⟨⟨by decide, by decide⟩,
    generic_name_replaces_first_index "Ship".toList 0 [2] (by decide) (by decide)⟩

/-! ## The split rules -/

theorem uniform_split_eq (mysection : «section») (c : Nat) (submeth : translation_type)
    (w : Nat) (hw : 0 < w) :
    uniform_split mysection c submeth w =
      if mysection.bytes_per_line % w ≠ 0 then none
      else if mysection.bytes_per_line / w = 1 then
        some (⟨mysection.name, mysection.bytes_per_line / w, w, submeth⟩, c)
      else
        some (⟨subsection_name mysection.name c, mysection.bytes_per_line / w, w, submeth⟩, 0) := by
  simp [uniform_split, hw]

/-- C6. For a region of width `W` to which a uniform-split rule applies whose kind differs from
the current kind (`resolve` takes the uniform branch) and has fixed width `w > 0`: the split
aborts ("byte counts are not divisible") exactly when `W % w ≠ 0`, and otherwise the line is
the recursive call on `W / w` children of width `w` and of the kind of the rule, named after
the region (under the region's own name when there is a single child). -/
theorem uniform_split_arithmetic (simple : simple_table) (manual : manual_table)
    (recur : «section» → Nat → unpack_state → Except abort_reason unpack_state)
    (mysection : «section») (c : Nat) (acc : unpack_state × List feature)
    (key : text) (submeth : translation_type) (w : Nat)
    (hrule : resolve simple manual mysection c = resolution.uniform key submeth)
    (hsize : size_for_method submeth = some w) (hw : 0 < w) :
    (mysection.bytes_per_line % w ≠ 0 ↔ uniform_split mysection c submeth w = none) ∧
    (mysection.bytes_per_line % w ≠ 0 →
      unpack_line simple manual recur mysection c acc =
        Except.error abort_reason.not_divisible) ∧
    (mysection.bytes_per_line % w = 0 →
      ∃ sub suboffset, uniform_split mysection c submeth w = some (sub, suboffset) ∧
        sub.count = mysection.bytes_per_line / w ∧ sub.bytes_per_line = w ∧
        sub.method = submeth ∧
        (∀ d, subsection_name sub.name (suboffset + d) =
          if mysection.bytes_per_line / w = 1 then subsection_name mysection.name (c + d)
          else subsection_name (subsection_name mysection.name c) d) ∧
        unpack_line simple manual recur mysection c acc =
          (recur sub suboffset acc.1).map fun st1 => (st1, acc.2)) := by
  have hsplit := uniform_split_eq mysection c submeth w hw
  refine ⟨?_, ?_, ?_⟩
  · rw [hsplit]
    by_cases h : mysection.bytes_per_line % w = 0
    · simp only [h, ne_eq, not_true_eq_false, if_false, false_iff]
      split <;> simp
    · simp [h]
  · intro h
    simp only [unpack_line, hrule, hsize, hsplit, h, ne_eq, not_false_eq_true, if_true]
  · intro h
    by_cases h1 : mysection.bytes_per_line / w = 1
    · refine ⟨⟨mysection.name, mysection.bytes_per_line / w, w, submeth⟩, c, ?_, rfl, rfl, rfl,
        ?_, ?_⟩
      · simp [hsplit, h, h1]
      · intro d; simp [h1]
      · simp only [unpack_line, hrule, hsize, hsplit, h, h1, ne_eq, not_true_eq_false,
          if_false, if_true]
        cases recur _ c acc.1 <;> rfl
    · refine ⟨⟨subsection_name mysection.name c, mysection.bytes_per_line / w, w, submeth⟩, 0,
        ?_, rfl, rfl, rfl, ?_, ?_⟩
      · simp [hsplit, h, h1]
      · intro d; simp [h1]
      · simp only [unpack_line, hrule, hsize, hsplit, h, h1, ne_eq, not_true_eq_false,
          if_false]
        cases recur _ 0 acc.1 <;> rfl

set_option maxRecDepth 100000 in
theorem uniform_split_arithmetic_witness :
    (resolve subsection_simple_decode subsection_manual_decode
        ⟨"Personal".toList, 57, 4, INT⟩ 5 = resolution.uniform "Personal_5".toList SHORT ∧
      size_for_method SHORT = some 2 ∧ 0 < 2) ∧
    ((4 % 2 = 0 →
      ∃ sub suboffset,
        uniform_split ⟨"Personal".toList, 57, 4, INT⟩ 5 SHORT 2 = some (sub, suboffset) ∧
        sub.count = 4 / 2 ∧ sub.bytes_per_line = 2 ∧ sub.method = SHORT ∧
        (∀ d, subsection_name sub.name (suboffset + d) =
          if 4 / 2 = 1 then subsection_name "Personal".toList (5 + d)
          else subsection_name (subsection_name "Personal".toList 5) d) ∧
        unpack_line subsection_simple_decode subsection_manual_decode
            (unpack_section subsection_simple_decode subsection_manual_decode 2)
            ⟨"Personal".toList, 57, 4, INT⟩ 5 (⟨⟨[1, 2, 3, 4], 0, false⟩, [], 0⟩, []) =
          (unpack_section subsection_simple_decode subsection_manual_decode 2 sub suboffset
            ⟨⟨[1, 2, 3, 4], 0, false⟩, [], 0⟩).map fun st1 => (st1, []))) :=
  ⟨⟨by decide, rfl, by decide⟩,
    (uniform_split_arithmetic subsection_simple_decode subsection_manual_decode
      (unpack_section subsection_simple_decode subsection_manual_decode 2)
      ⟨"Personal".toList, 57, 4, INT⟩ 5 (⟨⟨[1, 2, 3, 4], 0, false⟩, [], 0⟩, [])
      "Personal_5".toList SHORT 2 (by decide) rfl (by decide)).2.2⟩

theorem byte_count_check_from (info : List subsection_info) :
    ∀ init : Nat,
      info.foldl (fun acc subinfo => acc + subinfo.multiplier * subinfo.byte_count) init =
        init + (info.map fun t => t.byte_count * t.multiplier).sum := by
  induction info with
  | nil => intro init; simp
  | cons t rest ih =>
    intro init
    simp only [List.foldl_cons, List.map_cons, List.sum_cons]
    rw [ih, Nat.mul_comm t.multiplier, Nat.add_assoc]

theorem byte_count_check_eq_sum (info : List subsection_info) :
    byte_count_check info = (info.map fun t => t.byte_count * t.multiplier).sum := by
  simp [byte_count_check, byte_count_check_from]

theorem unpack_manual_check
    (recur : «section» → Nat → unpack_state → Except abort_reason unpack_state)
    (subsection : text) (info : List subsection_info) :
    ∀ (st : unpack_state) (suboffset check : Nat) (st1 : unpack_state) (off1 check1 : Nat),
      unpack_manual recur subsection info (st, suboffset, check) =
          Except.ok (st1, off1, check1) →
        check1 = check + (info.map fun t => t.byte_count * t.multiplier).sum ∧
          off1 = suboffset + (info.map fun t => t.multiplier).sum := by
  induction info with
  | nil =>
    intro st suboffset check st1 off1 check1 h
    simp only [unpack_manual, Except.ok.injEq, Prod.mk.injEq] at h
    simp [h.2.1, h.2.2]
  | cons t rest ih =>
    intro st suboffset check st1 off1 check1 h
    simp only [unpack_manual] at h
    split at h
    · exact absurd h (by simp)
    · have := ih _ _ _ _ _ _ h
      simp only [List.map_cons, List.sum_cons]
      rw [this.1, this.2, Nat.mul_comm t.multiplier]
      omega

/-- C7. For a region of width `W` to which a heterogeneous rule with triples
`(kind, width, count)` applies (`resolve` takes the manual branch) and whose children all decode
without error: the line aborts ("subsections don't add up") exactly when the sum of
`width * count` over the triples differs from `W`, and otherwise it goes on from the state the
children left.  A list whose sum differs from `W` is rejected whatever the children do. -/
theorem manual_split_arithmetic (simple : simple_table) (manual : manual_table)
    (recur : «section» → Nat → unpack_state → Except abort_reason unpack_state)
    (mysection : «section») (c : Nat) (acc : unpack_state × List feature)
    (key : text) (info : List subsection_info)
    (hrule : resolve simple manual mysection c = resolution.manual key info) :
    (∀ st1 off1 check1,
      unpack_manual recur (subsection_name mysection.name c) info (acc.1, 0, 0) =
          Except.ok (st1, off1, check1) →
        check1 = (info.map fun t => t.byte_count * t.multiplier).sum ∧
        (unpack_line simple manual recur mysection c acc =
            Except.error abort_reason.dont_add_up ↔
          (info.map fun t => t.byte_count * t.multiplier).sum ≠ mysection.bytes_per_line) ∧
        ((info.map fun t => t.byte_count * t.multiplier).sum = mysection.bytes_per_line →
          unpack_line simple manual recur mysection c acc = Except.ok (st1, acc.2))) ∧
    ((info.map fun t => t.byte_count * t.multiplier).sum ≠ mysection.bytes_per_line →
      ∃ e, unpack_line simple manual recur mysection c acc = Except.error e) := by
  constructor
  · intro st1 off1 check1 hch
    have hsum := (unpack_manual_check recur _ info _ _ _ _ _ _ hch).1
    simp only [Nat.zero_add] at hsum
    subst hsum
    refine ⟨rfl, ?_, ?_⟩
    · simp only [unpack_line, hrule, hch]
      split <;> simp_all
    · intro h
      simp only [unpack_line, hrule, hch, h, ne_eq, not_true_eq_false, if_false]
  · intro hne
    simp only [unpack_line, hrule]
    cases hch : unpack_manual recur (subsection_name mysection.name c) info (acc.1, 0, 0) with
    | error e => exact ⟨e, rfl⟩
    | ok r =>
      obtain ⟨st1, off1, check1⟩ := r
      have hsum := (unpack_manual_check recur _ info _ _ _ _ _ _ hch).1
      simp only [Nat.zero_add] at hsum
      subst hsum
      exact ⟨abort_reason.dont_add_up, by simp [hne]⟩

set_option maxRecDepth 100000 in
theorem manual_split_arithmetic_witness :
    resolve subsection_simple_decode subsection_manual_decode
        ⟨"Personal".toList, 57, 4, INT⟩ 51 =
      resolution.manual "Personal_51".toList [info1 CHAR, info2 ZERO 3] ∧
    ((([info1 CHAR, info2 ZERO 3].map fun t => t.byte_count * t.multiplier).sum = 4 →
      unpack_line subsection_simple_decode subsection_manual_decode
          (unpack_section subsection_simple_decode subsection_manual_decode 2)
          ⟨"Personal".toList, 57, 4, INT⟩ 51 (⟨⟨[7, 0, 0, 0], 0, false⟩, [], 0⟩, []) =
        Except.ok
          (⟨⟨[7, 0, 0, 0], 4, false⟩,
            [pst_line.leaf "Personal_51_0".toList "C1".toList "7".toList,
              pst_line.leaf "Personal_51_1".toList "x3".toList "zero_string".toList], 0⟩,
            [])) ∧
      ¬ (([info1 CHAR, info2 ZERO 3].map fun t => t.byte_count * t.multiplier).sum ≠ 4)) :=
  ⟨by decide,
    ((manual_split_arithmetic subsection_simple_decode subsection_manual_decode
      (unpack_section subsection_simple_decode subsection_manual_decode 2)
      ⟨"Personal".toList, 57, 4, INT⟩ 51 (⟨⟨[7, 0, 0, 0], 0, false⟩, [], 0⟩, [])
      "Personal_51".toList [info1 CHAR, info2 ZERO 3] (by decide)).1
      ⟨⟨[7, 0, 0, 0], 4, false⟩,
        [pst_line.leaf "Personal_51_0".toList "C1".toList "7".toList,
          pst_line.leaf "Personal_51_1".toList "x3".toList "zero_string".toList], 0⟩
      2 4 (by decide)).2.2,
    by decide⟩

/-! ## Which rule is applied -/

/-- C9 as stated fails. With a uniform rule under the generic key `Ship_x` and a heterogeneous
rule under the exact key `Ship_0`, the region `Ship_0` has a rule keyed by its exact name and
the rule applied is the generic uniform one.  With a uniform rule of the current kind under the
exact key (so it is skipped) and a heterogeneous rule under the generic key, the rule applied
is the generic heterogeneous one. -/
theorem exact_rule_does_not_always_win :
    ((([("Ship_0".toList, [⟨BULK, 4, 1⟩])] : manual_table).lookup
          (subsection_name "Ship".toList 0)).isSome = true ∧
      resolve [("Ship_x".toList, INT)] [("Ship_0".toList, [⟨BULK, 4, 1⟩])]
          ⟨"Ship".toList, 1, 4, BULK⟩ 0 = resolution.uniform "Ship_x".toList INT ∧
      "Ship_x".toList ≠ subsection_name "Ship".toList 0) ∧
    ((([("Ship_0".toList, BULK)] : simple_table).lookup
          (subsection_name "Ship".toList 0)).isSome = true ∧
      resolve [("Ship_0".toList, BULK)] [("Ship_x".toList, [⟨INT, 4, 1⟩])]
          ⟨"Ship".toList, 1, 4, BULK⟩ 0 = resolution.manual "Ship_x".toList [⟨INT, 4, 1⟩] ∧
      "Ship_x".toList ≠ subsection_name "Ship".toList 0) := by
  decide

/-- C9, amended. For every contents of the two rule tables and every region: within each table
the exact name wins over the generic name (a rule applied under the generic key means that
table has no rule under the exact name); the uniform table is tried first, and its rule is
applied whenever its kind differs from the current kind, whatever the heterogeneous table
holds; a heterogeneous rule is applied only when no uniform rule of a different kind is
there. -/
theorem rule_precedence (simple : simple_table) (manual : manual_table)
    (mysection : «section») (c : Nat) :
    (∀ key submeth, resolve simple manual mysection c = resolution.uniform key submeth →
      simple.lookup key = some submeth ∧ submeth ≠ mysection.method ∧
        (key = subsection_name mysection.name c ∨
          (simple.lookup (subsection_name mysection.name c) = none ∧
            key = subsection_x_of (subsection_name mysection.name c)))) ∧
    (∀ key info, resolve simple manual mysection c = resolution.manual key info →
      manual.lookup key = some info ∧
        (key = subsection_name mysection.name c ∨
          (manual.lookup (subsection_name mysection.name c) = none ∧
            key = subsection_x_of (subsection_name mysection.name c))) ∧
        (∀ submeth, simple.lookup (subsection_name mysection.name c) = some submeth →
          submeth = mysection.method) ∧
        (∀ submeth, simple.lookup (subsection_name mysection.name c) = none →
          simple.lookup (subsection_x_of (subsection_name mysection.name c)) = some submeth →
          submeth = mysection.method)) ∧
    (∀ submeth, simple.lookup (subsection_name mysection.name c) = some submeth →
      submeth ≠ mysection.method →
      resolve simple manual mysection c =
        resolution.uniform (subsection_name mysection.name c) submeth) ∧
    (∀ submeth, simple.lookup (subsection_name mysection.name c) = none →
      simple.lookup (subsection_x_of (subsection_name mysection.name c)) = some submeth →
      submeth ≠ mysection.method →
      resolve simple manual mysection c =
        resolution.uniform (subsection_x_of (subsection_name mysection.name c)) submeth) := by
  generalize hn : subsection_name mysection.name c = name
  refine ⟨?_, ?_, ?_, ?_⟩
  · intro key submeth h
    simp only [resolve, resolve_line, hn] at h
    cases h1 : simple.lookup name with
    | some sm =>
      simp only [h1, Option.isSome_some, if_true] at h
      split at h
      · injection h with hk hs
        subst hk hs
        rename_i hne
        exact ⟨h1, hne, Or.inl rfl⟩
      · split at h <;> exact absurd h (by simp)
    | none =>
      simp only [h1, Option.isSome_none, Bool.false_eq_true, if_false] at h
      cases h2 : simple.lookup (subsection_x_of name) with
      | some sm =>
        simp only [h2] at h
        split at h
        · injection h with hk hs
          subst hk hs
          rename_i hne
          exact ⟨h2, hne, Or.inr ⟨rfl, rfl⟩⟩
        · split at h <;> exact absurd h (by simp)
      | none =>
        simp only [h2] at h
        split at h <;> exact absurd h (by simp)
  · intro key info h
    simp only [resolve, resolve_line, hn] at h
    have hman : ∀ r : resolution,
        (match manual.lookup (if (manual.lookup name).isSome = true then name
            else subsection_x_of name) with
          | some info => resolution.manual
              (if (manual.lookup name).isSome = true then name else subsection_x_of name) info
          | none => resolution.leaf) = resolution.manual key info →
        manual.lookup key = some info ∧
          (key = name ∨ (manual.lookup name = none ∧ key = subsection_x_of name)) := by
      intro _ hm
      cases h3 : manual.lookup name with
      | some i3 =>
        simp only [h3, Option.isSome_some, if_true] at hm
        injection hm with hk hi
        subst hk hi
        exact ⟨h3, Or.inl rfl⟩
      | none =>
        simp only [h3, Option.isSome_none, Bool.false_eq_true, if_false] at hm
        split at hm
        · rename_i i4 h4
          injection hm with hk hi
          subst hk hi
          exact ⟨h4, Or.inr ⟨rfl, rfl⟩⟩
        · exact absurd hm (by simp)
    cases h1 : simple.lookup name with
    | some sm =>
      simp only [h1, Option.isSome_some, if_true] at h
      split at h
      · exact absurd h (by simp)
      · rename_i heq
        have heq' : sm = mysection.method := by simpa using heq
        obtain ⟨ha, hb⟩ := hman resolution.leaf h
        refine ⟨ha, hb, ?_, ?_⟩
        · intro s hs; injection hs with hs; rw [← hs, heq']
        · intro s hs; exact absurd hs (by simp)
    | none =>
      simp only [h1, Option.isSome_none, Bool.false_eq_true, if_false] at h
      cases h2 : simple.lookup (subsection_x_of name) with
      | some sm =>
        simp only [h2] at h
        split at h
        · exact absurd h (by simp)
        · rename_i heq
          have heq' : sm = mysection.method := by simpa using heq
          obtain ⟨ha, hb⟩ := hman resolution.leaf h
          refine ⟨ha, hb, ?_, ?_⟩
          · intro s hs; exact absurd hs (by simp)
          · intro s _ hs; injection hs with hs; rw [← hs, heq']
      | none =>
        simp only [h2] at h
        obtain ⟨ha, hb⟩ := hman resolution.leaf h
        refine ⟨ha, hb, ?_, ?_⟩
        · intro s hs; exact absurd hs (by simp)
        · intro s _ hs; exact absurd hs (by simp)
  · intro submeth h1 hne
    simp [resolve, resolve_line, hn, h1, hne]
  · intro submeth h1 h2 hne
    simp [resolve, resolve_line, hn, h1, h2, hne]

set_option maxRecDepth 100000 in
theorem rule_precedence_witness :
    (subsection_simple_decode.lookup (subsection_name "LandingParty".toList 0) = some uFLOAT ∧
      uFLOAT ≠ BULK ∧
      subsection_simple_decode.lookup
        (subsection_x_of (subsection_name "LandingParty".toList 0)) = some HEX) ∧
    resolve subsection_simple_decode subsection_manual_decode
        ⟨"LandingParty".toList, 8, 32, BULK⟩ 0 =
      resolution.uniform (subsection_name "LandingParty".toList 0) uFLOAT :=
  ⟨by decide,
    (rule_precedence subsection_simple_decode subsection_manual_decode
      ⟨"LandingParty".toList, 8, 32, BULK⟩ 0).2.2.1 uFLOAT (by decide) (by decide)⟩

/-! ## The world map -/

theorem world_map_step_eq (b : List byte) (m : translation_type) (line_code : text)
    (acc : List Nat × List feature) (i : Nat) :
    world_map_step b m line_code acc i =
      (if is_land m (at_index b i) = true then set_bit acc.1 (i / 4) (3 - i % 4) else acc.1,
        if is_anomaly m (at_index b i) = true then
          acc.2 ++ [⟨line_code ++ '_' :: nat_to_string i, at_index b i⟩]
        else acc.2) := by
  unfold world_map_step is_land is_anomaly
  by_cases hm : m = CMAP
  · simp only [hm, if_true]
    by_cases h4 : 4 < (at_index b i).val <;> by_cases h0 : (at_index b i).val = 0 <;>
      by_cases h9 : (at_index b i).val = 9 <;> simp [h4, h0, h9]
  · simp only [hm, if_false]
    by_cases h0 : (at_index b i).val = 0 <;> by_cases h9 : (at_index b i).val = 255 <;>
      simp [h0, h9]

theorem world_map_fold (b : List byte) (m : translation_type) (line_code : text)
    (bs0 : List Nat) (f0 : List feature) (n : Nat) :
    (List.range n).foldl (world_map_step b m line_code) (bs0, f0) =
      ((List.range n).foldl
          (fun bs i => if is_land m (at_index b i) = true then set_bit bs (i / 4) (3 - i % 4)
            else bs) bs0,
        f0 ++ ((List.range n).filter fun i => is_anomaly m (at_index b i)).map
          fun i => (⟨line_code ++ '_' :: nat_to_string i, at_index b i⟩ : feature)) := by
  induction n with
  | zero => simp
  | succ n ih =>
    rw [List.range_succ, List.foldl_append, List.foldl_append, ih]
    simp only [List.foldl_cons, List.foldl_nil, world_map_step_eq, List.filter_append,
      List.map_append]
    by_cases ha : is_anomaly m (at_index b n) = true
    · simp [ha, List.filter]
    · simp [ha, List.filter]

theorem set_bit_testBit (bs : List Nat) (j pos j1 p : Nat) (hj : j < bs.length) :
    ((set_bit bs j pos).getD j1 0).testBit p =
      ((bs.getD j1 0).testBit p || (decide (j = j1) && decide (pos = p))) := by
  simp only [set_bit, List.getD_eq_getElem?_getD, List.getElem?_modify]
  by_cases hjj : j = j1
  · subst hjj
    simp [List.getElem?_eq_getElem hj, Nat.one_shiftLeft, Nat.testBit_two_pow]
  · cases h : bs[j1]? <;> simp [hjj]

theorem set_bit_length (bs : List Nat) (j pos : Nat) : (set_bit bs j pos).length = bs.length := by
  simp [set_bit]

theorem bits_fold (land : Nat → Bool) (L : Nat) :
    ∀ n, n ≤ 4 * L →
      ((List.range n).foldl
          (fun bs i => if land i = true then set_bit bs (i / 4) (3 - i % 4) else bs)
          (List.replicate L 0)).length = L ∧
      ∀ j p,
        (((List.range n).foldl
            (fun bs i => if land i = true then set_bit bs (i / 4) (3 - i % 4) else bs)
            (List.replicate L 0)).getD j 0).testBit p =
          (decide (p ≤ 3 ∧ j < L ∧ 4 * j + (3 - p) < n) && land (4 * j + (3 - p))) := by
  intro n
  induction n with
  | zero =>
    intro _
    refine ⟨by simp, ?_⟩
    intro j p
    simp [List.getElem?_replicate]
    split <;> simp
  | succ n ih =>
    intro hn
    obtain ⟨hlen, hbits⟩ := ih (by omega)
    rw [List.range_succ, List.foldl_append]
    simp only [List.foldl_cons, List.foldl_nil]
    by_cases hl : land n = true
    · simp only [hl, if_true]
      refine ⟨by rw [set_bit_length]; exact hlen, ?_⟩
      intro j p
      rw [set_bit_testBit _ _ _ _ _ (by rw [hlen]; omega), hbits]
      by_cases hc : p ≤ 3 ∧ j < L ∧ 4 * j + (3 - p) = n
      · obtain ⟨h1, h2, h3⟩ := hc
        have e1 : n / 4 = j := by omega
        have e2 : 3 - n % 4 = p := by omega
        have e3 : ¬ (4 * j + (3 - p) < n) := by omega
        have e4 : 4 * j + (3 - p) < n + 1 := by omega
        simp [e1, e2, h1, h2, e3, e4, h3, hl]
      · have e5 : ¬ (n / 4 = j ∧ 3 - n % 4 = p) := by
          intro ⟨a, c⟩
          apply hc
          refine ⟨by omega, by omega, by omega⟩
        have e6 : (decide (n / 4 = j) && decide (3 - n % 4 = p)) = false := by
          simpa using e5
        have e7 : (p ≤ 3 ∧ j < L ∧ 4 * j + (3 - p) < n + 1) ↔
            (p ≤ 3 ∧ j < L ∧ 4 * j + (3 - p) < n) := by
          constructor
          · intro ⟨a, c, d⟩
            refine ⟨a, c, ?_⟩
            by_contra hcon
            exact hc ⟨a, c, by omega⟩
          · intro ⟨a, c, d⟩
            exact ⟨a, c, by omega⟩
        rw [e6, Bool.or_false]
        simp only [e7]
    · have hl' : land n = false := by simpa using hl
      simp only [hl', Bool.false_eq_true, if_false]
      refine ⟨hlen, ?_⟩
      intro j p
      rw [hbits]
      by_cases hc : 4 * j + (3 - p) = n
      · have hf : land (4 * j + (3 - p)) = false := by
          rw [hc]; exact hl'
        simp [hf]
      · have e7 : (p ≤ 3 ∧ j < L ∧ 4 * j + (3 - p) < n + 1) ↔
            (p ≤ 3 ∧ j < L ∧ 4 * j + (3 - p) < n) := by
          constructor
          · intro ⟨a, c, d⟩
            exact ⟨a, c, by omega⟩
          · intro ⟨a, c, d⟩
            exact ⟨a, c, by omega⟩
        simp only [e7]

theorem hex_lower_injective (d e : Nat) (hd : d < 16) (he : e < 16)
    (h : hex_lower d = hex_lower e) : d = e := by
  have key : ∀ a b : Fin 16, hex_lower a.val = hex_lower b.val → a = b := by decide
  exact congrArg Fin.val (key ⟨d, hd⟩ ⟨e, he⟩ h)

theorem nibble_lt (v : Nat) (h : ∀ p, 4 ≤ p → v.testBit p = false) : v < 16 :=
  Nat.lt_pow_two_of_testBit v (n := 4) (fun p hp => h p hp)

/-- What the first loop of `read_world_map` leaves in `bs` after all `N` cells. -/
theorem world_map_bits (b : List byte) (m : translation_type) (N : Nat) :
    ∃ ds : List Nat,
      ds = (List.range N).foldl
        (fun bs i => if is_land m (at_index b i) = true then set_bit bs (i / 4) (3 - i % 4)
          else bs) (List.replicate (N / 4 + 1) 0) ∧
      ds.length = N / 4 + 1 ∧
      (∀ j, ds.getD j 0 < 16) ∧
      (∀ i, i < N → (ds.getD (i / 4) 0).testBit (3 - i % 4) = is_land m (at_index b i)) ∧
      (∀ i, N ≤ i → (ds.getD (i / 4) 0).testBit (3 - i % 4) = false) := by
  obtain ⟨hlen, hbits⟩ :=
    bits_fold (fun i => is_land m (at_index b i)) (N / 4 + 1) N (by omega)
  refine ⟨_, rfl, hlen, ?_, ?_, ?_⟩
  · intro j
    apply nibble_lt
    intro p hp
    rw [hbits]
    have : ¬ (p ≤ 3 ∧ j < N / 4 + 1 ∧ 4 * j + (3 - p) < N) := by omega
    simp [this]
  · intro i hi
    rw [hbits]
    have e : 4 * (i / 4) + (3 - (3 - i % 4)) = i := by omega
    have c : 3 - i % 4 ≤ 3 ∧ i / 4 < N / 4 + 1 ∧ 4 * (i / 4) + (3 - (3 - i % 4)) < N := by
      refine ⟨by omega, by omega, by omega⟩
    simp [c, e, hi]
  · intro i hi
    rw [hbits]
    have h3 : ¬ (4 * (i / 4) + (3 - (3 - i % 4)) < N) := by omega
    simp [h3]

theorem read_world_map_stream_at (pre b rest : List byte) (N : Nat) (hN : N ≤ 600)
    (hb : b.length = N) (m : translation_type) (line_code : text) (features : List feature) :
    read_world_map (stream_at pre b rest) N m line_code features =
      Except.ok ((world_map_value b N m line_code features).1,
        (world_map_value b N m line_code features).2,
        ⟨pre ++ b ++ rest, pre.length + N, false⟩) := by
  have h6 : ¬ (600 < N) := by omega
  simp only [read_world_map, h6, if_false, read_full_stream_at pre b rest N hb]

theorem world_map_value_eq (b : List byte) (N : Nat) (m : translation_type) (line_code : text)
    (features : List feature) :
    world_map_value b N m line_code features =
      (if m = SMAP then [] else
        ((List.range N).foldl
          (fun bs i => if is_land m (at_index b i) = true then set_bit bs (i / 4) (3 - i % 4)
            else bs) (List.replicate (N / 4 + 1) 0)).map hex_lower,
        features ++ ((List.range N).filter fun i => is_anomaly m (at_index b i)).map
          fun i => (⟨line_code ++ '_' :: nat_to_string i, at_index b i⟩ : feature)) := by
  simp only [world_map_value, world_map_fold]

/-- C10 as stated fails for SMAP: the returned text is empty, so the cell 0 of the 1-byte
input `FF`, which is land, is in no hex digit of it. -/
theorem sailing_map_has_no_digits :
    read_world_map (stream_at [] [255] []) 1 SMAP "SailingMap_0".toList [] =
        Except.ok ([], [], ⟨[255], 1, false⟩) ∧
      is_land SMAP 255 = true ∧
      ¬ ∃ d : Nat, ([] : text)[0 / 4]? = some (hex_lower d) := by
  refine ⟨by decide, by decide, ?_⟩
  simp

/-- C10, amended. For every `N ≤ 600` and every `N`-byte input of kind FMAP or CMAP, the text of
`read_world_map` is the hex digits of `N / 4 + 1` values below 16 in which cell `i` is bit
`3 - i % 4` of digit `i / 4` (the lowest index of a group of 4 is the most significant bit);
the bit is 1 exactly when the cell is land (raw byte not 0 for FMAP, raw byte above 4 for CMAP),
and the bits of the last digit beyond cell `N - 1` are 0.  For SMAP the returned text is
empty. -/
theorem world_map_packing (m : translation_type) (N : Nat) (pre b rest : List byte)
    (line_code : text) (features : List feature)
    (hm : m = FMAP ∨ m = CMAP) (hN : N ≤ 600) (hb : b.length = N) :
    (∃ (ds : List Nat) (features1 : List feature) (s1 : ifstream),
      read_world_map (stream_at pre b rest) N m line_code features =
        Except.ok (ds.map hex_lower, features1, s1) ∧
      (∀ j, ds.getD j 0 < 16) ∧
      (∀ i, i < N →
        (ds.map hex_lower)[i / 4]? = some (hex_lower (ds.getD (i / 4) 0)) ∧
        (ds.getD (i / 4) 0).testBit (3 - i % 4) =
          if m = CMAP then decide (4 < (at_index b i).val)
          else decide ((at_index b i).val ≠ 0)) ∧
      (∀ i, N ≤ i → i / 4 < (ds.map hex_lower).length →
        (ds.map hex_lower)[i / 4]? = some (hex_lower (ds.getD (i / 4) 0)) ∧
        (ds.getD (i / 4) 0).testBit (3 - i % 4) = false)) ∧
    (∃ features1 s1, read_world_map (stream_at pre b rest) N SMAP line_code features =
      Except.ok ([], features1, s1)) := by
  constructor
  · obtain ⟨ds, hds, hlen, hlt, hin, hout⟩ := world_map_bits b m N
    have hns : m ≠ SMAP := by rcases hm with rfl | rfl <;> decide
    have hget : ∀ j, j < N / 4 + 1 →
        (ds.map hex_lower)[j]? = some (hex_lower (ds.getD j 0)) := by
      intro j hj
      have hj' : j < ds.length := by rw [hlen]; exact hj
      simp [List.getElem?_map, List.getElem?_eq_getElem hj']
    refine ⟨ds, (world_map_value b N m line_code features).2,
      ⟨pre ++ b ++ rest, pre.length + N, false⟩, ?_, hlt, ?_, ?_⟩
    · rw [read_world_map_stream_at pre b rest N hN hb]
      have : (world_map_value b N m line_code features).1 = ds.map hex_lower := by
        rw [world_map_value_eq, hds]
        simp only [hns, if_false]
      rw [this]
    · intro i hi
      refine ⟨hget _ (by omega), ?_⟩
      rw [hin i hi]
      simp only [is_land]
      split
      · rfl
      · by_cases h0 : (at_index b i).val = 0 <;> simp [h0]
    · intro i hi hlt2
      refine ⟨hget _ (by simpa [hlen] using hlt2), hout i hi⟩
  · refine ⟨(world_map_value b N SMAP line_code features).2,
      ⟨pre ++ b ++ rest, pre.length + N, false⟩, ?_⟩
    rw [read_world_map_stream_at pre b rest N hN hb]
    have : (world_map_value b N SMAP line_code features).1 = [] := by
      rw [world_map_value_eq]
      simp only [if_true]
    rw [this]

set_option maxRecDepth 100000 in
theorem world_map_packing_witness :
    ((FMAP = FMAP ∨ FMAP = CMAP) ∧ 5 ≤ 600 ∧ ([255, 0, 5, 255, 1] : List byte).length = 5) ∧
    read_world_map (stream_at [] [255, 0, 5, 255, 1] []) 5 FMAP "FeatureMap_0".toList [] =
      Except.ok ("b8".toList,
        [⟨"FeatureMap_0_2".toList, 5⟩, ⟨"FeatureMap_0_4".toList, 1⟩],
        ⟨[255, 0, 5, 255, 1], 5, false⟩) ∧
    ∃ features1 s1, read_world_map (stream_at [] [255, 0, 5, 255, 1] []) 5 SMAP
      "FeatureMap_0".toList [] = Except.ok ([], features1, s1) :=
  ⟨⟨Or.inl rfl, by decide, rfl⟩, by decide,
    (world_map_packing FMAP 5 [] [255, 0, 5, 255, 1] [] "FeatureMap_0".toList []
      (Or.inl rfl) (by decide) rfl).2⟩

theorem nibbles_eq (ds1 ds2 : List Nat) (L : Nat) (h1 : ds1.length = L) (h2 : ds2.length = L)
    (l1 : ∀ j, ds1.getD j 0 < 16) (l2 : ∀ j, ds2.getD j 0 < 16)
    (h : ds1.map hex_lower = ds2.map hex_lower) : ∀ j, ds1.getD j 0 = ds2.getD j 0 := by
  intro j
  by_cases hj : j < L
  · have hj1 : j < ds1.length := by rw [h1]; exact hj
    have hj2 : j < ds2.length := by rw [h2]; exact hj
    have hg := congrArg (fun l => l[j]?) h
    simp only [List.getElem?_map, List.getElem?_eq_getElem hj1, List.getElem?_eq_getElem hj2,
      Option.map_some', Option.some.injEq] at hg
    have e1 : ds1.getD j 0 = ds1[j] := List.getD_eq_getElem _ _ hj1
    have e2 : ds2.getD j 0 = ds2[j] := List.getD_eq_getElem _ _ hj2
    have := hex_lower_injective ds1[j] ds2[j] (e1 ▸ l1 j) (e2 ▸ l2 j) hg
    rw [e1, e2, this]
  · have e1 : ds1.getD j 0 = 0 := by
      simp [List.getD_eq_getElem?_getD, List.getElem?_eq_none (by omega : ds1.length ≤ j)]
    have e2 : ds2.getD j 0 = 0 := by
      simp [List.getD_eq_getElem?_getD, List.getElem?_eq_none (by omega : ds2.length ≤ j)]
    rw [e1, e2]

theorem feature_of_anomaly (b1 b2 : List byte) (m : translation_type) (N : Nat)
    (line_code : text)
    (h : ((List.range N).filter fun i => is_anomaly m (at_index b1 i)).map
        (fun i => (⟨line_code ++ '_' :: nat_to_string i, at_index b1 i⟩ : feature)) =
      ((List.range N).filter fun i => is_anomaly m (at_index b2 i)).map
        (fun i => (⟨line_code ++ '_' :: nat_to_string i, at_index b2 i⟩ : feature)))
    (i : Nat) (hi : i < N) (ha : is_anomaly m (at_index b1 i) = true) :
    at_index b2 i = at_index b1 i := by
  have hmem : (⟨line_code ++ '_' :: nat_to_string i, at_index b1 i⟩ : feature) ∈
      ((List.range N).filter fun i => is_anomaly m (at_index b1 i)).map
        (fun i => (⟨line_code ++ '_' :: nat_to_string i, at_index b1 i⟩ : feature)) := by
    apply List.mem_map.2
    exact ⟨i, List.mem_filter.2 ⟨List.mem_range.2 hi, ha⟩, rfl⟩
  rw [h] at hmem
  obtain ⟨j, _, hj⟩ := List.mem_map.1 hmem
  simp only [feature.mk.injEq] at hj
  have hname := List.append_cancel_left hj.1
  simp only [List.cons.injEq, true_and] at hname
  have hji : j = i := nat_to_string_injective hname
  rw [← hj.2, hji]

theorem quiet_cell (m : translation_type) (hm : m = FMAP ∨ m = CMAP) (x y : byte)
    (hx : is_anomaly m x = false) (hy : is_anomaly m y = false)
    (hl : is_land m x = is_land m y) : x = y := by
  have hxl := x.isLt
  have hyl := y.isLt
  apply Fin.ext
  rcases hm with rfl | rfl
  · simp only [is_anomaly, is_land, reduceCtorEq, if_false, Bool.and_eq_false_iff, bne_eq_false_iff_eq] at hx hy hl
    by_cases hx0 : x.val = 0 <;> by_cases hy0 : y.val = 0 <;> simp [hx0, hy0] at hx hy hl ⊢
    omega
  · simp only [is_anomaly, is_land, if_true, Bool.and_eq_false_iff, bne_eq_false_iff_eq] at hx hy hl
    by_cases hx4 : 4 < x.val <;> by_cases hy4 : 4 < y.val <;> simp [hx4, hy4] at hl <;> omega

/-- C3 as stated fails for SMAP: the returned text is empty and the bytes 00 and FF leave no
feature, so the 1-byte inputs `00` and `FF` give the same text and the same feature list. -/
theorem sailing_map_not_injective :
    read_world_map (stream_at [] [0] []) 1 SMAP "SailingMap_0".toList [] =
        Except.ok ([], [], ⟨[0], 1, false⟩) ∧
      read_world_map (stream_at [] [255] []) 1 SMAP "SailingMap_0".toList [] =
        Except.ok ([], [], ⟨[255], 1, false⟩) ∧
      ([0] : List byte) ≠ [255] := by
  decide

/-- C3, amended. For the kinds FMAP and CMAP, every `N ≤ 600` and every `N`-byte input, the
bytes can be rebuilt from what `read_world_map` emits: two `N`-byte inputs of the same kind,
read for the same line, that give the same grid text and the same feature list are equal. -/
theorem world_map_determines_bytes (m : translation_type) (N : Nat)
    (pre1 b1 rest1 pre2 b2 rest2 : List byte) (line_code grid : text)
    (features features1 : List feature) (s1 s2 : ifstream)
    (hm : m = FMAP ∨ m = CMAP) (hN : N ≤ 600) (h1 : b1.length = N) (h2 : b2.length = N)
    (r1 : read_world_map (stream_at pre1 b1 rest1) N m line_code features =
      Except.ok (grid, features1, s1))
    (r2 : read_world_map (stream_at pre2 b2 rest2) N m line_code features =
      Except.ok (grid, features1, s2)) : b1 = b2 := by
  have hns : m ≠ SMAP := by rcases hm with rfl | rfl <;> decide
  rw [read_world_map_stream_at pre1 b1 rest1 N hN h1, world_map_value_eq] at r1
  rw [read_world_map_stream_at pre2 b2 rest2 N hN h2, world_map_value_eq] at r2
  simp only [hns, if_false, Except.ok.injEq, Prod.mk.injEq] at r1 r2
  obtain ⟨g1, f1, -⟩ := r1
  obtain ⟨g2, f2, -⟩ := r2
  have hfeat := List.append_cancel_left (f1.trans f2.symm)
  obtain ⟨ds1, hds1, hl1, hlt1, hin1, -⟩ := world_map_bits b1 m N
  obtain ⟨ds2, hds2, hl2, hlt2, hin2, -⟩ := world_map_bits b2 m N
  rw [← hds1] at g1
  rw [← hds2] at g2
  have hnib := nibbles_eq ds1 ds2 _ hl1 hl2 hlt1 hlt2 (g1.trans g2.symm)
  apply List.ext_getElem (h1.trans h2.symm)
  intro i hi1 hi2
  have hi : i < N := by rw [← h1]; exact hi1
  have e1 : at_index b1 i = b1[i] := List.getD_eq_getElem _ _ hi1
  have e2 : at_index b2 i = b2[i] := List.getD_eq_getElem _ _ hi2
  rw [← e1, ← e2]
  by_cases ha1 : is_anomaly m (at_index b1 i) = true
  · exact (feature_of_anomaly b1 b2 m N line_code hfeat i hi ha1).symm
  · by_cases ha2 : is_anomaly m (at_index b2 i) = true
    · exact feature_of_anomaly b2 b1 m N line_code hfeat.symm i hi ha2
    · apply quiet_cell m hm _ _ (by simpa using ha1) (by simpa using ha2)
      rw [← hin1 i hi, ← hin2 i hi, hnib]

set_option maxRecDepth 100000 in
theorem world_map_determines_bytes_witness :
    ((FMAP = FMAP ∨ FMAP = CMAP) ∧ 2 ≤ 600 ∧ ([255, 7] : List byte).length = 2 ∧
      read_world_map (stream_at [] [255, 7] []) 2 FMAP "FeatureMap_0".toList [] =
        Except.ok ("c".toList, [⟨"FeatureMap_0_1".toList, 7⟩], ⟨[255, 7], 2, false⟩) ∧
      read_world_map (stream_at [9] [255, 7] [3]) 2 FMAP "FeatureMap_0".toList [] =
        Except.ok ("c".toList, [⟨"FeatureMap_0_1".toList, 7⟩], ⟨[9, 255, 7, 3], 3, false⟩)) ∧
    ([255, 7] : List byte) = [255, 7] :=
  ⟨⟨Or.inl rfl, by decide, rfl, by decide, by decide⟩,
    world_map_determines_bytes FMAP 2 [] [255, 7] [] [9] [255, 7] [3] "FeatureMap_0".toList
      "c".toList [] [⟨"FeatureMap_0_1".toList, 7⟩] ⟨[255, 7], 2, false⟩
      ⟨[9, 255, 7, 3], 3, false⟩ (Or.inl rfl) (by decide) rfl rfl (by decide) (by decide)⟩

/-! ## The leaf read never reports a split error -/

theorem decode_text_error (padding : Option Int) (s : ifstream) (e : abort_reason)
    (h : decode_text padding s = Except.error e) :
    e = abort_reason.short_read ∨ e = abort_reason.string_too_long := by
  unfold decode_text at h
  split at h
  · injection h with h; exact Or.inl h.symm
  · split at h
    · injection h with h; exact Or.inr h.symm
    · split at h <;> exact absurd h (by simp)

theorem decode_fixed_error (n : Nat) (f : List byte → text) (s : ifstream) (e : abort_reason)
    (h : decode_fixed n f s = Except.error e) : e = abort_reason.short_read := by
  unfold decode_fixed at h
  split at h
  · injection h with h; exact h.symm
  · exact absurd h (by simp)

theorem read_world_map_error (s : ifstream) (n : Nat) (m : translation_type) (lc : text)
    (fs : List feature) (e : abort_reason)
    (h : read_world_map s n m lc fs = Except.error e) : e = abort_reason.short_read := by
  unfold read_world_map at h
  split at h
  · injection h with h; exact h.symm
  · split at h
    · injection h with h; exact h.symm
    · exact absurd h (by simp)

theorem map_error {α β : Type} (g : α → β) (r : Except abort_reason α) (e : abort_reason)
    (h : Except.map g r = Except.error e) : r = Except.error e := by
  cases r with
  | error e1 => simpa [Except.map] using h
  | ok a => simp [Except.map] at h

theorem decode_leaf_error (m : translation_type) (bpl : Nat) (lc : text) (fs : List feature)
    (s : ifstream) (e : abort_reason) (h : decode_leaf m bpl lc fs s = Except.error e) :
    e = abort_reason.short_read ∨ e = abort_reason.string_too_long ∨
      e = abort_reason.non_zeros := by
  cases m <;> simp only [decode_leaf] at h
  case TEXT0 =>
    rcases decode_text_error _ _ _ (map_error _ _ _ h) with h | h
    · exact Or.inl h
    · exact Or.inr (Or.inl h)
  case TEXT8 =>
    rcases decode_text_error _ _ _ (map_error _ _ _ h) with h | h
    · exact Or.inl h
    · exact Or.inr (Or.inl h)
  case HEX => exact Or.inl (decode_fixed_error _ _ _ _ (map_error _ _ _ h))
  case BINARY => exact Or.inl (decode_fixed_error _ _ _ _ (map_error _ _ _ h))
  case SHORT => exact Or.inl (decode_fixed_error _ _ _ _ (map_error _ _ _ h))
  case CHAR => exact Or.inl (decode_fixed_error _ _ _ _ (map_error _ _ _ h))
  case LCHAR => exact Or.inl (decode_fixed_error _ _ _ _ (map_error _ _ _ h))
  case BULK => exact Or.inl (decode_fixed_error _ _ _ _ (map_error _ _ _ h))
  case FMAP => exact Or.inl (read_world_map_error _ _ _ _ _ _ h)
  case SMAP => exact Or.inl (read_world_map_error _ _ _ _ _ _ h)
  case CMAP => exact Or.inl (read_world_map_error _ _ _ _ _ _ h)
  case INT =>
    split at h
    · injection h with h; exact Or.inl h.symm
    · exact absurd h (by simp)
  case mFLOAT =>
    split at h
    · injection h with h; exact Or.inl h.symm
    · exact absurd h (by simp)
  case uFLOAT =>
    split at h
    · injection h with h; exact Or.inl h.symm
    · exact absurd h (by simp)
  case ZERO =>
    split at h
    · injection h with h; exact Or.inl h.symm
    · split at h
      · exact absurd h (by simp)
      · injection h with h; exact Or.inr (Or.inr h.symm)

/-- The errors that the theorem on the declared tables rules out. -/
theorem unpack_leaf_error (mysection : «section») (c : Nat) (acc : unpack_state × List feature)
    (e : abort_reason) (h : unpack_leaf mysection c acc = Except.error e) :
    e ≠ abort_reason.not_divisible ∧ e ≠ abort_reason.dont_add_up ∧
      e ≠ abort_reason.out_of_fuel := by
  simp only [unpack_leaf] at h
  split at h
  · rename_i e1 hd
    injection h with h
    subst h
    rcases decode_leaf_error _ _ _ _ _ _ hd with h | h | h <;> subst h <;> decide
  · split at h
    · rename_i e1 hs
      injection h with h
      subst h
      split at hs
      · simp only [store_startingyear] at hs
        split at hs
        · injection hs with hs; subst hs; decide
        · exact absurd hs (by simp)
      · exact absurd hs (by simp)
    · split at h
      · rename_i e1 hr
        injection h with h
        subst h
        simp only [remap_negative] at hr
        split at hr
        · split at hr
          · injection hr with hr; subst hr; decide
          · split at hr <;> exact absurd hr (by simp)
        · exact absurd hr (by simp)
      · exact absurd h (by simp)

/-! ## The schema check covers every run -/

theorem all_range_succ (f : Nat → Bool) (n : Nat) :
    (List.range (n + 1)).all f = (f 0 && (List.range n).all fun d => f (d + 1)) := by
  rw [List.range_succ_eq_map]
  simp only [List.all_cons, List.all_map]
  rfl

theorem section_ok_succ (simple : simple_table) (manual : manual_table) (fuel : Nat)
    (mysection : «section») (offset : Nat) :
    section_ok simple manual (fuel + 1) mysection offset =
      (List.range mysection.count).all fun d =>
        line_check simple manual (fun sub suboffset => section_ok simple manual fuel sub suboffset)
          mysection (offset + d) := rfl

theorem section_ok_pos (simple : simple_table) (manual : manual_table) (K : Nat)
    (mysection : «section») (offset : Nat)
    (h : section_ok simple manual K mysection offset = true) : ∃ K1, K = K1 + 1 := by
  cases K with
  | zero => simp [section_ok] at h
  | succ K1 => exact ⟨K1, rfl⟩

theorem section_ok_line (simple : simple_table) (manual : manual_table) (K : Nat)
    (mysection : «section») (offset : Nat)
    (h : section_ok simple manual (K + 1) mysection offset = true) (d : Nat)
    (hd : d < mysection.count) :
    line_check simple manual (fun sub suboffset => section_ok simple manual K sub suboffset)
      mysection (offset + d) = true := by
  rw [section_ok_succ, List.all_eq_true] at h
  exact h d (List.mem_range.2 hd)

/-- The loop over the triples of a heterogeneous rule, when each recursive call is known not to
end in one of the errors `bad`. -/
theorem unpack_manual_error
    (recur : «section» → Nat → unpack_state → Except abort_reason unpack_state)
    (good : abort_reason → Prop) (subsection : text) (info : List subsection_info) :
    ∀ (suboffset check : Nat) (st : unpack_state),
      (∀ p ∈ manual_offsets suboffset info, ∀ st1 e,
        recur ⟨subsection, p.2.multiplier, p.2.byte_count, p.2.method⟩ p.1 st1 =
          Except.error e → good e) →
      ∀ e, unpack_manual recur subsection info (st, suboffset, check) = Except.error e →
        good e := by
  induction info with
  | nil =>
    intro suboffset check st _ e h
    simp [unpack_manual] at h
  | cons t rest ih =>
    intro suboffset check st hgood e h
    simp only [unpack_manual] at h
    split at h
    · rename_i e1 he
      injection h with h
      subst h
      exact hgood (suboffset, t) (by simp [manual_offsets]) st e1 he
    · exact ih _ _ _ (fun p hp => hgood p (by simp [manual_offsets, hp])) e h

theorem unpack_manual_sum
    (recur : «section» → Nat → unpack_state → Except abort_reason unpack_state)
    (subsection : text) (info : List subsection_info) (st st1 : unpack_state)
    (off1 check1 : Nat)
    (h : unpack_manual recur subsection info (st, 0, 0) = Except.ok (st1, off1, check1)) :
    check1 = byte_count_check info := by
  rw [byte_count_check_eq_sum, (unpack_manual_check recur subsection info _ _ _ _ _ _ h).1,
    Nat.zero_add]

theorem unpack_line_checked (simple : simple_table) (manual : manual_table)
    (recur : «section» → Nat → unpack_state → Except abort_reason unpack_state)
    (chk : «section» → Nat → Bool) (good : abort_reason → Prop)
    (hleaf : ∀ e, e ≠ abort_reason.not_divisible ∧ e ≠ abort_reason.dont_add_up ∧
      e ≠ abort_reason.out_of_fuel → good e)
    (hrec : ∀ sub suboffset, chk sub suboffset = true →
      ∀ st e, recur sub suboffset st = Except.error e → good e)
    (mysection : «section») (c : Nat)
    (hok : line_check simple manual chk mysection c = true)
    (acc : unpack_state × List feature) (e : abort_reason)
    (h : unpack_line simple manual recur mysection c acc = Except.error e) : good e := by
  unfold line_check at hok
  unfold unpack_line at h
  split at hok
  · rename_i key submeth hres
    simp only [hres] at h
    split at hok
    · exact absurd hok (by simp)
    · rename_i size hsize
      simp only [hsize] at h
      split at hok
      · exact absurd hok (by simp)
      · rename_i sub suboffset hsplit
        simp only [hsplit] at h
        split at h
        · rename_i e1 he
          injection h with h
          subst h
          exact hrec sub suboffset hok acc.1 e1 he
        · exact absurd h (by simp)
  · rename_i key info hres
    simp only [hres] at h
    simp only [Bool.and_eq_true, List.all_eq_true, beq_iff_eq] at hok
    obtain ⟨hchildren, hsum⟩ := hok
    split at h
    · rename_i e1 he
      injection h with h
      subst h
      exact unpack_manual_error recur good _ info 0 0 acc.1
        (fun p hp st1 e2 he2 => hrec _ _ (hchildren p hp) st1 e2 he2) e1 he
    · rename_i st1 off1 check1 hm
      have := unpack_manual_sum recur _ info acc.1 st1 off1 check1 hm
      rw [this, hsum] at h
      simp at h
  · rename_i hres
    simp only [hres] at h
    exact hleaf e (unpack_leaf_error mysection c acc e h)

theorem unpack_loop_checked
    (body : Nat → unpack_state × List feature →
      Except abort_reason (unpack_state × List feature))
    (good : abort_reason → Prop) :
    ∀ (left c : Nat) (acc : unpack_state × List feature),
      (∀ d, d < left → ∀ acc1 e, body (c + d) acc1 = Except.error e → good e) →
      ∀ e, unpack_loop body left c acc = Except.error e → good e := by
  intro left
  induction left with
  | zero =>
    intro c acc _ e h
    simp [unpack_loop] at h
  | succ left ih =>
    intro c acc hbody e h
    simp only [unpack_loop] at h
    split at h
    · rename_i e1 he
      injection h with h
      subst h
      exact hbody 0 (Nat.succ_pos _) acc e1 he
    · rename_i acc1 _
      apply ih (c + 1) acc1 _ e h
      intro d hd acc2 e2 he2
      have := hbody (d + 1) (by omega) acc2 e2
      rw [show c + (d + 1) = c + 1 + d by omega] at this
      exact this he2

/-- A section that passes the schema check with bound `K` never ends in one of the two split
aborts, whatever the stream holds and whatever the recursion bound of the run, and does not
run out of a recursion bound of at least `K`. -/
theorem unpack_section_checked (simple : simple_table) (manual : manual_table) :
    ∀ (k K : Nat) (mysection : «section») (offset : Nat) (st : unpack_state) (e : abort_reason),
      section_ok simple manual K mysection offset = true →
      unpack_section simple manual k mysection offset st = Except.error e →
        e ≠ abort_reason.not_divisible ∧ e ≠ abort_reason.dont_add_up ∧
          (K ≤ k → e ≠ abort_reason.out_of_fuel) := by
  intro k
  induction k with
  | zero =>
    intro K mysection offset st e hok h
    obtain ⟨K1, rfl⟩ := section_ok_pos simple manual K mysection offset hok
    simp only [unpack_section] at h
    injection h with h
    subst h
    exact ⟨by decide, by decide, fun hk => absurd hk (by omega)⟩
  | succ k ih =>
    intro K mysection offset st e hok h
    obtain ⟨K1, rfl⟩ := section_ok_pos simple manual K mysection offset hok
    simp only [unpack_section] at h
    split at h
    · rename_i e1 he
      injection h with h
      subst h
      have key := unpack_loop_checked
        (unpack_line simple manual
          (fun sub suboffset st1 => unpack_section simple manual k sub suboffset st1) mysection)
        (fun e => e ≠ abort_reason.not_divisible ∧ e ≠ abort_reason.dont_add_up ∧
          (K1 + 1 ≤ k + 1 → e ≠ abort_reason.out_of_fuel))
        mysection.count offset _ (by
          intro d hd acc1 e2 he2
          exact unpack_line_checked simple manual _
            (fun sub suboffset => section_ok simple manual K1 sub suboffset)
            (fun e => e ≠ abort_reason.not_divisible ∧ e ≠ abort_reason.dont_add_up ∧
              (K1 + 1 ≤ k + 1 → e ≠ abort_reason.out_of_fuel))
            (fun e3 h3 => ⟨h3.1, h3.2.1, fun _ => h3.2.2⟩)
            (fun sub suboffset hsub st2 e3 he3 => by
              have := ih K1 sub suboffset st2 e3 hsub he3
              exact ⟨this.1, this.2.1, fun hk => this.2.2 (by omega)⟩)
            mysection (offset + d) (section_ok_line simple manual K1 mysection offset hok d hd)
            acc1 e2 he2) e1 he
      exact key
    · split at h <;> exact absurd h (by simp)

/-! ## The first index of a name does not matter when no key spells it -/

theorem key_indexed_of_name (base rest : text) (d : Char) (hd : d.isDigit = true) :
    key_indexed base (base ++ '_' :: d :: rest) = true := by
  have hp : (base ++ ['_']).isPrefixOf (base ++ '_' :: d :: rest) = true := by
    rw [List.isPrefixOf_iff_prefix]
    exact ⟨d :: rest, by simp⟩
  have hdrop : (base ++ '_' :: d :: rest).drop (base.length + 1) = d :: rest := by
    have : base ++ '_' :: d :: rest = (base ++ ['_']) ++ d :: rest := by simp
    rw [this, List.drop_left' (by simp)]
  simp only [key_indexed, hp, hdrop, hd, Bool.and_self]

theorem lookup_free {β : Type} (T : List (text × β)) (base name : text)
    (hfree : (T.all fun kv => !key_indexed base kv.1) = true)
    (hname : key_indexed base name = true) : T.lookup name = none := by
  rw [List.lookup_eq_none_iff]
  intro p hp
  rw [List.all_eq_true] at hfree
  have h1 := hfree p hp
  by_cases he : name = p.1
  · rw [he] at hname
    simp [hname] at h1
  · simpa using he

theorem resolve_line_free (simple : simple_table) (manual : manual_table) (base : text)
    (hne : base ≠ []) (hb : ∀ ch ∈ base, ch ≠ '_')
    (hfree : tables_free simple manual base = true) (i : Nat) (q : text)
    (hq : q = [] ∨ ∃ r, q = '_' :: r) (method : translation_type) :
    resolve_line simple manual (base ++ '_' :: (nat_to_string i ++ q)) method =
      match simple.lookup (base ++ '_' :: 'x' :: q) with
      | some submeth =>
        if submeth ≠ method then resolution.uniform (base ++ '_' :: 'x' :: q) submeth
        else
          match manual.lookup (base ++ '_' :: 'x' :: q) with
          | some info => resolution.manual (base ++ '_' :: 'x' :: q) info
          | none => resolution.leaf
      | none =>
        match manual.lookup (base ++ '_' :: 'x' :: q) with
        | some info => resolution.manual (base ++ '_' :: 'x' :: q) info
        | none => resolution.leaf := by
  simp only [tables_free, Bool.and_eq_true] at hfree
  obtain ⟨ch, rest, hr, hd⟩ := nat_to_string_head_digit i
  have hdig := (digit_facts hd).1
  have hidx : key_indexed base (base ++ '_' :: (nat_to_string i ++ q)) = true := by
    rw [hr]
    exact key_indexed_of_name base (rest ++ q) ch hdig
  have h1 := lookup_free simple base _ hfree.1 hidx
  have h2 := lookup_free manual base _ hfree.2 hidx
  have hx := subsection_x_of_indexed base (nat_to_string i) q hne hb
    (nat_to_string_all_digits i) (nat_to_string_ne_nil i) hq
  simp only [resolve_line, h1, h2, hx, Option.isSome_none, Bool.false_eq_true, if_false]

theorem all_congr_mem {α : Type} (l : List α) (f g : α → Bool) (h : ∀ x ∈ l, f x = g x) :
    l.all f = l.all g := by
  induction l with
  | nil => rfl
  | cons x xs ih =>
    simp only [List.all_cons]
    rw [h x (by simp), ih (fun y hy => h y (by simp [hy]))]

theorem tail_extend (q : text) (d : Nat) (hq : q = [] ∨ ∃ r, q = '_' :: r) :
    (q ++ '_' :: nat_to_string d) = [] ∨ ∃ r, (q ++ '_' :: nat_to_string d) = '_' :: r := by
  right
  rcases hq with rfl | ⟨r, rfl⟩
  · exact ⟨_, rfl⟩
  · exact ⟨r ++ '_' :: nat_to_string d, rfl⟩

theorem uniform_split_none (mysection : «section») (c : Nat) (submeth : translation_type)
    (size : Nat) (h : 0 < size ∧ mysection.bytes_per_line % size ≠ 0) :
    uniform_split mysection c submeth size = none := by
  unfold uniform_split
  rw [if_pos h]

theorem uniform_split_one (mysection : «section») (c : Nat) (submeth : translation_type)
    (size : Nat) (h : ¬ (0 < size ∧ mysection.bytes_per_line % size ≠ 0))
    (h1 : (if 0 < size then mysection.bytes_per_line / size else 1) = 1) :
    uniform_split mysection c submeth size =
      some (⟨mysection.name, 1, size, submeth⟩, c) := by
  unfold uniform_split
  rw [if_neg h]
  simp only [h1, if_true]

theorem uniform_split_many (mysection : «section») (c : Nat) (submeth : translation_type)
    (size : Nat) (h : ¬ (0 < size ∧ mysection.bytes_per_line % size ≠ 0))
    (h1 : ¬ (if 0 < size then mysection.bytes_per_line / size else 1) = 1) :
    uniform_split mysection c submeth size =
      some (⟨subsection_name mysection.name c,
        if 0 < size then mysection.bytes_per_line / size else 1, size, submeth⟩, 0) := by
  unfold uniform_split
  rw [if_neg h]
  simp only [h1, if_false]

/-- When no key of the tables spells an index after `base`, the check of a section below
`base_i` does not depend on `i`. -/
theorem section_ok_index_free (simple : simple_table) (manual : manual_table) (base : text)
    (hne : base ≠ []) (hb : ∀ ch ∈ base, ch ≠ '_')
    (hfree : tables_free simple manual base = true) (i j : Nat) :
    ∀ (fuel : Nat) (sec1 sec2 : «section») (off1 off2 : Nat),
      sec1.count = sec2.count → sec1.bytes_per_line = sec2.bytes_per_line →
      sec1.method = sec2.method →
      (∀ d, d < sec1.count → ∃ q, (q = [] ∨ ∃ r, q = '_' :: r) ∧
        subsection_name sec1.name (off1 + d) = base ++ '_' :: (nat_to_string i ++ q) ∧
        subsection_name sec2.name (off2 + d) = base ++ '_' :: (nat_to_string j ++ q)) →
      section_ok simple manual fuel sec1 off1 = section_ok simple manual fuel sec2 off2 := by
  intro fuel
  induction fuel with
  | zero => intro sec1 sec2 off1 off2 _ _ _ _; rfl
  | succ fuel ih =>
    intro sec1 sec2 off1 off2 hcount hbpl hmeth hrel
    rw [section_ok_succ, section_ok_succ, ← hcount]
    apply all_congr_mem
    intro d hd
    obtain ⟨q, hq, hn1, hn2⟩ := hrel d (List.mem_range.1 hd)
    have hres1 : resolve simple manual sec1 (off1 + d) = resolve simple manual sec2 (off2 + d) := by
      simp only [resolve, hn1, hn2, hmeth]
      rw [resolve_line_free simple manual base hne hb hfree i q hq,
        resolve_line_free simple manual base hne hb hfree j q hq]
    unfold line_check
    rw [← hres1]
    cases hres : resolve simple manual sec1 (off1 + d) with
    | leaf => rfl
    | uniform key submeth =>
      simp only []
      cases hsize : size_for_method submeth with
      | none => rfl
      | some size =>
        dsimp only
        by_cases hdiv : 0 < size ∧ sec2.bytes_per_line % size ≠ 0
        · rw [uniform_split_none sec1 _ submeth size (by rw [hbpl]; exact hdiv),
            uniform_split_none sec2 _ submeth size hdiv]
        · by_cases hone : (if 0 < size then sec2.bytes_per_line / size else 1) = 1
          · rw [uniform_split_one sec1 _ submeth size (by rw [hbpl]; exact hdiv)
              (by rw [hbpl]; exact hone), uniform_split_one sec2 _ submeth size hdiv hone]
            apply ih
            · rfl
            · rfl
            · rfl
            · intro d2 hd2
              have h0 : d2 = 0 := by
                have h1 : d2 < 1 := hd2
                omega
              refine ⟨q, hq, ?_, ?_⟩
              · rw [h0]; exact hn1
              · rw [h0]; exact hn2
          · rw [uniform_split_many sec1 _ submeth size (by rw [hbpl]; exact hdiv)
              (by rw [hbpl]; exact hone), uniform_split_many sec2 _ submeth size hdiv hone]
            apply ih
            · simp only [hbpl]
            · rfl
            · rfl
            · intro d2 _
              refine ⟨q ++ '_' :: nat_to_string d2, tail_extend q d2 hq, ?_, ?_⟩
              · simp only [Nat.zero_add]
                rw [hn1]
                simp [subsection_name, List.append_assoc]
              · simp only [Nat.zero_add]
                rw [hn2]
                simp [subsection_name, List.append_assoc]
    | manual key info =>
      simp only [hbpl]
      congr 1
      apply all_congr_mem
      intro p _
      apply ih
      · rfl
      · rfl
      · rfl
      · intro d2 _
        refine ⟨q ++ '_' :: nat_to_string (p.1 + d2), tail_extend q _ hq, ?_, ?_⟩
        · show subsection_name (subsection_name sec1.name (off1 + d)) (p.1 + d2) = _
          rw [hn1]
          simp [subsection_name, List.append_assoc]
        · show subsection_name (subsection_name sec2.name (off2 + d)) (p.1 + d2) = _
          rw [hn2]
          simp [subsection_name, List.append_assoc]

theorem line_check_count (simple : simple_table) (manual : manual_table)
    (recur : «section» → Nat → Bool) (mysection : «section») (n c : Nat) :
    line_check simple manual recur
        ⟨mysection.name, n, mysection.bytes_per_line, mysection.method⟩ c =
      line_check simple manual recur mysection c := rfl

theorem name_plain_facts (base : text) (h : name_plain base = true) :
    base ≠ [] ∧ ∀ ch ∈ base, ch ≠ '_' := by
  simp only [name_plain, Bool.and_eq_true, Bool.not_eq_true', List.all_eq_true, bne_iff_ne,
    ne_eq] at h
  refine ⟨?_, h.2⟩
  intro hnil
  rw [hnil] at h
  simp at h

/-- The check of the schema covers every line of every top-level section. -/
theorem schema_ok_section (simple : simple_table) (manual : manual_table) (K : Nat)
    (sections : List «section») (h : schema_ok simple manual (K + 1) sections = true)
    (sec : «section») (hsec : sec ∈ sections) :
    section_ok simple manual (K + 1) sec 0 = true := by
  simp only [schema_ok, List.all_eq_true] at h
  have hs := h sec hsec
  unfold top_section_ok at hs
  split at hs
  · rename_i hcond
    simp only [Bool.and_eq_true] at hcond
    obtain ⟨hne, hb⟩ := name_plain_facts sec.name hcond.2
    rw [section_ok_succ, List.all_eq_true]
    intro d _
    have hinv := section_ok_index_free simple manual sec.name hne hb hcond.1 d 0 (K + 1)
      ⟨sec.name, 1, sec.bytes_per_line, sec.method⟩
      ⟨sec.name, 1, sec.bytes_per_line, sec.method⟩ d 0 rfl rfl rfl (by
        intro d2 hd2
        have h0 : d2 = 0 := by
          have h1 : d2 < 1 := hd2
          omega
        subst h0
        exact ⟨[], Or.inl rfl, by simp [subsection_name], by simp [subsection_name]⟩)
    rw [hs] at hinv
    have hline := section_ok_line simple manual K _ d hinv 0 (Nat.succ_pos 0)
    rw [line_check_count] at hline
    simpa using hline
  · exact hs

/-- Every line the walk comes to passes the check of its loop body, at some bound. -/
theorem in_walk_checked (simple : simple_table) (manual : manual_table) (K : Nat)
    (sections : List «section») (h : schema_ok simple manual (K + 1) sections = true)
    (mysection : «section») (c : Nat) (hw : in_walk simple manual sections mysection c) :
    ∃ K1, line_check simple manual
      (fun sub suboffset => section_ok simple manual K1 sub suboffset) mysection c = true := by
  induction hw with
  | top sec c hsec hc =>
    have := section_ok_line simple manual K sec 0
      (schema_ok_section simple manual K sections h sec hsec) c hc
    rw [Nat.zero_add] at this
    exact ⟨K, this⟩
  | uniform mysection c key submeth size sub suboffset d _ hrule hsize hsplit hd ih =>
    obtain ⟨K1, hK1⟩ := ih
    simp only [line_check, hrule, hsize, hsplit] at hK1
    obtain ⟨K2, rfl⟩ := section_ok_pos simple manual K1 sub suboffset hK1
    exact ⟨K2, section_ok_line simple manual K2 sub suboffset hK1 d hd⟩
  | manual mysection c key info suboffset subinfo d _ hrule hmem hd ih =>
    obtain ⟨K1, hK1⟩ := ih
    simp only [line_check, hrule, Bool.and_eq_true, List.all_eq_true] at hK1
    have hsub := hK1.1 (suboffset, subinfo) hmem
    obtain ⟨K2, rfl⟩ := section_ok_pos simple manual K1 _ _ hsub
    exact ⟨K2, section_ok_line simple manual K2 _ suboffset hsub d hd⟩

theorem line_check_rules (simple : simple_table) (manual : manual_table)
    (recur : «section» → Nat → Bool) (mysection : «section») (c : Nat)
    (h : line_check simple manual recur mysection c = true) :
    (∀ key submeth, resolve simple manual mysection c = resolution.uniform key submeth →
      ∃ size, size_for_method submeth = some size ∧
        (0 < size → mysection.bytes_per_line % size = 0)) ∧
    (∀ key info, resolve simple manual mysection c = resolution.manual key info →
      (info.map fun t => t.byte_count * t.multiplier).sum = mysection.bytes_per_line) := by
  constructor
  · intro key submeth hrule
    simp only [line_check, hrule] at h
    cases hsize : size_for_method submeth with
    | none => simp [hsize] at h
    | some size =>
      refine ⟨size, rfl, ?_⟩
      intro hpos
      by_contra hne
      rw [hsize] at h
      simp only [uniform_split_none mysection c submeth size ⟨hpos, hne⟩] at h
      exact absurd h (by simp)
  · intro key info hrule
    simp only [line_check, hrule, Bool.and_eq_true, beq_iff_eq] at h
    rw [← byte_count_check_eq_sum]
    exact h.2

theorem unpack_sections_checked (simple : simple_table) (manual : manual_table) (K k : Nat) :
    ∀ (sections : List «section»),
      (∀ sec ∈ sections, section_ok simple manual K sec 0 = true) →
      ∀ (st : unpack_state) (e : abort_reason),
        unpack_sections simple manual k sections st = Except.error e →
          e ≠ abort_reason.not_divisible ∧ e ≠ abort_reason.dont_add_up ∧
            (K ≤ k → e ≠ abort_reason.out_of_fuel) := by
  intro sections
  induction sections with
  | nil =>
    intro _ st e h
    simp [unpack_sections] at h
  | cons sec rest ih =>
    intro hall st e h
    simp only [unpack_sections] at h
    split at h
    · rename_i e1 he
      injection h with h
      subst h
      exact unpack_section_checked simple manual k K sec 0 _ e1 (hall sec (by simp)) he
    · exact ih (fun s hs => hall s (by simp [hs])) _ e h

set_option maxRecDepth 1000000 in
theorem schema_Intro :
    top_section_ok subsection_simple_decode subsection_manual_decode 4
      ⟨"Intro".toList, 6, 4, INT⟩ = true := by
  decide!

set_option maxRecDepth 1000000 in
theorem schema_CityName :
    top_section_ok subsection_simple_decode subsection_manual_decode 4
      ⟨"CityName".toList, 128, 8, TEXT8⟩ = true := by
  decide!

set_option maxRecDepth 1000000 in
theorem schema_Personal :
    top_section_ok subsection_simple_decode subsection_manual_decode 4
      ⟨"Personal".toList, 57, 4, INT⟩ = true := by
  decide!

set_option maxRecDepth 1000000 in
theorem schema_Ship :
    top_section_ok subsection_simple_decode subsection_manual_decode 4
      ⟨"Ship".toList, 128, 1116, BULK⟩ = true := by
  decide!

set_option maxRecDepth 1000000 in
theorem schema_f :
    top_section_ok subsection_simple_decode subsection_manual_decode 4
      ⟨"f".toList, 128, 1116, BULK⟩ = true := by
  decide!

set_option maxRecDepth 1000000 in
theorem schema_City :
    top_section_ok subsection_simple_decode subsection_manual_decode 4
      ⟨"City".toList, 128, 32, BULK⟩ = true := by
  decide!

set_option maxRecDepth 1000000 in
theorem schema_CityInfo :
    top_section_ok subsection_simple_decode subsection_manual_decode 4
      ⟨"CityInfo".toList, 128, 148, BULK⟩ = true := by
  decide!

set_option maxRecDepth 1000000 in
theorem schema_Log :
    top_section_ok subsection_simple_decode subsection_manual_decode 4
      ⟨"Log".toList, 1000, 28, BULK⟩ = true := by
  decide!

set_option maxRecDepth 1000000 in
theorem schema_j :
    top_section_ok subsection_simple_decode subsection_manual_decode 4
      ⟨"j".toList, 1, 4, HEX⟩ = true := by
  decide!

set_option maxRecDepth 1000000 in
theorem schema_e :
    top_section_ok subsection_simple_decode subsection_manual_decode 4
      ⟨"e".toList, 30, 32, BULK⟩ = true := by
  decide!

set_option maxRecDepth 1000000 in
theorem schema_Quest :
    top_section_ok subsection_simple_decode subsection_manual_decode 4
      ⟨"Quest".toList, 64, 32, BULK⟩ = true := by
  decide!

set_option maxRecDepth 1000000 in
theorem schema_LogCount :
    top_section_ok subsection_simple_decode subsection_manual_decode 4
      ⟨"LogCount".toList, 1, 4, INT⟩ = true := by
  decide!

set_option maxRecDepth 1000000 in
theorem schema_TopoMap :
    top_section_ok subsection_simple_decode subsection_manual_decode 4
      ⟨"TopoMap".toList, 462, 586, BULK⟩ = true := by
  decide!

set_option maxRecDepth 1000000 in
theorem schema_FeatureMap :
    top_section_ok subsection_simple_decode subsection_manual_decode 4
      ⟨"FeatureMap".toList, 462, 293, FMAP⟩ = true := by
  decide!

set_option maxRecDepth 1000000 in
theorem schema_TreasureMap :
    top_section_ok subsection_simple_decode subsection_manual_decode 4
      ⟨"TreasureMap".toList, 4, 328, BULK⟩ = true := by
  decide!

set_option maxRecDepth 1000000 in
theorem schema_SailingMap :
    top_section_ok subsection_simple_decode subsection_manual_decode 4
      ⟨"SailingMap".toList, 462, 293, SMAP⟩ = true := by
  decide!

set_option maxRecDepth 1000000 in
theorem schema_vv :
    top_section_ok subsection_simple_decode subsection_manual_decode 4
      ⟨"vv".toList, 256, 12, BULK⟩ = true := by
  decide!

set_option maxRecDepth 1000000 in
theorem schema_vvv :
    top_section_ok subsection_simple_decode subsection_manual_decode 4
      ⟨"vvv".toList, 2, 4, INT⟩ = true := by
  decide!

set_option maxRecDepth 1000000 in
theorem schema_Top10 :
    top_section_ok subsection_simple_decode subsection_manual_decode 4
      ⟨"Top10".toList, 10, 28, BULK⟩ = true := by
  decide!

set_option maxRecDepth 1000000 in
theorem schema_d :
    top_section_ok subsection_simple_decode subsection_manual_decode 4
      ⟨"d".toList, 1, 36, ZERO⟩ = true := by
  decide!

set_option maxRecDepth 1000000 in
theorem schema_Villain :
    top_section_ok subsection_simple_decode subsection_manual_decode 4
      ⟨"Villain".toList, 28, 36, BULK⟩ = true := by
  decide!

set_option maxRecDepth 1000000 in
theorem schema_t :
    top_section_ok subsection_simple_decode subsection_manual_decode 4
      ⟨"t".toList, 1, 120, BULK⟩ = true := by
  decide!

set_option maxRecDepth 1000000 in
theorem schema_CityLoc :
    top_section_ok subsection_simple_decode subsection_manual_decode 4
      ⟨"CityLoc".toList, 128, 16, BULK⟩ = true := by
  decide!

set_option maxRecDepth 1000000 in
theorem schema_CoastMap :
    top_section_ok subsection_simple_decode subsection_manual_decode 4
      ⟨"CoastMap".toList, 462, 293, CMAP⟩ = true := by
  decide!

set_option maxRecDepth 1000000 in
theorem schema_k :
    top_section_ok subsection_simple_decode subsection_manual_decode 4
      ⟨"k".toList, 8, 4, INT⟩ = true := by
  decide!

set_option maxRecDepth 1000000 in
theorem schema_LandingParty :
    top_section_ok subsection_simple_decode subsection_manual_decode 4
      ⟨"LandingParty".toList, 8, 32, BULK⟩ = true := by
  decide!

set_option maxRecDepth 1000000 in
theorem schema_m :
    top_section_ok subsection_simple_decode subsection_manual_decode 4
      ⟨"m".toList, 1, 12, BULK⟩ = true := by
  decide!

set_option maxRecDepth 1000000 in
theorem schema_ShipName :
    top_section_ok subsection_simple_decode subsection_manual_decode 4
      ⟨"ShipName".toList, 8, 8, TEXT8⟩ = true := by
  decide!

set_option maxRecDepth 1000000 in
theorem schema_Skill :
    top_section_ok subsection_simple_decode subsection_manual_decode 4
      ⟨"Skill".toList, 1, 4, INT⟩ = true := by
  decide!

theorem declared_schema_ok :
    schema_ok subsection_simple_decode subsection_manual_decode 4 section_vector = true := by
  simp only [schema_ok, section_vector, List.all_cons, List.all_nil, Bool.and_self,
    schema_Intro,
    schema_CityName,
    schema_Personal,
    schema_Ship,
    schema_f,
    schema_City,
    schema_CityInfo,
    schema_Log,
    schema_j,
    schema_e,
    schema_Quest,
    schema_LogCount,
    schema_TopoMap,
    schema_FeatureMap,
    schema_TreasureMap,
    schema_SailingMap,
    schema_vv,
    schema_vvv,
    schema_Top10,
    schema_d,
    schema_Villain,
    schema_t,
    schema_CityLoc,
    schema_CoastMap,
    schema_k,
    schema_LandingParty,
    schema_m,
    schema_ShipName,
    schema_Skill]

/-- C5 as stated fails at the line `Intro_0`: the walk applies the uniform rule
`Intro_0 -> TEXT0` there, the width of `TEXT0` is 0 and the region has 4 bytes, so the width of
the new kind does not divide the region's `bytes_per_line`; the code skips the check for a
width of 0 and makes the single call on the new kind. -/
theorem intro_text_width_does_not_divide :
    in_walk subsection_simple_decode subsection_manual_decode section_vector
        ⟨"Intro".toList, 6, 4, INT⟩ 0 ∧
      resolve subsection_simple_decode subsection_manual_decode ⟨"Intro".toList, 6, 4, INT⟩ 0 =
        resolution.uniform "Intro_0".toList TEXT0 ∧
      size_for_method TEXT0 = some 0 ∧
      ¬ (0 ∣ (⟨"Intro".toList, 6, 4, INT⟩ : «section»).bytes_per_line) ∧
      uniform_split ⟨"Intro".toList, 6, 4, INT⟩ 0 TEXT0 0 =
        some (⟨"Intro".toList, 1, 0, TEXT0⟩, 0) := by
  refine ⟨in_walk.top _ 0 (by decide) (by decide), by decide, rfl, by decide, by decide⟩

/-- C5, amended. In the walk of `section_vector` with the declared tables every split that is
applied and checked satisfies the byte-sum rule: at every line the walk comes to, a uniform
rule that applies has a kind whose width is in `size_for_method` and, when the width is not 0,
divides the region's `bytes_per_line`, and a heterogeneous rule that applies has triples whose
`multiplier * byte_count` sum to the region's `bytes_per_line`.  Hence no input file makes
`unpack_pg_to_pst` end in the abort "byte counts are not divisible" or "subsections don't add
up", whatever the recursion bound, and a recursion bound of 4 is never used up. -/
theorem declared_rules_add_up :
    (∀ mysection c,
      in_walk subsection_simple_decode subsection_manual_decode section_vector mysection c →
        (∀ key submeth,
          resolve subsection_simple_decode subsection_manual_decode mysection c =
              resolution.uniform key submeth →
            ∃ size, size_for_method submeth = some size ∧
              (0 < size → mysection.bytes_per_line % size = 0)) ∧
        (∀ key info,
          resolve subsection_simple_decode subsection_manual_decode mysection c =
              resolution.manual key info →
            (info.map fun t => t.byte_count * t.multiplier).sum =
              mysection.bytes_per_line)) ∧
    (∀ (fuel : Nat) (pg_file : List byte) (year : Int) (e : abort_reason),
      unpack_pg_to_pst fuel pg_file year = Except.error e →
        e ≠ abort_reason.not_divisible ∧ e ≠ abort_reason.dont_add_up) ∧
    (∀ (fuel : Nat) (pg_file : List byte) (year : Int), 4 ≤ fuel →
      unpack_pg_to_pst fuel pg_file year ≠ Except.error abort_reason.out_of_fuel) := by
  have hall := schema_ok_section subsection_simple_decode subsection_manual_decode 3
    section_vector declared_schema_ok
  refine ⟨?_, ?_, ?_⟩
  · intro mysection c hw
    obtain ⟨K1, hK1⟩ := in_walk_checked subsection_simple_decode subsection_manual_decode 3
      section_vector declared_schema_ok mysection c hw
    exact line_check_rules _ _ _ mysection c hK1
  · intro fuel pg_file year e h
    have := unpack_sections_checked subsection_simple_decode subsection_manual_decode 4 fuel
      section_vector hall _ e h
    exact ⟨this.1, this.2.1⟩
  · intro fuel pg_file year hfuel h
    have := unpack_sections_checked subsection_simple_decode subsection_manual_decode 4 fuel
      section_vector hall _ _ h
    exact this.2.2 hfuel rfl

/-! ## The features of a world map -/

/-- C12. For every grid kind and every `N`-byte input (`N ≤ 600`), `read_world_map` appends to
the feature list exactly one record for each index `i` whose byte is anomalous (FMAP and SMAP:
not `00` and not `FF`; CMAP: not 0 and not 9), in increasing order of `i`, each with the
identifier `line_code + "_" + i` and the raw byte.  For SMAP the returned text is empty and the
records are those that FMAP appends on the same bytes. -/
theorem world_map_features (m : translation_type) (N : Nat) (pre b rest : List byte)
    (line_code : text) (features : List feature)
    (hm : m = FMAP ∨ m = SMAP ∨ m = CMAP) (hN : N ≤ 600) (hb : b.length = N) :
    (∃ grid s1,
      read_world_map (stream_at pre b rest) N m line_code features =
        Except.ok (grid,
          features ++
            ((List.range N).filter fun i =>
              if m = CMAP then decide ((at_index b i).val ≠ 0 ∧ (at_index b i).val ≠ 9)
              else decide ((at_index b i).val ≠ 0 ∧ (at_index b i).val ≠ 255)).map
              (fun i => (⟨line_code ++ '_' :: nat_to_string i, at_index b i⟩ : feature)),
          s1) ∧
      (m = SMAP → grid = [])) ∧
    (∃ grid1 grid2 features1 s1 s2,
      read_world_map (stream_at pre b rest) N SMAP line_code features =
        Except.ok (grid1, features1, s1) ∧
      read_world_map (stream_at pre b rest) N FMAP line_code features =
        Except.ok (grid2, features1, s2) ∧ grid1 = []) := by
  have hanom : ∀ m1 : translation_type,
      (fun i => is_anomaly m1 (at_index b i)) =
        fun i => if m1 = CMAP then decide ((at_index b i).val ≠ 0 ∧ (at_index b i).val ≠ 9)
          else decide ((at_index b i).val ≠ 0 ∧ (at_index b i).val ≠ 255) := by
    intro m1
    funext i
    simp only [is_anomaly]
    split
    · by_cases h0 : (at_index b i).val = 0 <;> by_cases h9 : (at_index b i).val = 9 <;>
        simp [h0, h9]
    · by_cases h0 : (at_index b i).val = 0 <;> by_cases h9 : (at_index b i).val = 255 <;>
        simp [h0, h9]
  constructor
  · refine ⟨(world_map_value b N m line_code features).1,
      ⟨pre ++ b ++ rest, pre.length + N, false⟩, ?_, ?_⟩
    · rw [read_world_map_stream_at pre b rest N hN hb]
      have : (world_map_value b N m line_code features).2 = _ :=
        congrArg Prod.snd (world_map_value_eq b N m line_code features)
      rw [this, hanom m]
    · intro hs
      rw [world_map_value_eq, hs]
      simp only [if_true]
  · refine ⟨[], (world_map_value b N FMAP line_code features).1,
      (world_map_value b N FMAP line_code features).2,
      ⟨pre ++ b ++ rest, pre.length + N, false⟩, ⟨pre ++ b ++ rest, pre.length + N, false⟩,
      ?_, ?_, rfl⟩
    · rw [read_world_map_stream_at pre b rest N hN hb, world_map_value_eq, world_map_value_eq]
      simp only [if_true, is_anomaly, reduceCtorEq, if_false]
    · rw [read_world_map_stream_at pre b rest N hN hb]

set_option maxRecDepth 100000 in
theorem world_map_features_witness :
    ((CMAP = FMAP ∨ CMAP = SMAP ∨ CMAP = CMAP) ∧ 4 ≤ 600 ∧ ([9, 0, 5, 255] : List byte).length = 4) ∧
    read_world_map (stream_at [] [9, 0, 5, 255] []) 4 CMAP "CoastMap_0".toList [] =
      Except.ok ("b0".toList,
        [⟨"CoastMap_0_2".toList, 5⟩, ⟨"CoastMap_0_3".toList, 255⟩], ⟨[9, 0, 5, 255], 4, false⟩) ∧
    ∃ grid1 grid2 features1 s1 s2,
      read_world_map (stream_at [] [9, 0, 5, 255] []) 4 SMAP "CoastMap_0".toList [] =
        Except.ok (grid1, features1, s1) ∧
      read_world_map (stream_at [] [9, 0, 5, 255] []) 4 FMAP "CoastMap_0".toList [] =
        Except.ok (grid2, features1, s2) ∧ grid1 = [] :=
  ⟨⟨Or.inr (Or.inr rfl), by decide, rfl⟩, by decide,
    (world_map_features CMAP 4 [] [9, 0, 5, 255] [] "CoastMap_0".toList []
      (Or.inr (Or.inr rfl)) (by decide) rfl).2⟩

/-! ## The kinds without the unsigned remap -/

theorem leaf_value_fixed (method : translation_type) (w n : Nat) (f : List byte → text)
    (pre bytes rest : List byte) (hn : bytes.length = n) (hint : method ≠ INT)
    (hdec : ∀ s, decode_leaf method w [] [] s =
      (decode_fixed n f s).map fun p => (p.1, [], p.2)) :
    leaf_value method w (stream_at pre bytes rest) = Except.ok (f bytes) := by
  simp only [leaf_value, hdec, decode_fixed_stream_at n f pre bytes rest hn, Except.map,
    remap_negative, hint, if_false]

/-- C17. The unsigned remap applies to the INT kind only.  For every input, `unpack_section`
renders a SHORT leaf as the signed decimal of the 16-bit little-endian two's-complement value
(between -32768 and 32767), a CHAR or LCHAR leaf as the signed decimal of the 8-bit value
(between -128 and 127), a HEX leaf as the four bytes, most significant first, in 2-digit
upper-case hex separated by dots, and a BINARY leaf as the 8 bits of the byte, most significant
first; for the all-ones pattern these are -1, -1, FF.FF.FF.FF and 11111111. -/
theorem kinds_without_remap (w : Nat) (pre rest : List byte) (b0 b1 b2 b3 : byte) :
    (∀ method value, method ≠ INT → remap_negative method value = Except.ok value) ∧
    (leaf_value SHORT w (stream_at pre [b0, b1] rest) =
        Except.ok (int_to_string
          (if b0.val + 256 * b1.val < 32768 then ((b0.val + 256 * b1.val : Nat) : Int)
            else ((b0.val + 256 * b1.val : Nat) : Int) - 65536)) ∧
      -32768 ≤ short_of_bytes b0 b1 ∧ short_of_bytes b0 b1 ≤ 32767) ∧
    (leaf_value CHAR w (stream_at pre [b0] rest) =
        Except.ok (int_to_string (if b0.val < 128 then (b0.val : Int) else (b0.val : Int) - 256)) ∧
      leaf_value LCHAR w (stream_at pre [b0] rest) =
        Except.ok (int_to_string (if b0.val < 128 then (b0.val : Int) else (b0.val : Int) - 256)) ∧
      -128 ≤ schar b0 ∧ schar b0 ≤ 127) ∧
    leaf_value HEX w (stream_at pre [b0, b1, b2, b3] rest) =
      Except.ok [hex_upper (b3.val / 16), hex_upper (b3.val % 16), '.',
        hex_upper (b2.val / 16), hex_upper (b2.val % 16), '.',
        hex_upper (b1.val / 16), hex_upper (b1.val % 16), '.',
        hex_upper (b0.val / 16), hex_upper (b0.val % 16)] ∧
    leaf_value BINARY w (stream_at pre [b0] rest) =
      Except.ok ([7, 6, 5, 4, 3, 2, 1, 0].map fun i => if b0.val.testBit i then '1' else '0') ∧
    (leaf_value SHORT w (stream_at pre [255, 255] rest) = Except.ok "-1".toList ∧
      leaf_value CHAR w (stream_at pre [255] rest) = Except.ok "-1".toList ∧
      leaf_value LCHAR w (stream_at pre [255] rest) = Except.ok "-1".toList ∧
      leaf_value HEX w (stream_at pre [255, 255, 255, 255] rest) =
        Except.ok "FF.FF.FF.FF".toList ∧
      leaf_value BINARY w (stream_at pre [255] rest) = Except.ok "11111111".toList) := by
  have hshort : ∀ a0 a1 : byte, leaf_value SHORT w (stream_at pre [a0, a1] rest) =
      Except.ok (int_to_string (short_of_bytes a0 a1)) := fun a0 a1 =>
    leaf_value_fixed SHORT w 2 _ pre [a0, a1] rest rfl (by decide) (fun _ => rfl)
  have hchar : ∀ a0 : byte, leaf_value CHAR w (stream_at pre [a0] rest) =
      Except.ok (char_value a0) := fun a0 =>
    leaf_value_fixed CHAR w 1 _ pre [a0] rest rfl (by decide) (fun _ => rfl)
  have hlchar : ∀ a0 : byte, leaf_value LCHAR w (stream_at pre [a0] rest) =
      Except.ok (char_value a0) := fun a0 =>
    leaf_value_fixed LCHAR w 1 _ pre [a0] rest rfl (by decide) (fun _ => rfl)
  have hhex : ∀ a0 a1 a2 a3 : byte, leaf_value HEX w (stream_at pre [a0, a1, a2, a3] rest) =
      Except.ok (hex_value [a0, a1, a2, a3]) := fun a0 a1 a2 a3 =>
    leaf_value_fixed HEX w 4 _ pre [a0, a1, a2, a3] rest rfl (by decide) (fun _ => rfl)
  have hbin : ∀ a0 : byte, leaf_value BINARY w (stream_at pre [a0] rest) =
      Except.ok (binary_value a0) := fun a0 =>
    leaf_value_fixed BINARY w 1 _ pre [a0] rest rfl (by decide) (fun _ => rfl)
  have h0 := b0.isLt
  have h1 := b1.isLt
  refine ⟨?_, ⟨?_, ?_, ?_⟩, ⟨?_, ?_, ?_, ?_⟩, ?_, ?_, ?_, ?_, ?_, ?_, ?_⟩
  · intro method value hne
    simp [remap_negative, hne]
  · rw [hshort]
    congr 2
    rw [short_of_bytes_eq]
    simp only [schar]
    split <;> split <;> omega
  · rw [short_of_bytes_eq]; simp only [schar]; split <;> omega
  · rw [short_of_bytes_eq]; simp only [schar]; split <;> omega
  · rw [hchar]; rfl
  · rw [hlchar]; rfl
  · simp only [schar]; split <;> omega
  · simp only [schar]; split <;> omega
  · rw [hhex, hex_value_four]; rfl
  · rw [hbin]; rfl
  · rw [hshort]; exact congrArg Except.ok (by decide)
  · rw [hchar]; exact congrArg Except.ok (by decide)
  · rw [hlchar]; exact congrArg Except.ok (by decide)
  · rw [hhex]; exact congrArg Except.ok (by decide)
  · rw [hbin]; exact congrArg Except.ok (by decide)

/-! ## The starting year -/

theorem four_bytes_at (data : List byte) (k : Nat) (h : k + 4 ≤ data.length) :
    data = data.take k ++ [at_index data k, at_index data (k + 1), at_index data (k + 2),
      at_index data (k + 3)] ++ data.drop (k + 4) := by
  apply List.ext_getElem
  · simp
    omega
  · intro i h1 h2
    by_cases hi : i < k
    · rw [List.getElem_append_left (by simp; omega), List.getElem_append_left (by simp; omega)]
      simp
    · by_cases hi4 : i < k + 4
      · rw [List.getElem_append_left (by simp; omega),
          List.getElem_append_right (by simp; omega)]
        have hk : (List.take k data).length = k := by simp; omega
        simp only [hk]
        have : i - k = 0 ∨ i - k = 1 ∨ i - k = 2 ∨ i - k = 3 := by omega
        rcases this with e | e | e | e <;>
          simp only [e, at_index, List.getElem_cons_zero, List.getElem_cons_succ] <;>
          rw [List.getD_eq_getElem _ _ (by omega)] <;> congr 1 <;> omega
      · rw [List.getElem_append_right (by simp; omega)]
        simp only [List.getElem_drop]
        congr 1
        simp
        omega

theorem seekg_cur_forward (data : List byte) (p : Nat) (off : Nat) :
    (⟨data, p, false⟩ : ifstream).seekg_cur (off : Int) = ⟨data, p + off, false⟩ := by
  have h : ¬ ((p : Int) + (off : Int) < 0) := by omega
  simp only [ifstream.seekg_cur, Bool.false_eq_true, if_false, h]
  congr 1

theorem seekg_cur_back (data : List byte) (p : Nat) (off : Nat) :
    (⟨data, p + off, false⟩ : ifstream).seekg_cur (-(off : Int)) = ⟨data, p, false⟩ := by
  have h : ¬ (((p + off : Nat) : Int) + -(off : Int) < 0) := by omega
  simp only [ifstream.seekg_cur, Bool.false_eq_true, if_false, h]
  congr 1
  omega

theorem read_int_at (data : List byte) (k : Nat) (h : k + 4 ≤ data.length) :
    read_int ⟨data, k, false⟩ =
      some (int_of_bytes (at_index data k) (at_index data (k + 1)) (at_index data (k + 2))
        (at_index data (k + 3)), ⟨data, k + 4, false⟩) := by
  have hs : (⟨data, k, false⟩ : ifstream) =
      stream_at (data.take k) [at_index data k, at_index data (k + 1), at_index data (k + 2),
        at_index data (k + 3)] (data.drop (k + 4)) := by
    simp only [stream_at, ← four_bytes_at data k h]
    congr 1
    simp
    omega
  rw [hs, read_int_stream_at, ← four_bytes_at data k h]
  congr 3
  simp
  omega

/-- C18. For every stream that has not failed and has at least 887272 + 4 bytes after its
cursor `p`, `store_startingyear` leaves the stream as it was, with the cursor at `p`, sets
`starting_year` to the little-endian signed 32-bit integer stored at byte offset `p + 887272`,
and changes nothing else. -/
theorem store_startingyear_restores (st : unpack_state) (hgood : st.input.failed = false)
    (hlen : st.input.pos + 887272 + 4 ≤ st.input.data.length) :
    store_startingyear st =
        Except.ok
          { st with
            starting_year :=
              int_of_bytes (at_index st.input.data (st.input.pos + 887272))
                (at_index st.input.data (st.input.pos + 887272 + 1))
                (at_index st.input.data (st.input.pos + 887272 + 2))
                (at_index st.input.data (st.input.pos + 887272 + 3)) } ∧
      int_of_bytes (at_index st.input.data (st.input.pos + 887272))
          (at_index st.input.data (st.input.pos + 887272 + 1))
          (at_index st.input.data (st.input.pos + 887272 + 2))
          (at_index st.input.data (st.input.pos + 887272 + 3)) =
        ((at_index st.input.data (st.input.pos + 887272)).val : Int) +
          256 * (at_index st.input.data (st.input.pos + 887272 + 1)).val +
          65536 * (at_index st.input.data (st.input.pos + 887272 + 2)).val +
          16777216 * schar (at_index st.input.data (st.input.pos + 887272 + 3)) := by
  refine ⟨?_, int_of_bytes_eq _ _ _ _⟩
  obtain ⟨⟨data, p, failed⟩, out, year⟩ := st
  simp only at hgood hlen
  subst hgood
  have h1 := seekg_cur_forward data p 887272
  have h2 := read_int_at data (p + 887272) hlen
  have h3 := seekg_cur_back data p (887272 + 4)
  have hj : jump_dist = ((887272 : Nat) : Int) := rfl
  have hb : -jump_dist - 4 = -(((887272 + 4 : Nat)) : Int) := by
    rw [hj]; norm_num
  simp only [store_startingyear, hj] at *
  rw [h1, h2]
  simp only
  rw [hb, show p + 887272 + 4 = p + (887272 + 4) by omega, h3]


theorem store_startingyear_restores_witness :
    ((⟨⟨List.replicate 887272 0 ++ [1, 2, 3, 4], 0, false⟩, [], 0⟩ : unpack_state).input.failed =
        false ∧
      0 + 887272 + 4 ≤ (List.replicate 887272 (0 : byte) ++ [1, 2, 3, 4]).length) ∧
    ∃ y, store_startingyear ⟨⟨List.replicate 887272 0 ++ [1, 2, 3, 4], 0, false⟩, [], 0⟩ =
      Except.ok ⟨⟨List.replicate 887272 0 ++ [1, 2, 3, 4], 0, false⟩, [], y⟩ :=
  ⟨⟨rfl, by rw [List.length_append, List.length_replicate]; decide⟩, _,
    (store_startingyear_restores ⟨⟨List.replicate 887272 0 ++ [1, 2, 3, 4], 0, false⟩, [], 0⟩
      rfl (by rw [List.length_append, List.length_replicate]; decide)).1⟩
/-! ## The zero-fill leaf -/

/-- C13. For every width `N` and every stream that holds `N` bytes at its cursor, decoding a
ZERO leaf of width `N` to which no rule applies (and which is not the line `Personal_0`, where
the starting year is read as well) fails exactly when one of the `N` bytes is not zero, with
the abort of `read_zeros`; otherwise it writes exactly one line, with the kind and width field
`x<N>` and the value `zero_string`, and moves the cursor forward by exactly `N` bytes. -/
theorem zero_leaf (simple : simple_table) (manual : manual_table)
    (recur : «section» → Nat → unpack_state → Except abort_reason unpack_state)
    (mysection : «section») (c : Nat) (acc : unpack_state × List feature)
    (pre bytes rest : List byte)
    (hres : resolve simple manual mysection c = resolution.leaf)
    (hm : mysection.method = ZERO)
    (hin : acc.1.input = stream_at pre bytes rest)
    (hlen : bytes.length = mysection.bytes_per_line)
    (hsent : subsection_name mysection.name c ≠ start_of_fixed_length_section) :
    ((∃ e, unpack_line simple manual recur mysection c acc = Except.error e) ↔
      ∃ x ∈ bytes, x ≠ 0) ∧
    ((∃ x ∈ bytes, x ≠ 0) →
      unpack_line simple manual recur mysection c acc =
        Except.error abort_reason.non_zeros) ∧
    ((∀ x ∈ bytes, x = 0) →
      unpack_line simple manual recur mysection c acc =
        Except.ok
          ({ acc.1 with
              input := ⟨pre ++ bytes ++ rest, pre.length + mysection.bytes_per_line, false⟩
              out := acc.1.out ++
                [pst_line.leaf (subsection_name mysection.name c)
                  ('x' :: nat_to_string mysection.bytes_per_line) "zero_string".toList] },
            acc.2)) := by
  have hread := read_full_stream_at pre bytes rest mysection.bytes_per_line hlen
  have hbad : (∃ x ∈ bytes, x ≠ 0) →
      unpack_line simple manual recur mysection c acc =
        Except.error abort_reason.non_zeros := by
    intro hx
    have hall : bytes.all (fun x => x == 0) = false := by
      rw [Bool.eq_false_iff]
      intro hcon
      rw [List.all_eq_true] at hcon
      obtain ⟨x, hxm, hxne⟩ := hx
      exact hxne (by simpa using hcon x hxm)
    simp only [unpack_line, hres, unpack_leaf, hm, decode_leaf, hin, hread, hall,
      Bool.false_eq_true, if_false]
  have hgood : (∀ x ∈ bytes, x = 0) →
      unpack_line simple manual recur mysection c acc =
        Except.ok
          ({ acc.1 with
              input := ⟨pre ++ bytes ++ rest, pre.length + mysection.bytes_per_line, false⟩
              out := acc.1.out ++
                [pst_line.leaf (subsection_name mysection.name c)
                  ('x' :: nat_to_string mysection.bytes_per_line) "zero_string".toList] },
            acc.2) := by
    intro hz
    have hall : bytes.all (fun x => x == 0) = true := by
      rw [List.all_eq_true]
      intro x hx
      simpa using hz x hx
    simp only [unpack_line, hres, unpack_leaf, hm, decode_leaf, hin, hread, hall, if_true,
      hsent, if_false, remap_negative, reduceCtorEq, is_world_map]
    rfl
  refine ⟨?_, hbad, hgood⟩
  constructor
  · rintro ⟨e, he⟩
    by_contra hcon
    have hz : ∀ x ∈ bytes, x = 0 := by
      intro x hx
      by_contra hne
      exact hcon ⟨x, hx, hne⟩
    rw [hgood hz] at he
    exact absurd he (by simp)
  · intro hx
    exact ⟨_, hbad hx⟩

set_option maxRecDepth 100000 in
theorem zero_leaf_witness :
    (resolve subsection_simple_decode subsection_manual_decode ⟨"d".toList, 1, 6, ZERO⟩ 0 =
        resolution.leaf ∧
      (⟨"d".toList, 1, 6, ZERO⟩ : «section»).method = ZERO ∧
      ([0, 0, 0, 0, 0, 0] : List byte).length = 6 ∧
      subsection_name "d".toList 0 ≠ start_of_fixed_length_section ∧
      ∀ x ∈ ([0, 0, 0, 0, 0, 0] : List byte), x = 0) ∧
    unpack_line subsection_simple_decode subsection_manual_decode
        (unpack_section subsection_simple_decode subsection_manual_decode 1)
        ⟨"d".toList, 1, 6, ZERO⟩ 0 (⟨stream_at [7] [0, 0, 0, 0, 0, 0] [8], [], 0⟩, []) =
      Except.ok
        (⟨⟨[7, 0, 0, 0, 0, 0, 0, 8], 7, false⟩,
          [pst_line.leaf "d_0".toList "x6".toList "zero_string".toList], 0⟩, []) :=
  ⟨⟨by decide, rfl, rfl, by decide, by decide⟩,
    (zero_leaf subsection_simple_decode subsection_manual_decode
      (unpack_section subsection_simple_decode subsection_manual_decode 1)
      ⟨"d".toList, 1, 6, ZERO⟩ 0 (⟨stream_at [7] [0, 0, 0, 0, 0, 0] [8], [], 0⟩, [])
      [7] [0, 0, 0, 0, 0, 0] [8] (by decide) rfl rfl rfl (by decide)).2.2 (by decide)⟩

/-! ## The kind and width field of a leaf line -/

theorem unpack_leaf_line (mysection : «section») (c : Nat) (acc : unpack_state × List feature)
    (r : unpack_state × List feature) (h : unpack_leaf mysection c acc = Except.ok r) :
    ∃ line_code value, r.1.out.getLast? =
      some (pst_line.leaf line_code
        (char_for_method mysection.method ++ nat_to_string mysection.bytes_per_line) value) := by
  simp only [unpack_leaf] at h
  split at h
  · exact absurd h (by simp)
  · split at h
    · exact absurd h (by simp)
    · split at h
      · exact absurd h (by simp)
      · injection h with h
        subst h
        exact ⟨_, _, List.getLast?_concat _⟩

theorem kind_field_injective (m1 m2 : translation_type) (w1 w2 : Nat)
    (h : char_for_method m1 ++ nat_to_string w1 = char_for_method m2 ++ nat_to_string w2) :
    m1 = m2 ∨ ((m1 = TEXT0 ∧ m2 = TEXT8 ∨ m1 = TEXT8 ∧ m2 = TEXT0) ∧ w1 = w2) := by
  obtain ⟨ch1, r1, he1, hd1⟩ := nat_to_string_head_digit w1
  obtain ⟨ch2, r2, he2, hd2⟩ := nat_to_string_head_digit w2
  have hM1 : ch1 ≠ 'M' := by
    intro hc
    rw [hc] at hd1
    exact absurd hd1 (by decide)
  have hM2 : ch2 ≠ 'M' := by
    intro hc
    rw [hc] at hd2
    exact absurd hd2 (by decide)
  have hw : nat_to_string w1 = nat_to_string w2 → w1 = w2 := nat_to_string_injective
  rw [he1, he2] at hw
  rw [he1, he2] at h
  cases m1 <;> cases m2 <;>
    simp only [char_for_method, String.toList, List.cons_append, List.nil_append,
      List.cons.injEq, Char.reduceEq, false_and, and_false, true_and, reduceCtorEq, or_false,
      false_or, or_true, true_or, and_true] at h ⊢ <;>
    first
      | exact hw (by simp [h.1, h.2])
      | exact absurd h.1 hM1
      | exact absurd h.1.symm hM2

theorem lookup_mem {β : Type} (T : List (text × β)) (k : text) (v : β)
    (h : T.lookup k = some v) : ∃ k1, (k1, v) ∈ T := by
  induction T with
  | nil => simp at h
  | cons p rest ih =>
    obtain ⟨k0, v0⟩ := p
    rw [List.lookup_cons] at h
    split at h
    · injection h with h
      exact ⟨k0, by simp [h]⟩
    · obtain ⟨k1, hk1⟩ := ih h
      exact ⟨k1, List.mem_cons_of_mem _ hk1⟩

theorem resolve_manual_mem (simple : simple_table) (manual : manual_table)
    (mysection : «section») (c : Nat) (key : text) (info : List subsection_info)
    (h : resolve simple manual mysection c = resolution.manual key info) :
    ∃ k1, (k1, info) ∈ manual := by
  have hkey : ∀ mk, (match manual.lookup mk with
      | some info => resolution.manual mk info
      | none => resolution.leaf) = resolution.manual key info → ∃ k1, (k1, info) ∈ manual := by
    intro mk hh
    cases hL : manual.lookup mk with
    | none =>
      rw [hL] at hh
      exact absurd hh (by simp)
    | some i =>
      rw [hL] at hh
      injection hh with _ h2
      subst h2
      exact lookup_mem manual mk _ hL
  simp only [resolve, resolve_line] at h
  split at h
  · split at h
    · cases h
    · exact hkey _ h
  · exact hkey _ h

theorem manual_offsets_mem (info : List subsection_info) :
    ∀ (suboffset : Nat) (p : Nat × subsection_info), p ∈ manual_offsets suboffset info →
      p.2 ∈ info := by
  induction info with
  | nil => intro suboffset p hp; simp [manual_offsets] at hp
  | cons subinfo rest ih =>
    intro suboffset p hp
    simp only [manual_offsets, List.mem_cons] at hp
    rcases hp with rfl | hp
    · simp
    · exact List.mem_cons_of_mem _ (ih _ p hp)

theorem walk_text_width (s : «section») (c : Nat)
    (h : in_walk subsection_simple_decode subsection_manual_decode section_vector s c) :
    (s.method = TEXT0 → s.bytes_per_line = 0) ∧ (s.method = TEXT8 → s.bytes_per_line = 8) := by
  induction h with
  | top sec c hsec hc =>
    have hall : (section_vector.all fun sec =>
        decide ((sec.method = TEXT0 → sec.bytes_per_line = 0) ∧
          (sec.method = TEXT8 → sec.bytes_per_line = 8))) = true := by decide
    rw [List.all_eq_true] at hall
    have h1 := hall sec hsec
    simp only [decide_eq_true_eq] at h1
    exact h1
  | uniform mysection c key submeth size sub suboffset d hparent hrule hsize hsplit hd ih =>
    have hsub : sub.bytes_per_line = size ∧ sub.method = submeth := by
      by_cases h0 : 0 < size ∧ mysection.bytes_per_line % size ≠ 0
      · rw [uniform_split_none _ _ _ _ h0] at hsplit
        cases hsplit
      · by_cases h1 : (if 0 < size then mysection.bytes_per_line / size else 1) = 1
        · rw [uniform_split_one _ _ _ _ h0 h1] at hsplit
          cases hsplit
          exact ⟨rfl, rfl⟩
        · rw [uniform_split_many _ _ _ _ h0 h1] at hsplit
          cases hsplit
          exact ⟨rfl, rfl⟩
    rw [hsub.1, hsub.2]
    constructor
    · intro hm
      rw [hm] at hsize
      simpa [size_for_method] using hsize.symm
    · intro hm
      rw [hm] at hsize
      simpa [size_for_method] using hsize.symm
  | manual mysection c key info suboffset subinfo d hparent hrule hmem hd ih =>
    obtain ⟨k1, hk1⟩ := resolve_manual_mem _ _ _ _ _ _ hrule
    have hin := manual_offsets_mem info 0 _ hmem
    have hall : (subsection_manual_decode.all fun kv => kv.2.all fun subinfo =>
        decide (subinfo.method ≠ TEXT0 ∧ subinfo.method ≠ TEXT8)) = true := by decide
    rw [List.all_eq_true] at hall
    have h1 := hall _ hk1
    rw [List.all_eq_true] at h1
    have h2 := h1 _ hin
    simp only [decide_eq_true_eq] at h2
    exact ⟨fun hm => absurd hm h2.1, fun hm => absurd hm h2.2⟩

/-- C20. Every leaf line written in the walk of `section_vector` carries enough to select its
codec again: the line carries the field `char_for_method` of the kind followed by the decimal
width, and for any two leaf lines of the walk with equal fields the leaf kinds are equal.
TEXT0 and TEXT8 share the code `t`, but in the walk TEXT0 always has width 0 and TEXT8 always
has width 8. -/
theorem kind_width_selects_kind (s1 s2 : «section») (c1 c2 : Nat)
    (hw1 : in_walk subsection_simple_decode subsection_manual_decode section_vector s1 c1)
    (hw2 : in_walk subsection_simple_decode subsection_manual_decode section_vector s2 c2)
    (hl1 : resolve subsection_simple_decode subsection_manual_decode s1 c1 = resolution.leaf)
    (hl2 : resolve subsection_simple_decode subsection_manual_decode s2 c2 = resolution.leaf)
    (hfield : char_for_method s1.method ++ nat_to_string s1.bytes_per_line =
      char_for_method s2.method ++ nat_to_string s2.bytes_per_line) :
    s1.method = s2.method ∧
    (s1.method = TEXT0 → s1.bytes_per_line = 0) ∧ (s1.method = TEXT8 → s1.bytes_per_line = 8) ∧
    ∀ recur acc r,
      (unpack_line subsection_simple_decode subsection_manual_decode recur s1 c1 acc =
          Except.ok r →
        ∃ line_code value, r.1.out.getLast? =
          some (pst_line.leaf line_code
            (char_for_method s1.method ++ nat_to_string s1.bytes_per_line) value)) ∧
      (unpack_line subsection_simple_decode subsection_manual_decode recur s2 c2 acc =
          Except.ok r →
        ∃ line_code value, r.1.out.getLast? =
          some (pst_line.leaf line_code
            (char_for_method s2.method ++ nat_to_string s2.bytes_per_line) value)) := by
  have ht1 := walk_text_width s1 c1 hw1
  have ht2 := walk_text_width s2 c2 hw2
  refine ⟨?_, ht1.1, ht1.2, ?_⟩
  · rcases kind_field_injective _ _ _ _ hfield with h | ⟨h | h, hw⟩
    · exact h
    · have a := ht1.1 h.1
      have b := ht2.2 h.2
      omega
    · have a := ht1.2 h.1
      have b := ht2.1 h.2
      omega
  · intro recur acc r
    constructor
    · intro h
      simp only [unpack_line, hl1] at h
      exact unpack_leaf_line s1 c1 acc r h
    · intro h
      simp only [unpack_line, hl2] at h
      exact unpack_leaf_line s2 c2 acc r h

set_option maxRecDepth 100000 in
theorem kind_width_selects_kind_witness :
    (in_walk subsection_simple_decode subsection_manual_decode section_vector
        ⟨"CityName".toList, 128, 8, TEXT8⟩ 3 ∧
      in_walk subsection_simple_decode subsection_manual_decode section_vector
        ⟨"ShipName".toList, 8, 8, TEXT8⟩ 5 ∧
      resolve subsection_simple_decode subsection_manual_decode
        ⟨"CityName".toList, 128, 8, TEXT8⟩ 3 = resolution.leaf ∧
      resolve subsection_simple_decode subsection_manual_decode
        ⟨"ShipName".toList, 8, 8, TEXT8⟩ 5 = resolution.leaf ∧
      char_for_method TEXT8 ++ nat_to_string 8 = char_for_method TEXT8 ++ nat_to_string 8) ∧
    (⟨"CityName".toList, 128, 8, TEXT8⟩ : «section»).method =
      (⟨"ShipName".toList, 8, 8, TEXT8⟩ : «section»).method :=
  ⟨⟨in_walk.top _ 3 (by decide) (by decide), in_walk.top _ 5 (by decide) (by decide),
      by decide, by decide, rfl⟩,
    (kind_width_selects_kind ⟨"CityName".toList, 128, 8, TEXT8⟩ ⟨"ShipName".toList, 8, 8, TEXT8⟩
      3 5 (in_walk.top _ 3 (by decide) (by decide)) (in_walk.top _ 5 (by decide) (by decide))
      (by decide) (by decide) rfl).1⟩

/-! ## The starting year across runs -/

theorem not_prefix_append (a b S : text) (h : ¬ a <+: S) : ¬ (a ++ b) <+: S :=
  fun hp => h (List.IsPrefix.trans (List.prefix_append a b) hp)

theorem unpack_leaf_keeps_year (mysection : «section») (c : Nat)
    (acc r : unpack_state × List feature)
    (hname : subsection_name mysection.name c ≠ start_of_fixed_length_section)
    (h : unpack_leaf mysection c acc = Except.ok r) :
    r.1.starting_year = acc.1.starting_year := by
  simp only [unpack_leaf, hname, if_false] at h
  split at h
  · cases h
  · split at h
    · cases h
    · injection h with h
      subst h
      rfl

theorem unpack_manual_keeps_year
    (recur : «section» → Nat → unpack_state → Except abort_reason unpack_state)
    (subsection : text)
    (hrec : ∀ sub off st st1, sub.name = subsection → recur sub off st = Except.ok st1 →
      st1.starting_year = st.starting_year)
    (info : List subsection_info) :
    ∀ (acc r : unpack_state × Nat × Nat),
      unpack_manual recur subsection info acc = Except.ok r →
        r.1.starting_year = acc.1.starting_year := by
  induction info with
  | nil =>
    intro acc r h
    simp only [unpack_manual] at h
    injection h with h
    rw [h]
  | cons t rest ih =>
    intro acc r h
    obtain ⟨st, suboffset, check⟩ := acc
    simp only [unpack_manual] at h
    split at h
    · cases h
    · rename_i st1 heq
      rw [ih _ _ h]
      exact hrec _ _ _ _ rfl heq

theorem unpack_loop_keeps_year
    (body : Nat → unpack_state × List feature →
      Except abort_reason (unpack_state × List feature))
    (hbody : ∀ c acc r, body c acc = Except.ok r → r.1.starting_year = acc.1.starting_year) :
    ∀ (left c : Nat) (acc r : unpack_state × List feature),
      unpack_loop body left c acc = Except.ok r →
        r.1.starting_year = acc.1.starting_year := by
  intro left
  induction left with
  | zero =>
    intro c acc r h
    simp only [unpack_loop] at h
    injection h with h
    rw [h]
  | succ left ih =>
    intro c acc r h
    simp only [unpack_loop] at h
    split at h
    · cases h
    · rename_i acc1 heq
      rw [ih _ _ _ h]
      exact hbody _ _ _ heq

theorem unpack_section_keeps_year (simple : simple_table) (manual : manual_table) :
    ∀ (fuel : Nat) (mysection : «section») (offset : Nat) (st st1 : unpack_state),
      ¬ mysection.name <+: start_of_fixed_length_section →
      unpack_section simple manual fuel mysection offset st = Except.ok st1 →
        st1.starting_year = st.starting_year := by
  intro fuel
  induction fuel with
  | zero =>
    intro mysection offset st st1 _ h
    simp only [unpack_section] at h
    cases h
  | succ fuel ih =>
    intro mysection offset st st1 hname h
    simp only [unpack_section] at h
    have hbody : ∀ c (acc r : unpack_state × List feature),
        unpack_line simple manual
          (fun sub suboffset st1 => unpack_section simple manual fuel sub suboffset st1)
          mysection c acc = Except.ok r → r.1.starting_year = acc.1.starting_year := by
      intro c acc r hl
      simp only [unpack_line] at hl
      split at hl
      · split at hl
        · cases hl
        · split at hl
          · cases hl
          · rename_i size _ _ sub suboffset hsplit
            split at hl
            · cases hl
            · rename_i st2 heq
              injection hl with hl
              subst hl
              refine ih sub suboffset _ _ ?_ heq
              by_cases h0 : 0 < size ∧ mysection.bytes_per_line % size ≠ 0
              · rw [uniform_split_none _ _ _ _ h0] at hsplit
                cases hsplit
              · by_cases h1 : (if 0 < size then mysection.bytes_per_line / size else 1) = 1
                · rw [uniform_split_one _ _ _ _ h0 h1] at hsplit
                  cases hsplit
                  exact hname
                · rw [uniform_split_many _ _ _ _ h0 h1] at hsplit
                  cases hsplit
                  exact not_prefix_append _ _ _ hname
      · split at hl
        · cases hl
        · rename_i st2 _ check heq
          split at hl
          · cases hl
          · injection hl with hl
            subst hl
            refine unpack_manual_keeps_year _ _ ?_ _ _ _ heq
            intro sub off st3 st4 hsub hrun
            refine ih sub off _ _ ?_ hrun
            rw [hsub]
            exact not_prefix_append _ _ _ hname
      · refine unpack_leaf_keeps_year mysection c acc r ?_ hl
        intro heq
        apply hname
        rw [← heq]
        exact List.prefix_append _ _
    split at h
    · cases h
    · rename_i st2 features heq
      have hloop := unpack_loop_keeps_year _ hbody _ _ _ _ heq
      have hst0 : (if mysection.name = "Log".toList then
            ({ st with out := st.out ++ [pst_line.remark "# Ship's Log".toList] } : unpack_state)
          else st).starting_year = st.starting_year := by
        split <;> rfl
      split at h
      · injection h with h
        subst h
        exact hloop.trans hst0
      · injection h with h
        subst h
        exact hloop.trans hst0

theorem unpack_sections_keep_year (simple : simple_table) (manual : manual_table) (fuel : Nat)
    (sections : List «section») :
    ∀ (st st1 : unpack_state),
      (∀ sec ∈ sections, ¬ sec.name <+: start_of_fixed_length_section) →
      unpack_sections simple manual fuel sections st = Except.ok st1 →
        st1.starting_year = st.starting_year := by
  induction sections with
  | nil =>
    intro st st1 _ h
    simp only [unpack_sections] at h
    injection h with h
    rw [h]
  | cons sec rest ih =>
    intro st st1 hall h
    simp only [unpack_sections] at h
    split at h
    · cases h
    · rename_i st2 heq
      rw [ih _ _ (fun s hs => hall s (List.mem_cons_of_mem _ hs)) h,
        unpack_section_keeps_year simple manual fuel sec 0 _ _ (hall sec (List.mem_cons_self _ _))
          heq]

theorem unpack_sections_append (simple : simple_table) (manual : manual_table) (fuel : Nat)
    (l1 l2 : List «section») :
    ∀ st : unpack_state,
      unpack_sections simple manual fuel (l1 ++ l2) st =
        match unpack_sections simple manual fuel l1 st with
        | Except.error e => Except.error e
        | Except.ok st1 => unpack_sections simple manual fuel l2 st1 := by
  induction l1 with
  | nil => intro st; rfl
  | cons sec rest ih =>
    intro st
    simp only [List.cons_append, unpack_sections]
    split
    · rfl
    · exact ih _

/-- C19 as stated fails. The state of a run after its first section (Intro), long before the
region `Personal_0` is reached, holds the value `starting_year` had when the run began: on the
same file, a run begun with the value 1601 left by an earlier run holds 1601 there, and a run
begun with 1650 holds 1650. -/
theorem starting_year_not_reset :
    (unpack_sections subsection_simple_decode subsection_manual_decode 3 (section_vector.take 1)
        ⟨⟨[0, 0, 0, 0, 1, 0, 0, 0, 2, 0, 0, 0, 3, 0, 0, 0, 4, 0, 0, 0, 5, 0, 0, 0], 0, false⟩,
          [], 1601⟩).map (fun st => st.starting_year) = Except.ok 1601 ∧
    (unpack_sections subsection_simple_decode subsection_manual_decode 3 (section_vector.take 1)
        ⟨⟨[0, 0, 0, 0, 1, 0, 0, 0, 2, 0, 0, 0, 3, 0, 0, 0, 4, 0, 0, 0, 5, 0, 0, 0], 0, false⟩,
          [], 1650⟩).map (fun st => st.starting_year) = Except.ok 1650 := by
  decide

/-- C19, amended. Nothing resets `starting_year` when a run starts: `unpack_pg_to_pst` runs
the sections before Personal (any `k ≤ 2` of them) and then the rest from the state they leave,
and for every file that state still holds the value `year` that `starting_year` had when the
run began, that is, the value the previous run of the process left.  Only the line
`Personal_0` overwrites it. -/
theorem starting_year_carried_over (fuel : Nat) (pg_file : List byte) (year : Int) (k : Nat)
    (hk : k ≤ 2) :
    unpack_pg_to_pst fuel pg_file year =
      (match unpack_sections subsection_simple_decode subsection_manual_decode fuel
          (section_vector.take k) ⟨⟨pg_file, 0, false⟩, [], year⟩ with
        | Except.error e => Except.error e
        | Except.ok st1 =>
          unpack_sections subsection_simple_decode subsection_manual_decode fuel
            (section_vector.drop k) st1) ∧
    ∀ st, unpack_sections subsection_simple_decode subsection_manual_decode fuel
        (section_vector.take k) ⟨⟨pg_file, 0, false⟩, [], year⟩ = Except.ok st →
      st.starting_year = year := by
  constructor
  · rw [← unpack_sections_append, List.take_append_drop]
    rfl
  · intro st h
    refine unpack_sections_keep_year _ _ fuel _ _ _ ?_ h
    intro sec hsec
    have h2 : sec ∈ section_vector.take 2 :=
      (List.take_subset_take_left section_vector hk) hsec
    have hall : ((section_vector.take 2).all fun sec =>
        decide (¬ sec.name <+: start_of_fixed_length_section)) = true := by decide
    rw [List.all_eq_true] at hall
    simpa using hall sec h2

set_option maxRecDepth 100000 in
theorem starting_year_carried_over_witness :
    (1 ≤ 2 ∧
      (unpack_sections subsection_simple_decode subsection_manual_decode 3
        (section_vector.take 1)
        ⟨⟨[0, 0, 0, 0, 1, 0, 0, 0, 2, 0, 0, 0, 3, 0, 0, 0, 4, 0, 0, 0, 5, 0, 0, 0], 0, false⟩,
          [], 1601⟩).isOk = true) ∧
    ∀ st, unpack_sections subsection_simple_decode subsection_manual_decode 3
        (section_vector.take 1)
        ⟨⟨[0, 0, 0, 0, 1, 0, 0, 0, 2, 0, 0, 0, 3, 0, 0, 0, 4, 0, 0, 0, 5, 0, 0, 0], 0, false⟩,
          [], 1601⟩ = Except.ok st →
      st.starting_year = 1601 :=
  ⟨⟨by decide, by decide⟩,
    (starting_year_carried_over 3
      [0, 0, 0, 0, 1, 0, 0, 0, 2, 0, 0, 0, 3, 0, 0, 0, 4, 0, 0, 0, 5, 0, 0, 0] 1601 1
      (by decide)).2⟩

/-! ## The two fixed-point kinds -/

theorem round_half_even_near (x : ℚ) (k : Int) (h : |x - k| < 1 / 2) :
    round_half_even x = k := by
  have h1 := abs_lt.mp h
  have hf : ⌊x⌋ = k ∨ ⌊x⌋ = k - 1 := by
    have a : k - 1 ≤ ⌊x⌋ := by
      rw [Int.le_floor]
      push_cast
      linarith [h1.1]
    have b : ⌊x⌋ < k + 1 := by
      rw [Int.floor_lt]
      push_cast
      linarith [h1.2]
    omega
  unfold round_half_even
  dsimp only
  rcases hf with hf | hf
  · have hx : x - (⌊x⌋ : ℚ) < 1 / 2 := by
      rw [hf]
      linarith [h1.2]
    rw [if_pos hx]
    exact hf
  · have hx : 1 / 2 < x - (⌊x⌋ : ℚ) := by
      rw [hf]
      push_cast
      linarith [h1.1]
    have hx2 : ¬ x - (⌊x⌋ : ℚ) < 1 / 2 := not_lt.mpr (le_of_lt hx)
    rw [if_neg hx2, if_pos hx, hf]
    omega

theorem round_half_even_close (x : ℚ) : |x - round_half_even x| ≤ 1 / 2 := by
  have h0 := Int.floor_le x
  have h1 := Int.lt_floor_add_one x
  unfold round_half_even
  dsimp only
  split
  · rw [abs_le]
    constructor <;> linarith
  · split
    · rw [abs_le]
      push_cast
      constructor <;> linarith
    · have he : x - (⌊x⌋ : ℚ) = 1 / 2 := le_antisymm (not_lt.mp ‹_›) (not_lt.mp ‹_›)
      split
      · rw [abs_le]
        constructor <;> linarith
      · rw [abs_le]
        push_cast
        constructor <;> linarith

theorem binary64_error (x : ℚ) (hx : x ≠ 0) (hnorm : (2 : ℚ) ^ (-1022 : ℤ) ≤ |x|) :
    |binary64 x - x| ≤ |x| / 2 ^ 53 := by
  have hpos : 0 < |x| := abs_pos.mpr hx
  have hlog : (-1022 : ℤ) ≤ Int.log 2 |x| :=
    (Int.zpow_le_iff_le_log (by norm_num) hpos).mp hnorm
  have he : max (Int.log 2 |x| - 52) (-1074) = Int.log 2 |x| - 52 := max_eq_left (by omega)
  unfold binary64
  rw [if_neg hx]
  dsimp only
  rw [he]
  set e := Int.log 2 |x| - 52 with hedef
  have h2 : (0 : ℚ) < 2 ^ e := zpow_pos (by norm_num) e
  have hle : (2 : ℚ) ^ (e + 52) ≤ |x| := by
    have : e + 52 = Int.log 2 |x| := by omega
    rw [this]
    exact Int.zpow_log_le_self (by norm_num) hpos
  have hclose := round_half_even_close (x / 2 ^ e)
  have hmul : |((round_half_even (x / 2 ^ e) : ℤ) : ℚ) * 2 ^ e - x| =
      |x / 2 ^ e - round_half_even (x / 2 ^ e)| * 2 ^ e := by
    have hsub : ((round_half_even (x / 2 ^ e) : ℤ) : ℚ) * 2 ^ e - x =
        (((round_half_even (x / 2 ^ e) : ℤ) : ℚ) - x / 2 ^ e) * 2 ^ e := by
      field_simp
    rw [hsub, abs_mul, abs_of_pos h2, abs_sub_comm]
  rw [hmul]
  have h3 : (2 : ℚ) ^ (e + 52) = 2 ^ e * 2 ^ 52 := by
    rw [zpow_add₀ (by norm_num)]
    norm_num
  rw [h3] at hle
  have h4 : |x / 2 ^ e - round_half_even (x / 2 ^ e)| * 2 ^ e ≤ 1 / 2 * 2 ^ e :=
    mul_le_mul_of_nonneg_right hclose (le_of_lt h2)
  have h5 : (1 / 2 : ℚ) * 2 ^ e ≤ |x| / 2 ^ 53 := by
    rw [le_div_iff₀ (by norm_num)]
    have : (2 : ℚ) ^ 53 = 2 * 2 ^ 52 := by norm_num
    rw [this]
    linarith
  exact le_trans h4 h5

theorem binary64_int (n : Int) (h : |n| < 2 ^ 53) : binary64 n = n := by
  by_cases hn : n = 0
  · subst hn
    simp [binary64]
  have hx : (n : ℚ) ≠ 0 := by exact_mod_cast hn
  have hpos : (0 : ℚ) < |(n : ℚ)| := abs_pos.mpr hx
  have hlt : |(n : ℚ)| < 2 ^ (53 : ℤ) := by
    have h1 : ((|n| : ℤ) : ℚ) < ((2 ^ 53 : ℤ) : ℚ) := by exact_mod_cast h
    rw [Int.cast_abs] at h1
    have h2 : (2 : ℚ) ^ (53 : ℤ) = ((2 ^ 53 : ℤ) : ℚ) := by norm_num
    rw [h2]
    exact h1
  have hlog : Int.log 2 |(n : ℚ)| < 53 := (Int.lt_zpow_iff_log_lt (by norm_num) hpos).mp hlt
  have hge : (1 : ℚ) ≤ |(n : ℚ)| := by
    have : (1 : ℤ) ≤ |n| := Int.one_le_abs hn
    have h2 : ((1 : ℤ) : ℚ) ≤ ((|n| : ℤ) : ℚ) := by exact_mod_cast this
    rw [Int.cast_abs] at h2
    simpa using h2
  have hlog0 : 0 ≤ Int.log 2 |(n : ℚ)| := by
    apply (Int.zpow_le_iff_le_log (by norm_num) hpos).mp
    simpa using hge
  unfold binary64
  rw [if_neg hx]
  dsimp only
  have he : max (Int.log 2 |(n : ℚ)| - 52) (-1074) = Int.log 2 |(n : ℚ)| - 52 :=
    max_eq_left (by omega)
  rw [he]
  obtain ⟨t, ht⟩ : ∃ t : ℕ, Int.log 2 |(n : ℚ)| - 52 = -(t : ℤ) :=
    ⟨(52 - Int.log 2 |(n : ℚ)|).toNat, by omega⟩
  rw [ht]
  have h2 : (2 : ℚ) ^ (-(t : ℤ)) = 1 / 2 ^ t := by
    rw [zpow_neg, zpow_natCast, one_div]
  rw [h2]
  have hr : round_half_even ((n : ℚ) / (1 / 2 ^ t)) = n * 2 ^ t := by
    apply round_half_even_near
    have : (n : ℚ) / (1 / 2 ^ t) - ((n * 2 ^ t : ℤ) : ℚ) = 0 := by
      push_cast
      field_simp
    rw [this]
    norm_num
  rw [hr]
  push_cast
  field_simp

theorem double_div_round (n : Int) (s p K : ℕ) (hs : 0 < s) (hs2 : s ≤ 1000000)
    (hK : 10 ^ p = s * K) (hn : |n| * K < 2 ^ 52) (hn2 : |n| < 2 ^ 53) :
    round_half_even (|double_div (binary64 n) (binary64 s)| * 10 ^ p) = |n| * K ∧
      (double_div (binary64 n) (binary64 s) < 0 ↔ n < 0) := by
  have hsq : (0 : ℚ) < s := by exact_mod_cast hs
  have hbs : binary64 (s : ℚ) = s := by
    have := binary64_int (s : ℤ) (by
      rw [abs_of_nonneg (by positivity)]
      have : (s : ℤ) ≤ 1000000 := by exact_mod_cast hs2
      omega)
    simpa using this
  rw [binary64_int n hn2, hbs]
  unfold double_div
  by_cases h0 : n = 0
  · subst h0
    simp only [Int.cast_zero, zero_div, abs_zero, zero_mul, lt_self_iff_false, iff_true]
    have hb : binary64 0 = 0 := by simp [binary64]
    rw [hb]
    simp only [abs_zero, zero_mul, lt_self_iff_false, not_false_eq_true, and_true]
    apply round_half_even_near
    norm_num
  have hq : (n : ℚ) / s ≠ 0 := by
    apply div_ne_zero
    · exact_mod_cast h0
    · exact ne_of_gt hsq
  have hqabs : |(n : ℚ) / s| = |(n : ℚ)| / s := by
    rw [abs_div, abs_of_pos hsq]
  have hn1 : (1 : ℚ) ≤ |(n : ℚ)| := by
    have : (1 : ℤ) ≤ |n| := Int.one_le_abs h0
    have h2 : ((1 : ℤ) : ℚ) ≤ ((|n| : ℤ) : ℚ) := by exact_mod_cast this
    rw [Int.cast_abs] at h2
    simpa using h2
  have hnorm : (2 : ℚ) ^ (-1022 : ℤ) ≤ |(n : ℚ) / s| := by
    rw [hqabs]
    have h1 : (2 : ℚ) ^ (-1022 : ℤ) ≤ 1 / 1000000 := by
      have : (2 : ℚ) ^ (-1022 : ℤ) ≤ 2 ^ (-20 : ℤ) :=
        zpow_le_zpow_right₀ (by norm_num) (by norm_num)
      refine le_trans this ?_
      norm_num
    have h2 : (1 : ℚ) / 1000000 ≤ 1 / s := by
      apply one_div_le_one_div_of_le hsq
      exact_mod_cast hs2
    have h3 : (1 : ℚ) / s ≤ |(n : ℚ)| / s := by
      apply div_le_div_of_nonneg_right hn1 (le_of_lt hsq)
    linarith
  have herr := binary64_error ((n : ℚ) / s) hq hnorm
  set d := binary64 ((n : ℚ) / s) with hd
  have hqpos : 0 < |(n : ℚ) / s| := abs_pos.mpr hq
  have h53 : |(n : ℚ) / s| / 2 ^ 53 < |(n : ℚ) / s| := by
    apply div_lt_self hqpos
    norm_num
  have hscale : |(n : ℚ) / s| * 10 ^ p = ((|n| * K : ℤ) : ℚ) := by
    rw [hqabs]
    have : ((10 : ℚ) ^ p) = (s : ℚ) * K := by exact_mod_cast hK
    rw [this]
    push_cast
    field_simp
    ring
  constructor
  · apply round_half_even_near
    have hp : (0 : ℚ) < 10 ^ p := by positivity
    have h1 : |d| * 10 ^ p - ((|n| * K : ℤ) : ℚ) = (|d| - |(n : ℚ) / s|) * 10 ^ p := by
      rw [← hscale]
      ring
    rw [h1, abs_mul, abs_of_pos hp]
    have h2 : |(|d| - |(n : ℚ) / s|)| ≤ |(n : ℚ) / s| / 2 ^ 53 :=
      le_trans (abs_abs_sub_abs_le_abs_sub d _) herr
    have h3 : |(|d| - |(n : ℚ) / s|)| * 10 ^ p ≤ |(n : ℚ) / s| / 2 ^ 53 * 10 ^ p :=
      mul_le_mul_of_nonneg_right h2 (le_of_lt hp)
    have h4 : |(n : ℚ) / s| / 2 ^ 53 * 10 ^ p = ((|n| * K : ℤ) : ℚ) / 2 ^ 53 := by
      rw [← hscale]
      ring
    have h5 : ((|n| * K : ℤ) : ℚ) < 2 ^ 52 := by exact_mod_cast hn
    have h6 : ((|n| * K : ℤ) : ℚ) / 2 ^ 53 < 1 / 2 := by
      rw [div_lt_iff₀ (by norm_num)]
      calc ((|n| * K : ℤ) : ℚ) < 2 ^ 52 := h5
        _ = 1 / 2 * 2 ^ 53 := by norm_num
    linarith
  · have hab := abs_le.mp herr
    have hnq : (n : ℚ) / s < 0 ↔ n < 0 := by
      rw [div_neg_iff]
      constructor
      · rintro (⟨_, h⟩ | ⟨h, _⟩)
        · exact absurd h (not_lt.mpr (le_of_lt hsq))
        · exact_mod_cast h
      · intro h
        exact Or.inr ⟨by exact_mod_cast h, hsq⟩
    rw [← hnq]
    constructor
    · intro hdn
      by_contra hcon
      have hq0 : 0 < (n : ℚ) / s := lt_of_le_of_ne (not_lt.mp hcon) (Ne.symm hq)
      rw [abs_of_pos hq0] at hab h53
      linarith [hab.1]
    · intro hqn
      rw [abs_of_neg hqn] at hab h53
      linarith [hab.2]

theorem fixed_string_double_div (n : Int) (s p K : ℕ) (hs : 0 < s) (hs2 : s ≤ 1000000)
    (hp : 0 < p) (hK : 10 ^ p = s * K) (hn : |n| * K < 2 ^ 52) (hn2 : |n| < 2 ^ 53) :
    fixed_string p (double_div (double_of_int n) (double_of_int s)) =
      (if n < 0 then ['-'] else []) ++ nat_to_string (n.natAbs * K / 10 ^ p) ++ '.' ::
        (List.replicate (p - (nat_to_string (n.natAbs * K % 10 ^ p)).length) '0' ++
          nat_to_string (n.natAbs * K % 10 ^ p)) := by
  obtain ⟨h1, h2⟩ := double_div_round n s p K hs hs2 hK hn hn2
  unfold fixed_string double_of_int
  rw [Int.cast_natCast]
  dsimp only
  rw [h1]
  have hm : (|n| * (K : ℤ)).natAbs = n.natAbs * K := by
    rw [Int.natAbs_mul, Int.natAbs_abs, Int.natAbs_ofNat]
  rw [hm, if_neg (Nat.pos_iff_ne_zero.mp hp)]
  by_cases hneg : n < 0
  · rw [if_pos (h2.mpr hneg), if_pos hneg]
  · rw [if_neg (fun h => hneg (h2.mp h)), if_neg hneg]


theorem nat_to_string_length_le (k e : Nat) (he : 0 < e) (hk : k < 10 ^ e) :
    (nat_to_string k).length ≤ e :=
  Nat.toDigitsCore_length 10 (by norm_num) (k + 1) k e hk he

theorem read_uFloat_double_eq (n : Int) (hlo : -(2 ^ 31 : Int) ≤ n) (hhi : n < 2 ^ 31) :
    read_uFloat_double n = uFloat_value n := by
  have habs : |n| ≤ 2 ^ 31 := abs_le.mpr ⟨hlo, le_of_lt hhi⟩
  have h := fixed_string_double_div n 1000000 6 1 (by norm_num) (by norm_num) (by norm_num)
    (by norm_num) (by push_cast; omega) (by omega)
  simp only [Nat.cast_ofNat, Nat.mul_one] at h
  unfold read_uFloat_double to_string_double uFloat_value micro_to_string
  rw [h]
  rfl

theorem read_mFloat_double_eq (n : Int) (hlo : -(2 ^ 31 : Int) ≤ n) (hhi : n < 2 ^ 31) :
    read_mFloat_double n = mFloat_value n := by
  have habs : |n| ≤ 2 ^ 31 := abs_le.mpr ⟨hlo, le_of_lt hhi⟩
  have h := fixed_string_double_div n 1000 6 1000 (by norm_num) (by norm_num) (by norm_num)
    (by norm_num) (by push_cast; omega) (by omega)
  simp only [Nat.cast_ofNat] at h
  have hm : to_string_double (double_div (double_of_int n) (double_of_int 1000)) =
      micro_to_string (n * 1000) := by
    unfold to_string_double micro_to_string
    rw [h]
    have h1 : (n * 1000).natAbs = n.natAbs * 1000 := by
      rw [Int.natAbs_mul]
      rfl
    have h2 : (n * 1000 < 0) ↔ n < 0 := by omega
    simp only [h1, h2]
    rfl
  unfold read_mFloat_double mFloat_value
  rw [hm]

set_option maxRecDepth 1000000 in
theorem pad_thousand : ∀ k : Fin 1000,
    List.replicate (6 - (nat_to_string (k.val * 1000)).length) '0' ++
        nat_to_string (k.val * 1000) =
      (List.replicate (3 - (nat_to_string k.val).length) '0' ++ nat_to_string k.val) ++
        "000".toList ∧
    (List.replicate (3 - (nat_to_string k.val).length) '0' ++ nat_to_string k.val =
      "000".toList → k.val = 0) := by
  decide!

theorem strip_000_append (X : text) : strip_000 (X ++ "000".toList) = X := by
  have hs : "000".toList.isSuffixOf (X ++ "000".toList) = true :=
    List.isSuffixOf_iff_suffix.mpr (List.suffix_append X _)
  unfold strip_000
  rw [if_pos hs]
  have hl : (X ++ "000".toList).length - 3 = X.length := by
    rw [List.length_append]
    rfl
  rw [hl, List.take_left]

theorem mFloat_value_eq (n : Int) :
    mFloat_value n =
      if n = 0 then "0".toList
      else
        (if n < 0 then ['-'] else []) ++ nat_to_string (n.natAbs / 1000) ++ '.' ::
          (List.replicate (3 - (nat_to_string (n.natAbs % 1000)).length) '0' ++
            nat_to_string (n.natAbs % 1000)) := by
  have h1 : (n * 1000).natAbs = n.natAbs * 1000 := by
    rw [Int.natAbs_mul]
    rfl
  have h2 : (n * 1000 < 0) ↔ n < 0 := by omega
  have h3 : n.natAbs * 1000 / 1000000 = n.natAbs / 1000 := by omega
  have h4 : n.natAbs * 1000 % 1000000 = n.natAbs % 1000 * 1000 := by omega
  have hk : n.natAbs % 1000 < 1000 := Nat.mod_lt _ (by norm_num)
  have hp := pad_thousand ⟨n.natAbs % 1000, hk⟩
  have hmicro : micro_to_string (n * 1000) =
      ((if n < 0 then ['-'] else []) ++ nat_to_string (n.natAbs / 1000) ++ '.' ::
          (List.replicate (3 - (nat_to_string (n.natAbs % 1000)).length) '0' ++
            nat_to_string (n.natAbs % 1000))) ++ "000".toList := by
    unfold micro_to_string
    simp only [h1, h2, h3, h4]
    rw [hp.1]
    simp only [List.append_assoc, List.cons_append]
  unfold mFloat_value
  rw [hmicro, strip_000_append]
  dsimp only
  by_cases h0 : n = 0
  · subst h0
    rfl
  rw [if_neg h0]
  rw [if_neg]
  intro hX
  by_cases hneg : n < 0
  · rw [if_pos hneg] at hX
    exact absurd hX (by simp)
  · rw [if_neg hneg] at hX
    obtain ⟨ch, r, hr, hd⟩ := nat_to_string_head_digit (n.natAbs / 1000)
    rw [hr] at hX
    simp only [List.nil_append, List.cons_append, String.toList, List.cons.injEq] at hX
    obtain ⟨hch, hrest⟩ := hX
    cases r with
    | nil =>
      simp only [List.nil_append, List.cons.injEq, true_and] at hrest
      have hz := hp.2 hrest
      simp only at hz
      have hq : n.natAbs / 1000 = 0 := by
        apply nat_to_string_injective
        rw [hr, hch]
        rfl
      omega
    | cons c r1 =>
      simp only [List.cons_append, List.cons.injEq] at hrest
      have hc : c ∈ "0123456789".toList :=
        nat_to_string_mem (n.natAbs / 1000) c (by rw [hr]; simp)
      rw [hrest.1] at hc
      exact absurd hc (by decide)

/-- C16. For every signed 32-bit integer `n` that `read_int` reads, `read_uFloat` renders
exactly the decimal expansion of `n / 1,000,000` with six decimals: a minus sign when `n` is
negative, the integer part of `|n| / 10^6`, a point, and `|n| mod 10^6` padded with zeros to
six digits.  The `double` arithmetic of the source (`to_string(double(raw)/1000000)`) gives
this text for every such `n`; 1500000 renders as `1.500000`. -/
theorem micro_fixed_point (w : Nat) (pre rest : List byte) (b0 b1 b2 b3 : byte) :
    leaf_value uFLOAT w (stream_at pre [b0, b1, b2, b3] rest) =
      Except.ok (read_uFloat_double (int_of_bytes b0 b1 b2 b3)) ∧
    read_uFloat_double (int_of_bytes b0 b1 b2 b3) =
      (if int_of_bytes b0 b1 b2 b3 < 0 then ['-'] else []) ++
        nat_to_string ((int_of_bytes b0 b1 b2 b3).natAbs / 1000000) ++ '.' ::
          (List.replicate
              (6 - (nat_to_string ((int_of_bytes b0 b1 b2 b3).natAbs % 1000000)).length) '0' ++
            nat_to_string ((int_of_bytes b0 b1 b2 b3).natAbs % 1000000)) ∧
    (List.replicate
          (6 - (nat_to_string ((int_of_bytes b0 b1 b2 b3).natAbs % 1000000)).length) '0' ++
        nat_to_string ((int_of_bytes b0 b1 b2 b3).natAbs % 1000000)).length = 6 ∧
    read_uFloat_double 1500000 = "1.500000".toList := by
  have hr := int_of_bytes_range b0 b1 b2 b3
  have hlen := nat_to_string_length_le ((int_of_bytes b0 b1 b2 b3).natAbs % 1000000) 6
    (by norm_num) (Nat.mod_lt _ (by norm_num))
  refine ⟨?_, ?_, ?_, ?_⟩
  · rw [read_uFloat_double_eq _ hr.1 hr.2]
    simp only [leaf_value, decode_leaf, read_int_stream_at, remap_negative, reduceCtorEq,
      if_false]
  · rw [read_uFloat_double_eq _ hr.1 hr.2]
    rfl
  · rw [List.length_append, List.length_replicate]
    omega
  · rw [read_uFloat_double_eq _ (by norm_num) (by norm_num)]
    decide

/-- C15 as stated fails. The four bytes `C4 09 00 00` hold the integer 2500, and the mFLOAT
leaf renders them as `2.500`, not as `2.5`: the three decimals are kept.  The `double`
arithmetic of `read_mFloat` gives the same text. -/
theorem milli_keeps_trailing_zeros :
    int_of_bytes 196 9 0 0 = 2500 ∧
    leaf_value mFLOAT 4 (stream_at [] [196, 9, 0, 0] []) = Except.ok "2.500".toList ∧
    leaf_value mFLOAT 4 (stream_at [] [196, 9, 0, 0] []) ≠ Except.ok "2.5".toList ∧
    read_mFloat_double 2500 = "2.500".toList := by
  refine ⟨by decide, by decide, by decide, ?_⟩
  rw [read_mFloat_double_eq _ (by norm_num) (by norm_num)]
  decide

/-- C15, amended. For every signed 32-bit integer `n` that `read_int` reads, `read_mFloat`
renders `n / 1000` with exactly three decimals: a minus sign when `n` is negative, the integer
part of `|n| / 1000`, a point, and `|n| mod 1000` padded with zeros to three digits (the text
with six decimals loses its last three zeros, and no more).  Only `n = 0` is rendered without
decimals, as `0`.  The `double` arithmetic of the source gives this text for every such `n`;
2500 renders as `2.500` and 3000 as `3.000`. -/
theorem milli_fixed_point (w : Nat) (pre rest : List byte) (b0 b1 b2 b3 : byte) :
    leaf_value mFLOAT w (stream_at pre [b0, b1, b2, b3] rest) =
      Except.ok (read_mFloat_double (int_of_bytes b0 b1 b2 b3)) ∧
    read_mFloat_double (int_of_bytes b0 b1 b2 b3) =
      (if int_of_bytes b0 b1 b2 b3 = 0 then "0".toList
        else
          (if int_of_bytes b0 b1 b2 b3 < 0 then ['-'] else []) ++
            nat_to_string ((int_of_bytes b0 b1 b2 b3).natAbs / 1000) ++ '.' ::
              (List.replicate
                  (3 - (nat_to_string ((int_of_bytes b0 b1 b2 b3).natAbs % 1000)).length) '0' ++
                nat_to_string ((int_of_bytes b0 b1 b2 b3).natAbs % 1000))) ∧
    (List.replicate
          (3 - (nat_to_string ((int_of_bytes b0 b1 b2 b3).natAbs % 1000)).length) '0' ++
        nat_to_string ((int_of_bytes b0 b1 b2 b3).natAbs % 1000)).length = 3 ∧
    read_mFloat_double 0 = "0".toList ∧
    read_mFloat_double 2500 = "2.500".toList ∧
    read_mFloat_double 3000 = "3.000".toList := by
  have hr := int_of_bytes_range b0 b1 b2 b3
  have hlen := nat_to_string_length_le ((int_of_bytes b0 b1 b2 b3).natAbs % 1000) 3
    (by norm_num) (Nat.mod_lt _ (by norm_num))
  refine ⟨?_, ?_, ?_, ?_, ?_, ?_⟩
  · rw [read_mFloat_double_eq _ hr.1 hr.2]
    simp only [leaf_value, decode_leaf, read_int_stream_at, remap_negative, reduceCtorEq,
      if_false]
  · rw [read_mFloat_double_eq _ hr.1 hr.2, mFloat_value_eq]
  · rw [List.length_append, List.length_replicate]
    omega
  · rw [read_mFloat_double_eq _ (by norm_num) (by norm_num)]
    decide
  · rw [read_mFloat_double_eq _ (by norm_num) (by norm_num)]
    decide
  · rw [read_mFloat_double_eq _ (by norm_num) (by norm_num)]
    decide

/-! ## The world map of LineReading.cpp -/

theorem line_world_map_step_eq (b : List byte) (m : translation_type) (line_code : text)
    (acc : List Nat × List LineReading.info_for_line_decode) (i : Nat) :
    LineReading.world_map_step b m line_code acc i =
      (if is_land m (at_index b i) = true then set_bit acc.1 (i / 4) (3 - i % 4) else acc.1,
        if is_anomaly m (at_index b i) = true then
          acc.2 ++ [⟨sprintf_02x (at_index b i), (at_index b i).val,
            line_code ++ '_' :: nat_to_string i⟩]
        else acc.2) := by
  unfold LineReading.world_map_step is_land is_anomaly
  by_cases hm : m = CMAP
  · by_cases h4 : 4 < (at_index b i).val <;> by_cases h0 : (at_index b i).val = 0 <;>
      by_cases h9 : (at_index b i).val = 9 <;> simp [hm, h4, h0, h9]
  · by_cases h0 : (at_index b i).val = 0 <;> by_cases h9 : (at_index b i).val = 255 <;>
      simp [hm, h0, h9]

theorem line_world_map_fold (b : List byte) (m : translation_type) (line_code : text)
    (bs0 : List Nat) (f0 : List LineReading.info_for_line_decode) (n : Nat) :
    (List.range n).foldl (LineReading.world_map_step b m line_code) (bs0, f0) =
      ((List.range n).foldl
          (fun bs i => if is_land m (at_index b i) = true then set_bit bs (i / 4) (3 - i % 4)
            else bs) bs0,
        f0 ++ ((List.range n).filter fun i => is_anomaly m (at_index b i)).map
          fun i => (⟨sprintf_02x (at_index b i), (at_index b i).val,
            line_code ++ '_' :: nat_to_string i⟩ : LineReading.info_for_line_decode)) := by
  induction n with
  | zero => simp
  | succ n ih =>
    rw [List.range_succ, List.foldl_append, List.foldl_append, ih]
    simp only [List.foldl_cons, List.foldl_nil, line_world_map_step_eq, List.filter_append,
      List.map_append]
    by_cases ha : is_anomaly m (at_index b n) = true
    · simp [ha, List.filter]
    · simp [ha, List.filter]

theorem line_world_map_value_eq (b : List byte) (N : Nat) (m : translation_type)
    (line_code : text) (features : List LineReading.info_for_line_decode) :
    LineReading.world_map_value b N m line_code features =
      (if m = SMAP then [] else
        ((List.range N).foldl
          (fun bs i => if is_land m (at_index b i) = true then set_bit bs (i / 4) (3 - i % 4)
            else bs) (List.replicate (N / 4 + 1) 0)).map hex_lower,
        features ++ ((List.range N).filter fun i => is_anomaly m (at_index b i)).map
          fun i => (⟨sprintf_02x (at_index b i), (at_index b i).val,
            line_code ++ '_' :: nat_to_string i⟩ : LineReading.info_for_line_decode)) := by
  simp only [LineReading.world_map_value, line_world_map_fold]

theorem line_read_world_map_stream_at (pre b rest : List byte) (N : Nat) (hN : N ≤ 600)
    (hb : b.length = N) (m : translation_type) (line_code : text)
    (features : List LineReading.info_for_line_decode) :
    LineReading.read_world_map (stream_at pre b rest) N m line_code features =
      Except.ok ((LineReading.world_map_value b N m line_code features).1,
        (LineReading.world_map_value b N m line_code features).2,
        ⟨pre ++ b ++ rest, pre.length + N, false⟩) := by
  have h6 : ¬ (600 < N) := by omega
  simp only [LineReading.read_world_map, h6, if_false, read_full_stream_at pre b rest N hb]

theorem hex_lower_mem (d : Nat) (h : d < 16) : hex_lower d ∈ "0123456789abcdef".toList := by
  interval_cases d <;> decide

/-- C11 as stated fails. On the 4-byte input `00 00 00 00` of kind FMAP both implementations of
`read_world_map` return the text `00`, which has 2 hex digits, and `ceil(4/4)` is 1. -/
theorem grid_text_of_four_cells :
    read_world_map (stream_at [] [0, 0, 0, 0] []) 4 FMAP "FeatureMap_0".toList [] =
      Except.ok ("00".toList, [], ⟨[0, 0, 0, 0], 4, false⟩) ∧
    LineReading.read_world_map (stream_at [] [0, 0, 0, 0] []) 4 FMAP "FeatureMap_0".toList [] =
      Except.ok ("00".toList, [], ⟨[0, 0, 0, 0], 4, false⟩) ∧
    "00".toList.length = 2 ∧ (4 + 3) / 4 = 1 := by
  decide

/-- C11, amended. For every `N ≤ 600` and every `N`-byte input of kind FMAP or CMAP, the two
implementations of `read_world_map` return the same grid text, and it consists of exactly
`N / 4 + 1` lower-case hex digits (the quotient rounded down): that is `ceil(N/4)` when `N` is
not a multiple of 4, as for the declared width 293, and `ceil(N/4) + 1` when it is. -/
theorem grid_text_length (m : translation_type) (N : Nat) (pre b rest : List byte)
    (line_code : text) (features : List feature)
    (features1 : List LineReading.info_for_line_decode)
    (hm : m = FMAP ∨ m = CMAP) (hN : N ≤ 600) (hb : b.length = N) :
    ∃ grid fs fs1 s1,
      read_world_map (stream_at pre b rest) N m line_code features = Except.ok (grid, fs, s1) ∧
      LineReading.read_world_map (stream_at pre b rest) N m line_code features1 =
        Except.ok (grid, fs1, s1) ∧
      grid.length = N / 4 + 1 ∧
      (∀ ch ∈ grid, ch ∈ "0123456789abcdef".toList) ∧
      (N % 4 ≠ 0 → grid.length = (N + 3) / 4) ∧
      (N % 4 = 0 → grid.length = (N + 3) / 4 + 1) := by
  have hs : m ≠ SMAP := by
    rcases hm with h | h <;> rw [h] <;> decide
  obtain ⟨ds, hds, hlen, hlt, _, _⟩ := world_map_bits b m N
  have h1 : (world_map_value b N m line_code features).1 = ds.map hex_lower := by
    rw [world_map_value_eq, if_neg hs, hds]
  have h2 : (LineReading.world_map_value b N m line_code features1).1 = ds.map hex_lower := by
    rw [line_world_map_value_eq, if_neg hs, hds]
  refine ⟨ds.map hex_lower, (world_map_value b N m line_code features).2,
    (LineReading.world_map_value b N m line_code features1).2,
    ⟨pre ++ b ++ rest, pre.length + N, false⟩, ?_, ?_, ?_, ?_, ?_, ?_⟩
  · rw [read_world_map_stream_at pre b rest N hN hb, h1]
  · rw [line_read_world_map_stream_at pre b rest N hN hb, h2]
  · rw [List.length_map, hlen]
  · intro ch hch
    rw [List.mem_map] at hch
    obtain ⟨d, hd, rfl⟩ := hch
    obtain ⟨j, hj⟩ := List.getElem_of_mem hd
    obtain ⟨hjl, hj⟩ := hj
    have := hlt j
    rw [List.getD_eq_getElem?_getD, List.getElem?_eq_getElem hjl, hj] at this
    exact hex_lower_mem d this
  · intro h
    rw [List.length_map, hlen]
    omega
  · intro h
    rw [List.length_map, hlen]
    omega

set_option maxRecDepth 100000 in
theorem grid_text_length_witness :
    ((FMAP = FMAP ∨ FMAP = CMAP) ∧ 5 ≤ 600 ∧ ([255, 0, 0, 0, 255] : List byte).length = 5) ∧
    read_world_map (stream_at [] [255, 0, 0, 0, 255] []) 5 FMAP "FeatureMap_0".toList [] =
      Except.ok ("88".toList, [], ⟨[255, 0, 0, 0, 255], 5, false⟩) ∧
    ∃ grid fs fs1 s1,
      read_world_map (stream_at [] [255, 0, 0, 0, 255] []) 5 FMAP "FeatureMap_0".toList [] =
        Except.ok (grid, fs, s1) ∧
      LineReading.read_world_map (stream_at [] [255, 0, 0, 0, 255] []) 5 FMAP
          "FeatureMap_0".toList [] = Except.ok (grid, fs1, s1) ∧
      grid.length = 5 / 4 + 1 ∧
      (∀ ch ∈ grid, ch ∈ "0123456789abcdef".toList) ∧
      (5 % 4 ≠ 0 → grid.length = (5 + 3) / 4) ∧
      (5 % 4 = 0 → grid.length = (5 + 3) / 4 + 1) :=
  ⟨⟨Or.inl rfl, by decide, rfl⟩, by decide,
    grid_text_length FMAP 5 [] [255, 0, 0, 0, 255] [] "FeatureMap_0".toList [] []
      (Or.inl rfl) (by decide) rfl⟩

/-! ## The bound on a text length -/

theorem to_size_t_bound (L : Int) (hlo : -(2 ^ 31 : Int) ≤ L) (hhi : L < 2 ^ 31) :
    100 - 2 < LineReading.to_size_t L ↔ (L < 0 ∨ 98 < L) := by
  unfold LineReading.to_size_t
  omega

/-- C14 as stated fails. The length 99 does not exceed 100, and `read_line` of LineReading.cpp
rejects it (its bound is `sizeof(b)-2`, which is 98), while the text leaf of `unpack_section`
accepts it; the length -1 does not exceed 100 either, and `read_line` rejects it (the
comparison is unsigned), while `unpack_section` accepts it. -/
theorem text_bound_is_not_shared :
    (int_of_bytes 99 0 0 0 = 99 ∧
      LineReading.read_line (stream_at [] [99, 0, 0, 0] []) "Intro_0".toList TEXT0 0 [] =
        Except.error LineReading.read_failure.string_too_long ∧
      decode_leaf TEXT0 0 "Intro_0".toList [] (stream_at [] [99, 0, 0, 0] []) =
        Except.ok ([], [], ⟨[99, 0, 0, 0], 4, true⟩)) ∧
    (int_of_bytes 255 255 255 255 = -1 ∧
      LineReading.read_line (stream_at [] [255, 255, 255, 255] []) "Intro_0".toList TEXT0 0 [] =
        Except.error LineReading.read_failure.string_too_long ∧
      decode_leaf TEXT0 0 "Intro_0".toList [] (stream_at [] [255, 255, 255, 255] []) =
        Except.ok ([], [], ⟨[255, 255, 255, 255], 4, true⟩)) := by
  decide

/-- C14, amended. For every declared length `L` read as a signed 32-bit integer: the TEXT0 and
TEXT8 leaf of `unpack_section` (Pirates.cpp) fails exactly when `L > 100`, so every `L ≤ 100`,
also a negative one, is accepted; the TEXT0 and TEXT8 case of `read_line` (LineReading.cpp)
fails exactly when `L < 0` or `L > 98`, so exactly the lengths `0 ≤ L ≤ 98` are accepted.  In
both the failure is the one for a text that is too long. -/
theorem text_length_bounds (method : translation_type) (w : Nat) (pre rest : List byte)
    (b0 b1 b2 b3 : byte) (line_code : text) (features : List feature)
    (features1 : List LineReading.info_for_line_decode)
    (hm : method = TEXT0 ∨ method = TEXT8) :
    ((∃ e, decode_leaf method w line_code features (stream_at pre [b0, b1, b2, b3] rest) =
        Except.error e) ↔ 100 < int_of_bytes b0 b1 b2 b3) ∧
    (100 < int_of_bytes b0 b1 b2 b3 →
      decode_leaf method w line_code features (stream_at pre [b0, b1, b2, b3] rest) =
        Except.error abort_reason.string_too_long) ∧
    ((∃ e, LineReading.read_line (stream_at pre [b0, b1, b2, b3] rest) line_code method w
        features1 = Except.error e) ↔
      (int_of_bytes b0 b1 b2 b3 < 0 ∨ 98 < int_of_bytes b0 b1 b2 b3)) ∧
    ((int_of_bytes b0 b1 b2 b3 < 0 ∨ 98 < int_of_bytes b0 b1 b2 b3) →
      LineReading.read_line (stream_at pre [b0, b1, b2, b3] rest) line_code method w
        features1 = Except.error LineReading.read_failure.string_too_long) := by
  have hr := int_of_bytes_range b0 b1 b2 b3
  have hsz := to_size_t_bound (int_of_bytes b0 b1 b2 b3) hr.1 hr.2
  have hP : ∀ padding : Option Int,
      ((∃ e, decode_text padding (stream_at pre [b0, b1, b2, b3] rest) = Except.error e) ↔
        100 < int_of_bytes b0 b1 b2 b3) ∧
      (100 < int_of_bytes b0 b1 b2 b3 →
        decode_text padding (stream_at pre [b0, b1, b2, b3] rest) =
          Except.error abort_reason.string_too_long) := by
    intro padding
    simp only [decode_text, read_int_stream_at]
    by_cases hL : int_of_bytes b0 b1 b2 b3 > 100
    · rw [if_pos hL]
      exact ⟨⟨fun _ => hL, fun _ => ⟨_, rfl⟩⟩, fun _ => rfl⟩
    · rw [if_neg hL]
      refine ⟨⟨?_, fun h => absurd h hL⟩, fun h => absurd h hL⟩
      rintro ⟨e, he⟩
      cases padding <;> simp at he
  have hplain : ∀ (r : Except abort_reason (text × ifstream)) (e : abort_reason),
      (r.map fun p => (p.1, features, p.2)) = Except.error e ↔ r = Except.error e := by
    intro r e
    cases r <;> simp [Except.map]
  have hD : ∀ e, decode_leaf method w line_code features (stream_at pre [b0, b1, b2, b3] rest) =
        Except.error e ↔
      decode_text (if method = TEXT0 then none else some 8)
        (stream_at pre [b0, b1, b2, b3] rest) = Except.error e := by
    intro e
    rcases hm with h | h <;> subst h <;> simp only [decode_leaf] <;> exact hplain _ e
  have hL : ∀ r, LineReading.read_line (stream_at pre [b0, b1, b2, b3] rest) line_code method
        w features1 = r ↔
      (if 100 - 2 < LineReading.to_size_t (int_of_bytes b0 b1 b2 b3) then
          Except.error LineReading.read_failure.string_too_long
        else
          Except.ok (⟨c_string
            ((⟨pre ++ [b0, b1, b2, b3] ++ rest, pre.length + 4, false⟩ : ifstream).read
              (int_of_bytes b0 b1 b2 b3)).1, 0, line_code⟩, features1,
            if method = TEXT8 then
              (((((⟨pre ++ [b0, b1, b2, b3] ++ rest, pre.length + 4, false⟩ : ifstream).read
                (int_of_bytes b0 b1 b2 b3)).2.read 4).2.read 4).2)
            else ((⟨pre ++ [b0, b1, b2, b3] ++ rest, pre.length + 4, false⟩ : ifstream).read
              (int_of_bytes b0 b1 b2 b3)).2)) = r := by
    intro r
    rcases hm with h | h <;> subst h <;>
      simp only [LineReading.read_line, read_int_stream_at]
  refine ⟨?_, ?_, ?_, ?_⟩
  · constructor
    · rintro ⟨e, he⟩
      exact (hP _).1.mp ⟨e, (hD e).mp he⟩
    · intro h
      exact ⟨_, (hD _).mpr ((hP _).2 h)⟩
  · intro h
    exact (hD _).mpr ((hP _).2 h)
  · constructor
    · rintro ⟨e, he⟩
      rw [hL] at he
      by_contra hc
      rw [if_neg (fun h => hc (hsz.mp h))] at he
      cases he
    · intro h
      exact ⟨_, (hL _).mpr (if_pos (hsz.mpr h))⟩
  · intro h
    exact (hL _).mpr (if_pos (hsz.mpr h))

set_option maxRecDepth 100000 in
theorem text_length_bounds_witness :
    (TEXT8 = TEXT0 ∨ TEXT8 = TEXT8) ∧
    ((∃ e, decode_leaf TEXT8 8 "CityName_0".toList [] (stream_at [] [101, 0, 0, 0] []) =
        Except.error e) ↔ 100 < int_of_bytes 101 0 0 0) ∧
    (100 < int_of_bytes 101 0 0 0 →
      decode_leaf TEXT8 8 "CityName_0".toList [] (stream_at [] [101, 0, 0, 0] []) =
        Except.error abort_reason.string_too_long) ∧
    ((∃ e, LineReading.read_line (stream_at [] [101, 0, 0, 0] []) "CityName_0".toList TEXT8 8
        [] = Except.error e) ↔
      (int_of_bytes 101 0 0 0 < 0 ∨ 98 < int_of_bytes 101 0 0 0)) ∧
    ((int_of_bytes 101 0 0 0 < 0 ∨ 98 < int_of_bytes 101 0 0 0) →
      LineReading.read_line (stream_at [] [101, 0, 0, 0] []) "CityName_0".toList TEXT8 8 [] =
        Except.error LineReading.read_failure.string_too_long) :=
  ⟨Or.inr rfl,
    text_length_bounds TEXT8 8 [] [] 101 0 0 0 "CityName_0".toList [] [] (Or.inr rfl)⟩

/-! ## The stream stays aligned -/

theorem read_full_pos (s s1 : ifstream) (n : Nat) (b : List byte)
    (h : s.read_full n = some (b, s1)) :
    s1.pos = s.pos + n ∧ s1.data = s.data ∧ s1.failed = s.failed ∧
      (0 < n → s.failed = false) := by
  unfold ifstream.read_full ifstream.read at h
  by_cases hf : s.failed = true
  · simp only [hf, if_true] at h
    split at h
    · rename_i hlen
      injection h with h
      injection h with h1 h2
      subst h2
      simp only [List.length_nil] at hlen
      subst hlen
      exact ⟨rfl, rfl, rfl, fun h0 => absurd h0 (by decide)⟩
    · cases h
  · have hf2 : s.failed = false := by simpa using hf
    have hn : ¬ ((n : Int) < 0) := by omega
    simp only [hf2, Bool.false_eq_true, if_false, hn, Int.toNat_ofNat] at h
    by_cases hle : n ≤ (s.data.drop s.pos).length
    · simp only [hle, if_true] at h
      split at h
      · injection h with h
        injection h with h1 h2
        subst h2
        exact ⟨rfl, rfl, hf2.symm, fun _ => hf2⟩
      · cases h
    · simp only [hle, if_false] at h
      split at h
      · rename_i hlen
        exact absurd hlen (by omega)
      · cases h

theorem read_int_pos (s s1 : ifstream) (v : Int) (h : read_int s = some (v, s1)) :
    s1.pos = s.pos + 4 ∧ s1.data = s.data ∧ s1.failed = false := by
  unfold read_int at h
  split at h
  · rename_i b0 b1 b2 b3 s2 heq
    injection h with h
    injection h with _ h2
    subst h2
    obtain ⟨hp, hd, hf, h0⟩ := read_full_pos _ _ _ _ heq
    exact ⟨hp, hd, by rw [hf]; exact h0 (by decide)⟩
  · cases h

theorem decode_fixed_pos (n : Nat) (f : List byte → text) (s s1 : ifstream) (v : text)
    (h : decode_fixed n f s = Except.ok (v, s1)) : s1.pos = s.pos + n := by
  unfold decode_fixed at h
  split at h
  · cases h
  · rename_i b s2 heq
    injection h with h
    injection h with _ h2
    subst h2
    exact (read_full_pos _ _ _ _ heq).1

theorem plain_ok (features : List feature) (r : Except abort_reason (text × ifstream))
    (v : text) (fs : List feature) (s1 : ifstream)
    (h : (r.map fun p => (p.1, features, p.2)) = Except.ok (v, fs, s1)) :
    r = Except.ok (v, s1) := by
  cases r with
  | error e => cases h
  | ok p =>
    simp only [Except.map, Except.ok.injEq, Prod.mk.injEq] at h
    obtain ⟨h1, _, h3⟩ := h
    rw [← h1, ← h3]

/-- A leaf read that returns has moved the cursor by the width of the region, for a kind that
is not a text kind and whose fixed size, if it has one, is the width. -/
theorem decode_leaf_pos (m : translation_type) (bpl : Nat) (lc : text) (fs fs1 : List feature)
    (s s1 : ifstream) (v : text)
    (hfix : m ∈ fixed_kinds → size_for_method m = some bpl)
    (h0 : m ≠ TEXT0) (h8 : m ≠ TEXT8)
    (h : decode_leaf m bpl lc fs s = Except.ok (v, fs1, s1)) : s1.pos = s.pos + bpl := by
  have hsz : ∀ n, m ∈ fixed_kinds → size_for_method m = some n → n = bpl := by
    intro n hm hn
    have := hfix hm
    rw [hn] at this
    injection this
  have hint : ∀ g : Int → text, m ∈ fixed_kinds → size_for_method m = some 4 →
      (match read_int s with
        | none => Except.error abort_reason.short_read
        | some (v, s1) => Except.ok (g v, fs, s1)) = Except.ok (v, fs1, s1) →
      s1.pos = s.pos + bpl := by
    intro g hm h4 hr
    split at hr
    · cases hr
    · rename_i v1 s2 heq
      injection hr with hr
      injection hr with _ hr
      injection hr with _ hr
      subst hr
      rw [(read_int_pos _ _ _ heq).1, hsz 4 hm h4]
  cases m <;> simp only [decode_leaf] at h
  case TEXT0 => exact absurd rfl h0
  case TEXT8 => exact absurd rfl h8
  case INT => exact hint _ (by decide) rfl h
  case mFLOAT => exact hint _ (by decide) rfl h
  case uFLOAT => exact hint _ (by decide) rfl h
  case HEX =>
    rw [decode_fixed_pos _ _ _ _ _ (plain_ok _ _ _ _ _ h), hsz 4 (by decide) rfl]
  case BINARY =>
    rw [decode_fixed_pos _ _ _ _ _ (plain_ok _ _ _ _ _ h), hsz 1 (by decide) rfl]
  case SHORT =>
    rw [decode_fixed_pos _ _ _ _ _ (plain_ok _ _ _ _ _ h), hsz 2 (by decide) rfl]
  case CHAR =>
    rw [decode_fixed_pos _ _ _ _ _ (plain_ok _ _ _ _ _ h), hsz 1 (by decide) rfl]
  case LCHAR =>
    rw [decode_fixed_pos _ _ _ _ _ (plain_ok _ _ _ _ _ h), hsz 1 (by decide) rfl]
  case BULK => exact decode_fixed_pos _ _ _ _ _ (plain_ok _ _ _ _ _ h)
  case ZERO =>
    split at h
    · cases h
    · rename_i b s2 heq
      split at h
      · injection h with h
        injection h with _ h
        injection h with _ h
        subst h
        exact (read_full_pos _ _ _ _ heq).1
      · cases h
  all_goals
    simp only [read_world_map] at h
    split at h
    · cases h
    · split at h
      · cases h
      · rename_i b s2 heq
        injection h with h
        injection h with _ h
        injection h with _ h
        subst h
        exact (read_full_pos _ _ _ _ heq).1

theorem store_startingyear_pos (st st1 : unpack_state)
    (h : store_startingyear st = Except.ok st1) : st1.input.pos = st.input.pos := by
  simp only [store_startingyear] at h
  split at h
  · cases h
  · rename_i year s2 heq
    injection h with h
    subst h
    obtain ⟨hp, _, hf⟩ := read_int_pos _ _ _ heq
    have hgood : st.input.failed = false := by
      by_contra hc
      have hc1 : st.input.failed = true := by simpa using hc
      have hs : st.input.seekg_cur jump_dist = st.input := by
        simp [ifstream.seekg_cur, hc1]
      rw [hs] at heq
      unfold read_int at heq
      split at heq
      · rename_i heq2
        have := (read_full_pos _ _ _ _ heq2).2.2.2 (by decide)
        rw [hc1] at this
        cases this
      · cases heq
    have hs1 : (st.input.seekg_cur jump_dist).pos = st.input.pos + 887272 := by
      simp only [ifstream.seekg_cur, hgood, jump_dist, Bool.false_eq_true, if_false]
      have : ¬ ((st.input.pos : Int) + 887272 < 0) := by omega
      simp only [this, if_false]
      omega
    simp only [ifstream.seekg_cur, hf, jump_dist, Bool.false_eq_true, if_false]
    rw [hp, hs1]
    have : ¬ (((st.input.pos + 887272 + 4 : Nat) : Int) + (-887272 - 4) < 0) := by omega
    simp only [this, if_false]
    omega

theorem unpack_leaf_pos (mysection : «section») (c : Nat) (acc r : unpack_state × List feature)
    (hfix : mysection.method ∈ fixed_kinds →
      size_for_method mysection.method = some mysection.bytes_per_line)
    (h0 : mysection.method ≠ TEXT0) (h8 : mysection.method ≠ TEXT8)
    (h : unpack_leaf mysection c acc = Except.ok r) :
    r.1.input.pos = acc.1.input.pos + mysection.bytes_per_line := by
  simp only [unpack_leaf] at h
  split at h
  · cases h
  · rename_i value features s1 hdec
    have hpos := decode_leaf_pos _ _ _ _ _ _ _ _ hfix h0 h8 hdec
    split at h
    · cases h
    · rename_i st2 hst
      split at h
      · cases h
      · injection h with h
        subst h
        dsimp only
        rw [← hpos]
        split at hst
        · exact store_startingyear_pos _ _ hst
        · injection hst with hst
          rw [← hst]

theorem unpack_loop_pos
    (body : Nat → unpack_state × List feature →
      Except abort_reason (unpack_state × List feature)) (w : Nat)
    (hbody : ∀ c acc r, body c acc = Except.ok r → r.1.input.pos = acc.1.input.pos + w) :
    ∀ (left c : Nat) (acc r : unpack_state × List feature),
      unpack_loop body left c acc = Except.ok r →
        r.1.input.pos = acc.1.input.pos + left * w := by
  intro left
  induction left with
  | zero =>
    intro c acc r h
    simp only [unpack_loop] at h
    injection h with h
    rw [h]
    simp
  | succ left ih =>
    intro c acc r h
    simp only [unpack_loop] at h
    split at h
    · cases h
    · rename_i acc1 heq
      rw [ih _ _ _ h, hbody _ _ _ heq, Nat.succ_mul]
      omega

theorem unpack_manual_pos
    (recur : «section» → Nat → unpack_state → Except abort_reason unpack_state)
    (subsection : text) (info : List subsection_info) :
    (∀ subinfo ∈ info, ∀ off st st1,
      recur ⟨subsection, subinfo.multiplier, subinfo.byte_count, subinfo.method⟩ off st =
          Except.ok st1 →
        st1.input.pos = st.input.pos + subinfo.multiplier * subinfo.byte_count) →
    ∀ (acc r : unpack_state × Nat × Nat),
      unpack_manual recur subsection info acc = Except.ok r →
        r.1.input.pos + acc.2.2 = acc.1.input.pos + r.2.2 := by
  induction info with
  | nil =>
    intro _ acc r h
    simp only [unpack_manual] at h
    injection h with h
    rw [h]
  | cons t rest ih =>
    intro hrec acc r h
    obtain ⟨st, suboffset, check⟩ := acc
    simp only [unpack_manual] at h
    split at h
    · cases h
    · rename_i st1 heq
      have h1 := hrec t (List.mem_cons_self _ _) _ _ _ heq
      have h2 := ih (fun si hsi => hrec si (List.mem_cons_of_mem _ hsi)) _ _ h
      dsimp only at h2 ⊢
      omega

theorem takeWhile_subsection_name (name : text) (c : Nat) :
    (subsection_name name c).takeWhile (fun ch => ch != '_') =
      name.takeWhile (fun ch => ch != '_') := by
  unfold subsection_name
  induction name with
  | nil => simp [List.takeWhile]
  | cons a rest ih =>
    simp only [List.cons_append, List.takeWhile_cons]
    split
    · rw [ih]
    · rfl

theorem subsection_x_of_cases (s : text) :
    subsection_x_of s = s ∨
      ∃ r, subsection_x_of s = s.takeWhile (fun ch => ch != '_') ++ '_' :: 'x' :: r := by
  unfold subsection_x_of
  split
  · exact Or.inl rfl
  · split
    · exact Or.inl rfl
    · rename_i r _ _ _ _
      right
      exact ⟨r.dropWhile Char.isDigit, by simp [String.toList]⟩
  · exact Or.inl rfl

theorem takeWhile_subsection_x_of (s : text) :
    (subsection_x_of s).takeWhile (fun ch => ch != '_') =
      s.takeWhile (fun ch => ch != '_') := by
  have hb : ∀ ch ∈ s.takeWhile (fun ch => ch != '_'), ch ≠ '_' := by
    intro ch hch
    have := List.mem_takeWhile_imp hch
    simpa using this
  rcases subsection_x_of_cases s with h | ⟨r, h⟩
  · rw [h]
  · rw [h, takeWhile_base _ _ hb]

theorem lookup_mem_key {β : Type} (T : List (text × β)) (k : text) (v : β)
    (h : T.lookup k = some v) : (k, v) ∈ T := by
  induction T with
  | nil => simp at h
  | cons p rest ih =>
    obtain ⟨k0, v0⟩ := p
    rw [List.lookup_cons] at h
    split at h
    · rename_i hk
      injection h with h
      have : k = k0 := by simpa using hk
      rw [this, h]
      exact List.mem_cons_self _ _
    · exact List.mem_cons_of_mem _ (ih h)

/-- The uniform rule that `resolve` returns is in the table, under the name of the line or
under its generic name. -/
theorem resolve_uniform_key (simple : simple_table) (manual : manual_table)
    (mysection : «section») (c : Nat) (key : text) (submeth : translation_type)
    (h : resolve simple manual mysection c = resolution.uniform key submeth) :
    (key, submeth) ∈ simple ∧ submeth ≠ mysection.method ∧
      (key = subsection_name mysection.name c ∨
        key = subsection_x_of (subsection_name mysection.name c)) := by
  simp only [resolve, resolve_line] at h
  split at h
  · rename_i sm hl
    split at h
    · rename_i hne
      injection h with hk hs
      subst hk hs
      refine ⟨lookup_mem_key _ _ _ hl, hne, ?_⟩
      split
      · exact Or.inl rfl
      · exact Or.inr rfl
    · split at h <;> cases h
  · split at h <;> cases h

/-- The heterogeneous rule that `resolve` returns is in the table. -/
theorem resolve_manual_key (simple : simple_table) (manual : manual_table)
    (mysection : «section») (c : Nat) (key : text) (info : List subsection_info)
    (h : resolve simple manual mysection c = resolution.manual key info) :
    (key, info) ∈ manual := by
  have hkey : ∀ mk, (match manual.lookup mk with
      | some info => resolution.manual mk info
      | none => resolution.leaf) = resolution.manual key info → (key, info) ∈ manual := by
    intro mk hh
    cases hL : manual.lookup mk with
    | none =>
      rw [hL] at hh
      cases hh
    | some i =>
      rw [hL] at hh
      injection hh with h1 h2
      subst h1 h2
      exact lookup_mem_key manual _ _ hL
  simp only [resolve, resolve_line] at h
  split at h
  · split at h
    · cases h
    · exact hkey _ h
  · exact hkey _ h

theorem aligned_iff (sec : «section») :
    aligned sec = true ↔
      (sec.name.takeWhile (fun ch => ch != '_') ≠ "Intro".toList ∧ sec.method ≠ TEXT0 ∧
        sec.method ≠ TEXT8 ∧
        (sec.method ∈ fixed_kinds → size_for_method sec.method = some sec.bytes_per_line)) := by
  simp only [aligned, Bool.and_eq_true, bne_iff_ne, ne_eq, Bool.or_eq_true,
    Bool.not_eq_true', beq_iff_eq, List.contains_eq_any_beq, List.any_eq_false,
    List.elem_eq_mem, decide_eq_true_eq, and_assoc]
  constructor
  · rintro ⟨h1, h2, h3, h4⟩
    refine ⟨h1, h2, h3, ?_⟩
    intro hm
    rcases h4 with h4 | h4
    · exact absurd rfl (h4 _ hm)
    · exact h4
  · rintro ⟨h1, h2, h3, h4⟩
    refine ⟨h1, h2, h3, ?_⟩
    by_cases hm : sec.method ∈ fixed_kinds
    · exact Or.inr (h4 hm)
    · left
      intro x hx hxe
      apply hm
      have : sec.method = x := by simpa using hxe
      rw [this]
      exact hx

theorem simple_rule_kinds :
    ∀ kv ∈ subsection_simple_decode,
      (kv.2 = TEXT0 → kv.1 = "Intro_0".toList) ∧ kv.2 ≠ TEXT8 ∧ kv.2 ≠ ZERO := by
  have h : (subsection_simple_decode.all fun kv =>
      decide ((kv.2 = TEXT0 → kv.1 = "Intro_0".toList) ∧ kv.2 ≠ TEXT8 ∧ kv.2 ≠ ZERO)) = true := by
    decide
  rw [List.all_eq_true] at h
  intro kv hkv
  have h1 := h kv hkv
  simp only [decide_eq_true_eq] at h1
  exact h1

theorem manual_rule_kinds :
    ∀ kv ∈ subsection_manual_decode, ∀ si ∈ kv.2,
      si.method ≠ TEXT0 ∧ si.method ≠ TEXT8 ∧
        (si.method ∈ fixed_kinds → size_for_method si.method = some si.byte_count) := by
  have h : (subsection_manual_decode.all fun kv => kv.2.all fun si =>
      decide (si.method ≠ TEXT0 ∧ si.method ≠ TEXT8 ∧
        (si.method ∈ fixed_kinds → size_for_method si.method = some si.byte_count))) = true := by
    decide
  rw [List.all_eq_true] at h
  intro kv hkv si hsi
  have h1 := h kv hkv
  rw [List.all_eq_true] at h1
  have h2 := h1 si hsi
  simp only [decide_eq_true_eq] at h2
  exact h2

theorem size_pos_of_kind (m : translation_type) (size : Nat) (h0 : m ≠ TEXT0) (hz : m ≠ ZERO)
    (h : size_for_method m = some size) : 0 < size := by
  cases m <;> simp only [size_for_method, Option.some.injEq] at h <;> first
    | exact absurd rfl h0
    | exact absurd rfl hz
    | omega
    | cases h

/-- The child of a uniform rule of the declared table, applied outside `Intro`: it is aligned
again, and its lines make up the width of the region. -/
theorem uniform_child_aligned (mysection : «section») (c : Nat) (key : text)
    (submeth : translation_type) (size : Nat) (sub : «section») (suboffset : Nat)
    (hal : aligned mysection = true)
    (hres : resolve subsection_simple_decode subsection_manual_decode mysection c =
      resolution.uniform key submeth)
    (hsize : size_for_method submeth = some size)
    (hsplit : uniform_split mysection c submeth size = some (sub, suboffset)) :
    aligned sub = true ∧ sub.count * sub.bytes_per_line = mysection.bytes_per_line := by
  obtain ⟨hn, _, _, _⟩ := (aligned_iff mysection).mp hal
  obtain ⟨hmem, _, hkey⟩ := resolve_uniform_key _ _ _ _ _ _ hres
  obtain ⟨ht0, ht8, hz⟩ := simple_rule_kinds _ hmem
  have hbase : key.takeWhile (fun ch => ch != '_') =
      mysection.name.takeWhile (fun ch => ch != '_') := by
    rcases hkey with h | h
    · rw [h, takeWhile_subsection_name]
    · rw [h, takeWhile_subsection_x_of, takeWhile_subsection_name]
  have h0 : submeth ≠ TEXT0 := by
    intro h
    have hk := ht0 h
    dsimp only at hk
    rw [hk] at hbase
    apply hn
    rw [← hbase]
    decide
  have hpos := size_pos_of_kind submeth size h0 hz hsize
  have hdiv : ¬ (0 < size ∧ mysection.bytes_per_line % size ≠ 0) := by
    intro hc
    rw [uniform_split_none _ _ _ _ hc] at hsplit
    cases hsplit
  have hmod : mysection.bytes_per_line % size = 0 := by
    by_contra hc
    exact hdiv ⟨hpos, hc⟩
  have hcount : (if 0 < size then mysection.bytes_per_line / size else 1) * size =
      mysection.bytes_per_line := by
    rw [if_pos hpos]
    exact Nat.div_mul_cancel (Nat.dvd_of_mod_eq_zero hmod)
  have hfix : submeth ∈ fixed_kinds → size_for_method submeth = some size := fun _ => hsize
  by_cases h1 : (if 0 < size then mysection.bytes_per_line / size else 1) = 1
  · rw [uniform_split_one _ _ _ _ hdiv h1] at hsplit
    cases hsplit
    refine ⟨(aligned_iff _).mpr ⟨hn, h0, ht8, hfix⟩, ?_⟩
    rw [h1] at hcount
    exact hcount
  · rw [uniform_split_many _ _ _ _ hdiv h1] at hsplit
    cases hsplit
    refine ⟨(aligned_iff _).mpr ⟨?_, h0, ht8, hfix⟩, hcount⟩
    dsimp only
    rw [takeWhile_subsection_name]
    exact hn

theorem unpack_line_pos
    (recur : «section» → Nat → unpack_state → Except abort_reason unpack_state)
    (hrec : ∀ sub off st st1, aligned sub = true → recur sub off st = Except.ok st1 →
      st1.input.pos = st.input.pos + sub.count * sub.bytes_per_line)
    (mysection : «section») (c : Nat) (acc r : unpack_state × List feature)
    (hal : aligned mysection = true)
    (h : unpack_line subsection_simple_decode subsection_manual_decode recur mysection c acc =
      Except.ok r) :
    r.1.input.pos = acc.1.input.pos + mysection.bytes_per_line := by
  obtain ⟨hn, h0, h8, hfix⟩ := (aligned_iff mysection).mp hal
  unfold unpack_line at h
  cases hres : resolve subsection_simple_decode subsection_manual_decode mysection c with
  | uniform key submeth =>
    rw [hres] at h
    dsimp only at h
    cases hsize : size_for_method submeth with
    | none =>
      rw [hsize] at h
      cases h
    | some size =>
      rw [hsize] at h
      dsimp only at h
      cases hsplit : uniform_split mysection c submeth size with
      | none =>
        rw [hsplit] at h
        cases h
      | some p =>
        obtain ⟨sub, suboffset⟩ := p
        rw [hsplit] at h
        dsimp only at h
        obtain ⟨hsub, hw⟩ := uniform_child_aligned _ _ _ _ _ _ _ hal hres hsize hsplit
        split at h
        · cases h
        · rename_i st1 heq
          injection h with h
          subst h
          rw [hrec _ _ _ _ hsub heq, hw]
  | manual key info =>
    rw [hres] at h
    dsimp only at h
    have hmem := resolve_manual_key _ _ _ _ _ _ hres
    split at h
    · cases h
    · rename_i st1 off1 check heq
      split at h
      · cases h
      · rename_i hcheck
        injection h with h
        subst h
        have hchk : check = mysection.bytes_per_line := by
          by_contra hc
          exact hcheck hc
        have hp := unpack_manual_pos recur (subsection_name mysection.name c) info
          (fun si hsi off st st1 hrun => by
            obtain ⟨a0, a8, afix⟩ := manual_rule_kinds _ hmem si hsi
            have hal2 : aligned ⟨subsection_name mysection.name c, si.multiplier,
                si.byte_count, si.method⟩ = true :=
              (aligned_iff _).mpr ⟨by
                dsimp only
                rw [takeWhile_subsection_name]
                exact hn, a0, a8, afix⟩
            exact hrec _ _ _ _ hal2 hrun) _ _ heq
        dsimp only at hp ⊢
        omega
  | leaf =>
    rw [hres] at h
    exact unpack_leaf_pos mysection c acc r hfix h0 h8 h

/-- A call of `unpack_section` on an aligned section that returns has moved the cursor by
`count * bytes_per_line`. -/
theorem unpack_section_pos :
    ∀ (fuel : Nat) (mysection : «section») (offset : Nat) (st st1 : unpack_state),
      aligned mysection = true →
      unpack_section subsection_simple_decode subsection_manual_decode fuel mysection offset
          st = Except.ok st1 →
        st1.input.pos = st.input.pos + mysection.count * mysection.bytes_per_line := by
  intro fuel
  induction fuel with
  | zero =>
    intro mysection offset st st1 _ h
    simp only [unpack_section] at h
    cases h
  | succ fuel ih =>
    intro mysection offset st st1 hal h
    simp only [unpack_section] at h
    split at h
    · cases h
    · rename_i st2 features heq
      have hloop := unpack_loop_pos _ mysection.bytes_per_line
        (fun c acc r hr => unpack_line_pos _ ih mysection c acc r hal hr) _ _ _ _ heq
      have hst0 : (if mysection.name = "Log".toList then
            ({ st with out := st.out ++ [pst_line.remark "# Ship's Log".toList] } : unpack_state)
          else st).input.pos = st.input.pos := by
        split <;> rfl
      dsimp only at hloop
      rw [hst0] at hloop
      split at h
      · injection h with h
        subst h
        exact hloop
      · injection h with h
        subst h
        exact hloop

theorem top_aligned (sec : «section») (hsec : sec ∈ section_vector)
    (hI : sec.name ≠ "Intro".toList) (hC : sec.name ≠ "CityName".toList)
    (hS : sec.name ≠ "ShipName".toList) : aligned sec = true := by
  have h : (section_vector.all fun sec =>
      decide (sec.name = "Intro".toList ∨ sec.name = "CityName".toList ∨
        sec.name = "ShipName".toList) || aligned sec) = true := by decide
  rw [List.all_eq_true] at h
  have h1 := h sec hsec
  simp only [Bool.or_eq_true, decide_eq_true_eq] at h1
  rcases h1 with (h1 | h1 | h1) | h1
  · exact absurd h1 hI
  · exact absurd h1 hC
  · exact absurd h1 hS
  · exact h1

/-- In the walk of the declared schema a section whose kind has a fixed size has that size as
width. -/
theorem walk_fixed_width (s : «section») (c : Nat)
    (h : in_walk subsection_simple_decode subsection_manual_decode section_vector s c) :
    s.method ∈ fixed_kinds → size_for_method s.method = some s.bytes_per_line := by
  induction h with
  | top sec c hsec hc =>
    have hall : (section_vector.all fun sec =>
        decide (sec.method ∈ fixed_kinds →
          size_for_method sec.method = some sec.bytes_per_line)) = true := by decide
    rw [List.all_eq_true] at hall
    have h1 := hall sec hsec
    simp only [decide_eq_true_eq] at h1
    exact h1
  | uniform mysection c key submeth size sub suboffset d hparent hrule hsize hsplit hd ih =>
    have hsub : sub.bytes_per_line = size ∧ sub.method = submeth := by
      by_cases h0 : 0 < size ∧ mysection.bytes_per_line % size ≠ 0
      · rw [uniform_split_none _ _ _ _ h0] at hsplit
        cases hsplit
      · by_cases h1 : (if 0 < size then mysection.bytes_per_line / size else 1) = 1
        · rw [uniform_split_one _ _ _ _ h0 h1] at hsplit
          cases hsplit
          exact ⟨rfl, rfl⟩
        · rw [uniform_split_many _ _ _ _ h0 h1] at hsplit
          cases hsplit
          exact ⟨rfl, rfl⟩
    intro _
    rw [hsub.1, hsub.2]
    exact hsize
  | manual mysection c key info suboffset subinfo d hparent hrule hmem hd ih =>
    have hk := resolve_manual_key _ _ _ _ _ _ hrule
    have hin := manual_offsets_mem info 0 _ hmem
    exact (manual_rule_kinds _ hk _ hin).2.2

/-! ## A uniform rule with a single child -/

theorem size_not_world_map (m : translation_type) (size : Nat)
    (h : size_for_method m = some size) : is_world_map m = false := by
  cases m <;> first | rfl | cases h

/-- After a uniform rule has changed the kind of a line to the kind of the rule, the rule is
guarded out; with no heterogeneous rule for the line, it is a leaf. -/
theorem resolve_after_uniform (simple : simple_table) (manual : manual_table)
    (mysection : «section») (c : Nat) (key : text) (submeth : translation_type)
    (count size : Nat)
    (hrule : resolve simple manual mysection c = resolution.uniform key submeth)
    (hman : manual.lookup (subsection_name mysection.name c) = none ∧
      manual.lookup (subsection_x_of (subsection_name mysection.name c)) = none) :
    resolve simple manual ⟨mysection.name, count, size, submeth⟩ c = resolution.leaf := by
  simp only [resolve, resolve_line] at hrule ⊢
  simp only [hman.1, hman.2, Option.isSome_none, Bool.false_eq_true, if_false] at hrule ⊢
  split at hrule
  · rename_i sm hl
    split at hrule
    · injection hrule with _ hs
      subst hs
      simp only [hl, ne_eq, not_true_eq_false, if_false]
    · cases hrule
  · cases hrule

/-- With the declared tables no uniform rule applies to a line of a section named `Log`: no
key of the tables is the name of such a line, and the uniform table has no rule `Log_x`. -/
theorem resolve_log_line (c : Nat) (count width : Nat) (m : translation_type) (k : text)
    (sm : translation_type) :
    resolve subsection_simple_decode subsection_manual_decode ⟨"Log".toList, count, width, m⟩
      c ≠ resolution.uniform k sm := by
  have h := resolve_line_free subsection_simple_decode subsection_manual_decode "Log".toList
    (by decide) (by decide) (by decide) c [] (Or.inl rfl) m
  rw [List.append_nil] at h
  have hs : subsection_simple_decode.lookup ("Log".toList ++ '_' :: 'x' :: []) = none := by
    decide
  unfold resolve subsection_name
  rw [h, hs]
  dsimp only
  split <;> simp

/-- C22. When a uniform rule of a kind other than the current kind of a region gives exactly
one child (the width of the region is the size of the new kind, or the new kind has size 0)
and the heterogeneous table has no rule for the region, the region gets no further index
level: the call is made on the same section name with offset `c`, there the line is a leaf,
and what `unpack_section` does for the region is the leaf read of the new kind.  When it
returns, exactly one line has been written for the region, under the identifier `name_c`
itself, with the code and the size of the new kind and the value decoded by the new kind.  (A
call on a section named `Log` writes its remark line first, as every call on that name does;
with the declared tables no uniform rule applies in a section of that name.) -/
theorem single_child_keeps_name (simple : simple_table) (manual : manual_table) (fuel : Nat)
    (mysection : «section») (c : Nat) (acc : unpack_state × List feature) (key : text)
    (submeth : translation_type) (size : Nat)
    (hrule : resolve simple manual mysection c = resolution.uniform key submeth)
    (hsize : size_for_method submeth = some size)
    (hone : size = 0 ∨ mysection.bytes_per_line = size)
    (hman : manual.lookup (subsection_name mysection.name c) = none ∧
      manual.lookup (subsection_x_of (subsection_name mysection.name c)) = none) :
    uniform_split mysection c submeth size = some (⟨mysection.name, 1, size, submeth⟩, c) ∧
    resolve simple manual ⟨mysection.name, 1, size, submeth⟩ c = resolution.leaf ∧
    unpack_line simple manual (unpack_section simple manual (fuel + 1)) mysection c acc =
      (match unpack_leaf ⟨mysection.name, 1, size, submeth⟩ c
          (if mysection.name = "Log".toList then
              { acc.1 with out := acc.1.out ++ [pst_line.remark "# Ship's Log".toList] }
            else acc.1, []) with
        | Except.error e => Except.error e
        | Except.ok r => Except.ok (r.1, acc.2)) ∧
    (∀ r, unpack_line simple manual (unpack_section simple manual (fuel + 1)) mysection c acc =
        Except.ok r →
      ∃ value0 value fs s1,
        decode_leaf submeth size (subsection_name mysection.name c) [] acc.1.input =
          Except.ok (value0, fs, s1) ∧
        remap_negative submeth value0 = Except.ok value ∧
        r.1.out = acc.1.out ++
          (if mysection.name = "Log".toList then [pst_line.remark "# Ship's Log".toList]
            else []) ++
          [pst_line.leaf (subsection_name mysection.name c)
            (char_for_method submeth ++ nat_to_string size) value] ∧
        r.2 = acc.2) ∧
    ∀ c1 count width m k sm,
      resolve subsection_simple_decode subsection_manual_decode
        ⟨"Log".toList, count, width, m⟩ c1 ≠ resolution.uniform k sm := by
  have hsplit : uniform_split mysection c submeth size =
      some (⟨mysection.name, 1, size, submeth⟩, c) := by
    rcases hone with h | h
    · subst h
      exact uniform_split_one _ _ _ _ (by simp) (by simp)
    · by_cases h0 : size = 0
      · subst h0
        exact uniform_split_one _ _ _ _ (by simp) (by simp)
      · have hp : 0 < size := Nat.pos_of_ne_zero h0
        apply uniform_split_one
        · rw [h]
          simp
        · rw [if_pos hp, h]
          exact Nat.div_self hp
  have hleaf := resolve_after_uniform simple manual mysection c key submeth 1 size hrule hman
  have hmap := size_not_world_map submeth size hsize
  have hline : unpack_line simple manual (unpack_section simple manual (fuel + 1)) mysection c
      acc =
      (match unpack_leaf ⟨mysection.name, 1, size, submeth⟩ c
          (if mysection.name = "Log".toList then
              { acc.1 with out := acc.1.out ++ [pst_line.remark "# Ship's Log".toList] }
            else acc.1, []) with
        | Except.error e => Except.error e
        | Except.ok r => Except.ok (r.1, acc.2)) := by
    simp only [unpack_line, hrule, hsize, hsplit, unpack_section, unpack_loop, hleaf, hmap,
      Bool.false_eq_true, if_false]
    cases unpack_leaf ⟨mysection.name, 1, size, submeth⟩ c
        (if mysection.name = "Log".toList then
            { acc.1 with out := acc.1.out ++ [pst_line.remark "# Ship's Log".toList] }
          else acc.1, []) with
    | error e => rfl
    | ok r => rfl
  refine ⟨hsplit, hleaf, hline, ?_, resolve_log_line⟩
  intro r hr
  rw [hline] at hr
  split at hr
  · cases hr
  · rename_i r1 hr1
    injection hr with hr
    subst hr
    have hin : (if mysection.name = "Log".toList then
          ({ acc.1 with out := acc.1.out ++ [pst_line.remark "# Ship's Log".toList] } :
            unpack_state)
        else acc.1).input = acc.1.input := by
      split <;> rfl
    have hout : (if mysection.name = "Log".toList then
          ({ acc.1 with out := acc.1.out ++ [pst_line.remark "# Ship's Log".toList] } :
            unpack_state)
        else acc.1).out = acc.1.out ++
          (if mysection.name = "Log".toList then [pst_line.remark "# Ship's Log".toList]
            else []) := by
      split <;> simp
    simp only [unpack_leaf, hin, hmap, Bool.false_eq_true, if_false] at hr1
    split at hr1
    · cases hr1
    · rename_i value0 fs s1 hdec
      split at hr1
      · cases hr1
      · rename_i st2 hst
        split at hr1
        · cases hr1
        · rename_i value hremap
          injection hr1 with hr1
          subst hr1
          refine ⟨value0, value, fs, s1, hdec, hremap, ?_, rfl⟩
          dsimp only
          have hst2 : st2.out = acc.1.out ++
              (if mysection.name = "Log".toList then
                [pst_line.remark "# Ship's Log".toList] else []) := by
            split at hst
            · simp only [store_startingyear] at hst
              split at hst
              · cases hst
              · injection hst with hst
                rw [← hst]
                exact hout
            · injection hst with hst
              rw [← hst]
              exact hout
          rw [hst2]

set_option maxRecDepth 100000 in
theorem single_child_keeps_name_witness :
    (resolve subsection_simple_decode subsection_manual_decode ⟨"Intro".toList, 6, 4, INT⟩ 3 =
        resolution.uniform "Intro_3".toList HEX ∧
      size_for_method HEX = some 4 ∧ ((4 : Nat) = 0 ∨ (4 : Nat) = 4) ∧
      subsection_manual_decode.lookup (subsection_name "Intro".toList 3) = none ∧
      subsection_manual_decode.lookup (subsection_x_of (subsection_name "Intro".toList 3)) =
        none) ∧
    unpack_line subsection_simple_decode subsection_manual_decode
        (unpack_section subsection_simple_decode subsection_manual_decode (0 + 1))
        ⟨"Intro".toList, 6, 4, INT⟩ 3 (⟨⟨[1, 2, 3, 4], 0, false⟩, [], 0⟩, []) =
      Except.ok (⟨⟨[1, 2, 3, 4], 4, false⟩,
        [pst_line.leaf "Intro_3".toList "h4".toList "04.03.02.01".toList], 0⟩, []) :=
  ⟨⟨by decide, rfl, Or.inr rfl, by decide, by decide⟩,
    ((single_child_keeps_name subsection_simple_decode subsection_manual_decode 0
      ⟨"Intro".toList, 6, 4, INT⟩ 3 (⟨⟨[1, 2, 3, 4], 0, false⟩, [], 0⟩, []) "Intro_3".toList HEX
      4 (by decide) rfl (Or.inr rfl) ⟨by decide, by decide⟩).2.2.1).trans (by decide)⟩

/-! ## Where the starting year is read -/

theorem unpack_sections_pos (fuel : Nat) (sections : List «section») :
    (∀ sec ∈ sections, aligned sec = true) →
    ∀ (st st1 : unpack_state),
      unpack_sections subsection_simple_decode subsection_manual_decode fuel sections st =
          Except.ok st1 →
        st1.input.pos =
          st.input.pos + (sections.map fun sec => sec.count * sec.bytes_per_line).sum := by
  induction sections with
  | nil =>
    intro _ st st1 h
    simp only [unpack_sections] at h
    injection h with h
    rw [h]
    simp
  | cons sec rest ih =>
    intro hall st st1 h
    simp only [unpack_sections] at h
    split at h
    · cases h
    · rename_i st2 heq
      rw [ih (fun s hs => hall s (List.mem_cons_of_mem _ hs)) _ _ h,
        unpack_section_pos fuel sec 0 _ _ (hall sec (List.mem_cons_self _ _)) heq]
      simp only [List.map_cons, List.sum_cons]
      omega

theorem store_startingyear_eq (data : List byte) (p : Nat) (out : List pst_line) (year : Int)
    (hlen : p + 887272 + 4 ≤ data.length) :
    store_startingyear ⟨⟨data, p, false⟩, out, year⟩ =
      Except.ok ⟨⟨data, p, false⟩, out,
        int_of_bytes (at_index data (p + 887272)) (at_index data (p + 887272 + 1))
          (at_index data (p + 887272 + 2)) (at_index data (p + 887272 + 3))⟩ := by
  have h1 := seekg_cur_forward data p 887272
  have h2 := read_int_at data (p + 887272) hlen
  have h3 := seekg_cur_back data p (887272 + 4)
  have hj : jump_dist = ((887272 : Nat) : Int) := rfl
  have hb : -jump_dist - 4 = -(((887272 + 4 : Nat)) : Int) := by
    rw [hj]; norm_num
  simp only [store_startingyear, hj] at *
  rw [h1, h2]
  simp only
  rw [hb, show p + 887272 + 4 = p + (887272 + 4) by omega, h3]

/-- C23. The distance of the starting-year seek fits the schema.  The sections Personal to
Villain take 887160 bytes by their declared `count * bytes_per_line`, and a run of them that
returns has moved the cursor by as much, to the start of the top-level region `t`, which is a
single leaf of 120 bytes.  The capture runs in the line `Personal_0` with the cursor just past
its 4 bytes, and that cursor plus `jump_dist = 887272` is the start of `t` plus 116: the line
`Personal_0` is written from its own 4 bytes, the cursor is left just past them, and
`starting_year` is the integer in the bytes at offsets 116 to 119 of `t`, its last 4 bytes. -/
theorem starting_year_in_region_t
    (recur : «section» → Nat → unpack_state → Except abort_reason unpack_state)
    (pre rest : List byte) (b0 b1 b2 b3 : byte) (out : List pst_line) (year : Int)
    (features : List feature) (hlen : 887160 - 4 + 120 ≤ rest.length) :
    unpack_line subsection_simple_decode subsection_manual_decode recur
        ⟨"Personal".toList, 57, 4, INT⟩ 0
        (⟨stream_at pre [b0, b1, b2, b3] rest, out, year⟩, features) =
      Except.ok
        (⟨⟨pre ++ [b0, b1, b2, b3] ++ rest, pre.length + 4, false⟩,
          out ++ [pst_line.leaf "Personal_0".toList "V4".toList
            (nat_to_string (to_uint32 (int_of_bytes b0 b1 b2 b3)))],
          int_of_bytes
            (at_index (pre ++ [b0, b1, b2, b3] ++ rest) (pre.length + 887160 + 116))
            (at_index (pre ++ [b0, b1, b2, b3] ++ rest) (pre.length + 887160 + 117))
            (at_index (pre ++ [b0, b1, b2, b3] ++ rest) (pre.length + 887160 + 118))
            (at_index (pre ++ [b0, b1, b2, b3] ++ rest) (pre.length + 887160 + 119))⟩,
          features) ∧
    (((section_vector.drop 2).take 19).map fun sec => sec.count * sec.bytes_per_line).sum =
      887160 ∧
    ((section_vector.drop 2).take 19).head? = some ⟨"Personal".toList, 57, 4, INT⟩ ∧
    ((section_vector.drop 2).take 19).getLast? = some ⟨"Villain".toList, 28, 36, BULK⟩ ∧
    (section_vector.drop 21).head? = some ⟨"t".toList, 1, 120, BULK⟩ ∧
    resolve subsection_simple_decode subsection_manual_decode ⟨"t".toList, 1, 120, BULK⟩ 0 =
      resolution.leaf ∧
    (4 : Int) + jump_dist = 887160 + 116 ∧ 116 + 4 = (120 : Nat) ∧
    ∀ fuel st st1,
      unpack_sections subsection_simple_decode subsection_manual_decode fuel
          ((section_vector.drop 2).take 19) st = Except.ok st1 →
        st1.input.pos = st.input.pos + 887160 := by
  have hsum : (((section_vector.drop 2).take 19).map fun sec =>
      sec.count * sec.bytes_per_line).sum = 887160 := by decide
  refine ⟨?_, hsum, by decide, by decide, by decide, by decide, by decide, by decide, ?_⟩
  · have hres : resolve subsection_simple_decode subsection_manual_decode
        ⟨"Personal".toList, 57, 4, INT⟩ 0 = resolution.leaf := by decide
    have hname : subsection_name "Personal".toList 0 = start_of_fixed_length_section := by
      decide
    have hr := int_of_bytes_range b0 b1 b2 b3
    have hdl : (pre ++ [b0, b1, b2, b3] ++ rest).length = pre.length + 4 + rest.length := by
      simp only [List.length_append, List.length_cons, List.length_nil]
    have hst := store_startingyear_eq (pre ++ [b0, b1, b2, b3] ++ rest) (pre.length + 4) out
      year (by omega)
    have a0 : at_index (pre ++ [b0, b1, b2, b3] ++ rest) (pre.length + 4 + 887272) =
        at_index (pre ++ [b0, b1, b2, b3] ++ rest) (pre.length + 887160 + 116) :=
      congrArg _ (by omega)
    have a1 : at_index (pre ++ [b0, b1, b2, b3] ++ rest) (pre.length + 4 + 887272 + 1) =
        at_index (pre ++ [b0, b1, b2, b3] ++ rest) (pre.length + 887160 + 117) :=
      congrArg _ (by omega)
    have a2 : at_index (pre ++ [b0, b1, b2, b3] ++ rest) (pre.length + 4 + 887272 + 2) =
        at_index (pre ++ [b0, b1, b2, b3] ++ rest) (pre.length + 887160 + 118) :=
      congrArg _ (by omega)
    have a3 : at_index (pre ++ [b0, b1, b2, b3] ++ rest) (pre.length + 4 + 887272 + 3) =
        at_index (pre ++ [b0, b1, b2, b3] ++ rest) (pre.length + 887160 + 119) :=
      congrArg _ (by omega)
    rw [a0, a1, a2, a3] at hst
    have hcode : char_for_method INT ++ nat_to_string 4 = "V4".toList := by decide
    have hmap : is_world_map INT = false := rfl
    have hsent : start_of_fixed_length_section = "Personal_0".toList := rfl
    simp only [unpack_line, hres, unpack_leaf, decode_leaf, read_int_stream_at, hname, if_true,
      hst, remap_int_to_string _ hr.1 hr.2, hmap, hcode, Bool.false_eq_true, if_false]
    rw [hsent]
  · intro fuel st st1 h
    have hall : ∀ sec ∈ (section_vector.drop 2).take 19, aligned sec = true := by
      have h1 : (((section_vector.drop 2).take 19).all fun sec => aligned sec) = true := by
        decide
      rw [List.all_eq_true] at h1
      exact h1
    rw [unpack_sections_pos fuel _ hall st st1 h, hsum]

theorem starting_year_in_region_t_witness :
    887160 - 4 + 120 ≤ (List.replicate 887272 (0 : byte) ++ [1, 2, 3, 4]).length ∧
    ∃ y line,
      unpack_line subsection_simple_decode subsection_manual_decode
          (unpack_section subsection_simple_decode subsection_manual_decode 1)
          ⟨"Personal".toList, 57, 4, INT⟩ 0
          (⟨stream_at [] [5, 0, 0, 0] (List.replicate 887272 0 ++ [1, 2, 3, 4]), [], 0⟩, []) =
        Except.ok
          (⟨⟨[] ++ [5, 0, 0, 0] ++ (List.replicate 887272 0 ++ [1, 2, 3, 4]),
              ([] : List byte).length + 4, false⟩,
            [] ++ [pst_line.leaf "Personal_0".toList "V4".toList line], y⟩, []) :=
  ⟨by rw [List.length_append, List.length_replicate]; decide, _, _,
    (starting_year_in_region_t
      (unpack_section subsection_simple_decode subsection_manual_decode 1) []
      (List.replicate 887272 0 ++ [1, 2, 3, 4]) 5 0 0 0 [] 0 []
      (by rw [List.length_append, List.length_replicate]; decide)).1⟩

/-! ## The recursion of unpack_section ends -/

theorem levels_digits (ds : text) (h : ∀ ch ∈ ds, ch.isDigit = true) : levels ds = 0 := by
  unfold levels
  rw [List.count_eq_zero]
  intro hmem
  have := h _ hmem
  exact absurd this (by decide)

theorem levels_subsection_name (name : text) (c : Nat) :
    levels (subsection_name name c) = levels name + 1 := by
  have hd := levels_digits (nat_to_string c) (nat_to_string_all_digits c)
  unfold levels at hd ⊢
  unfold subsection_name
  rw [List.count_append, List.count_cons_self, hd]

theorem subsection_x_of_shape (s : text) :
    subsection_x_of s = s ∨
      ∃ base ds r, ds ≠ [] ∧ (∀ ch ∈ ds, ch.isDigit = true) ∧ s = base ++ '_' :: (ds ++ r) ∧
        subsection_x_of s = base ++ '_' :: 'x' :: r := by
  have hs : s = s.takeWhile (fun ch => ch != '_') ++ s.dropWhile (fun ch => ch != '_') :=
    (List.takeWhile_append_dropWhile _ s).symm
  unfold subsection_x_of
  split
  · exact Or.inl rfl
  · rename_i base r hbase hdrop
    split
    · exact Or.inl rfl
    · rename_i hds
      right
      refine ⟨s.takeWhile (fun ch => ch != '_'), r.takeWhile Char.isDigit,
        r.dropWhile Char.isDigit, ?_, ?_, ?_, ?_⟩
      · intro h
        exact hds h
      · intro ch hch
        exact List.mem_takeWhile_imp hch
      · rw [List.takeWhile_append_dropWhile]
        rw [← hbase]
        exact hs
      · simp [String.toList]
  · exact Or.inl rfl

theorem levels_subsection_x_of (s : text) : levels (subsection_x_of s) = levels s := by
  rcases subsection_x_of_shape s with h | ⟨base, ds, r, _, hd, hs, hx⟩
  · rw [h]
  · have hd0 := levels_digits ds hd
    rw [hx]
    conv_rhs => rw [hs]
    unfold levels at hd0 ⊢
    have hxc : List.count '_' ('x' :: r) = List.count '_' r :=
      List.count_cons_of_ne (by decide) r
    rw [List.count_append, List.count_append, List.count_cons_self, List.count_cons_self,
      List.count_append, hd0, hxc]
    omega

theorem foldl_max_le (l : List Nat) : ∀ (a x : Nat), x = a ∨ x ∈ l → x ≤ l.foldl max a := by
  induction l with
  | nil =>
    intro a x h
    rcases h with h | h
    · rw [h]
      exact Nat.le_refl _
    · cases h
  | cons b rest ih =>
    intro a x h
    simp only [List.foldl_cons]
    rcases h with h | h
    · have := ih (max a b) (max a b) (Or.inl rfl)
      rw [h]
      exact Nat.le_trans (Nat.le_max_left a b) this
    · rcases List.mem_cons.mp h with h | h
      · have := ih (max a b) (max a b) (Or.inl rfl)
        rw [h]
        exact Nat.le_trans (Nat.le_max_right a b) this
      · exact ih _ _ (Or.inr h)

theorem key_levels_simple (simple : simple_table) (manual : manual_table)
    (kv : text × translation_type) (h : kv ∈ simple) :
    levels kv.1 ≤ key_levels simple manual := by
  apply foldl_max_le
  right
  rw [List.mem_append]
  exact Or.inl (List.mem_map.mpr ⟨kv, h, rfl⟩)

theorem key_levels_manual (simple : simple_table) (manual : manual_table)
    (kv : text × List subsection_info) (h : kv ∈ manual) :
    levels kv.1 ≤ key_levels simple manual := by
  apply foldl_max_le
  right
  rw [List.mem_append]
  exact Or.inr (List.mem_map.mpr ⟨kv, h, rfl⟩)

theorem lookup_none_of_levels {β : Type} (T : List (text × β)) (K : Nat) (name : text)
    (hT : ∀ kv ∈ T, levels kv.1 ≤ K) (h : K < levels name) : T.lookup name = none := by
  cases hl : T.lookup name with
  | none => rfl
  | some v =>
    have := hT _ (lookup_mem_key T name v hl)
    dsimp only at this
    omega

/-- A name with more index levels than every key of the two tables has no rule. -/
theorem resolve_line_deep (simple : simple_table) (manual : manual_table) (name : text)
    (method : translation_type) (h : key_levels simple manual < levels name) :
    resolve_line simple manual name method = resolution.leaf := by
  have hx : key_levels simple manual < levels (subsection_x_of name) := by
    rw [levels_subsection_x_of]
    exact h
  have s1 := lookup_none_of_levels simple _ name (key_levels_simple simple manual) h
  have s2 := lookup_none_of_levels simple _ _ (key_levels_simple simple manual) hx
  have m1 := lookup_none_of_levels manual _ name (key_levels_manual simple manual) h
  have m2 := lookup_none_of_levels manual _ _ (key_levels_manual simple manual) hx
  simp only [resolve_line, s1, s2, m1, m2, Option.isSome_none, Bool.false_eq_true, if_false]

theorem unpack_loop_congr
    (body1 body2 : Nat → unpack_state × List feature →
      Except abort_reason (unpack_state × List feature)) :
    ∀ (left c : Nat),
      (∀ d, d < left → ∀ acc, body1 (c + d) acc = body2 (c + d) acc ∧
        body1 (c + d) acc ≠ Except.error abort_reason.out_of_fuel) →
      ∀ acc, unpack_loop body1 left c acc = unpack_loop body2 left c acc ∧
        unpack_loop body1 left c acc ≠ Except.error abort_reason.out_of_fuel := by
  intro left
  induction left with
  | zero =>
    intro c _ acc
    simp [unpack_loop]
  | succ left ih =>
    intro c hbody acc
    have h0 := hbody 0 (Nat.succ_pos _) acc
    simp only [Nat.add_zero] at h0
    have hrest := ih (c + 1) (fun d hd acc1 => by
      have := hbody (d + 1) (by omega) acc1
      rw [show c + (d + 1) = c + 1 + d by omega] at this
      exact this)
    simp only [unpack_loop]
    rw [← h0.1]
    cases hb : body1 c acc with
    | error e =>
      refine ⟨rfl, ?_⟩
      intro he
      injection he with he
      rw [he] at hb
      exact h0.2 hb
    | ok acc1 => exact hrest acc1

theorem unpack_manual_congr
    (recur1 recur2 : «section» → Nat → unpack_state → Except abort_reason unpack_state)
    (subsection : text) (info : List subsection_info) :
    (∀ subinfo ∈ info, ∀ off st,
      recur1 ⟨subsection, subinfo.multiplier, subinfo.byte_count, subinfo.method⟩ off st =
          recur2 ⟨subsection, subinfo.multiplier, subinfo.byte_count, subinfo.method⟩ off st ∧
        recur1 ⟨subsection, subinfo.multiplier, subinfo.byte_count, subinfo.method⟩ off st ≠
          Except.error abort_reason.out_of_fuel) →
    ∀ acc, unpack_manual recur1 subsection info acc = unpack_manual recur2 subsection info acc ∧
      unpack_manual recur1 subsection info acc ≠ Except.error abort_reason.out_of_fuel := by
  induction info with
  | nil =>
    intro _ acc
    simp [unpack_manual]
  | cons t rest ih =>
    intro hrec acc
    obtain ⟨st, suboffset, check⟩ := acc
    have h0 := hrec t (List.mem_cons_self _ _) suboffset st
    simp only [unpack_manual]
    rw [← h0.1]
    cases hb : recur1 ⟨subsection, t.multiplier, t.byte_count, t.method⟩ suboffset st with
    | error e =>
      refine ⟨rfl, ?_⟩
      intro he
      injection he with he
      rw [he] at hb
      exact h0.2 hb
    | ok st1 => exact ih (fun si hsi => hrec si (List.mem_cons_of_mem _ hsi)) _

/-- The body of the loop gives the same result, and never the end of the recursion bound, with
two functions for the recursive calls that agree, and never reach the bound, on the calls the
line makes. -/
theorem unpack_line_congr (simple : simple_table) (manual : manual_table)
    (recur1 recur2 : «section» → Nat → unpack_state → Except abort_reason unpack_state)
    (mysection : «section») (c : Nat)
    (hU : ∀ key submeth size sub suboffset,
      resolve simple manual mysection c = resolution.uniform key submeth →
      size_for_method submeth = some size →
      uniform_split mysection c submeth size = some (sub, suboffset) →
      ∀ st, recur1 sub suboffset st = recur2 sub suboffset st ∧
        recur1 sub suboffset st ≠ Except.error abort_reason.out_of_fuel)
    (hM : ∀ key info, resolve simple manual mysection c = resolution.manual key info →
      ∀ subinfo ∈ info, ∀ off st,
        recur1 ⟨subsection_name mysection.name c, subinfo.multiplier, subinfo.byte_count,
            subinfo.method⟩ off st =
          recur2 ⟨subsection_name mysection.name c, subinfo.multiplier, subinfo.byte_count,
            subinfo.method⟩ off st ∧
        recur1 ⟨subsection_name mysection.name c, subinfo.multiplier, subinfo.byte_count,
            subinfo.method⟩ off st ≠ Except.error abort_reason.out_of_fuel)
    (acc : unpack_state × List feature) :
    unpack_line simple manual recur1 mysection c acc =
        unpack_line simple manual recur2 mysection c acc ∧
      unpack_line simple manual recur1 mysection c acc ≠
        Except.error abort_reason.out_of_fuel := by
  unfold unpack_line
  cases hres : resolve simple manual mysection c with
  | uniform key submeth =>
    dsimp only
    cases hsize : size_for_method submeth with
    | none => exact ⟨rfl, by simp⟩
    | some size =>
      dsimp only
      cases hsplit : uniform_split mysection c submeth size with
      | none => exact ⟨rfl, by simp⟩
      | some p =>
        obtain ⟨sub, suboffset⟩ := p
        dsimp only
        have h := hU key submeth size sub suboffset hres hsize hsplit acc.1
        rw [← h.1]
        cases hb : recur1 sub suboffset acc.1 with
        | error e =>
          refine ⟨rfl, ?_⟩
          intro he
          injection he with he
          rw [he] at hb
          exact h.2 hb
        | ok st1 => exact ⟨rfl, by simp⟩
  | manual key info =>
    dsimp only
    have h := unpack_manual_congr recur1 recur2 (subsection_name mysection.name c) info
      (hM key info hres) (acc.1, 0, 0)
    rw [← h.1]
    cases hb : unpack_manual recur1 (subsection_name mysection.name c) info (acc.1, 0, 0) with
    | error e =>
      refine ⟨rfl, ?_⟩
      intro he
      injection he with he
      rw [he] at hb
      exact h.2 hb
    | ok r =>
      obtain ⟨st1, off1, check⟩ := r
      dsimp only
      refine ⟨rfl, ?_⟩
      split <;> simp
  | leaf =>
    dsimp only
    refine ⟨rfl, ?_⟩
    intro he
    exact (unpack_leaf_error mysection c acc _ he).2.2 rfl

theorem unpack_section_congr (simple : simple_table) (manual : manual_table) (g1 g2 : Nat)
    (mysection : «section») (offset : Nat)
    (hline : ∀ d, d < mysection.count → ∀ acc,
      unpack_line simple manual (unpack_section simple manual g1) mysection (offset + d) acc =
          unpack_line simple manual (unpack_section simple manual g2) mysection (offset + d)
            acc ∧
        unpack_line simple manual (unpack_section simple manual g1) mysection (offset + d)
          acc ≠ Except.error abort_reason.out_of_fuel)
    (st : unpack_state) :
    unpack_section simple manual (g1 + 1) mysection offset st =
        unpack_section simple manual (g2 + 1) mysection offset st ∧
      unpack_section simple manual (g1 + 1) mysection offset st ≠
        Except.error abort_reason.out_of_fuel := by
  simp only [unpack_section]
  have h := unpack_loop_congr
    (unpack_line simple manual (unpack_section simple manual g1) mysection)
    (unpack_line simple manual (unpack_section simple manual g2) mysection)
    mysection.count offset hline
    (if mysection.name = "Log".toList then
        ({ st with out := st.out ++ [pst_line.remark "# Ship's Log".toList] } : unpack_state)
      else st, [])
  have e1 : (fun sub suboffset st1 => unpack_section simple manual g1 sub suboffset st1) =
      unpack_section simple manual g1 := rfl
  have e2 : (fun sub suboffset st1 => unpack_section simple manual g2 sub suboffset st1) =
      unpack_section simple manual g2 := rfl
  rw [e1, e2, ← h.1]
  cases hb : unpack_loop
      (unpack_line simple manual (unpack_section simple manual g1) mysection)
      mysection.count offset
      (if mysection.name = "Log".toList then
          ({ st with out := st.out ++ [pst_line.remark "# Ship's Log".toList] } : unpack_state)
        else st, []) with
  | error e =>
    refine ⟨rfl, ?_⟩
    intro he
    injection he with he
    rw [he] at hb
    exact h.2 hb
  | ok r =>
    obtain ⟨st1, features⟩ := r
    dsimp only
    refine ⟨rfl, ?_⟩
    split <;> simp

theorem uniform_split_shape (mysection : «section») (c : Nat) (submeth : translation_type)
    (size : Nat) (sub : «section») (suboffset : Nat)
    (h : uniform_split mysection c submeth size = some (sub, suboffset)) :
    (sub.name = subsection_name mysection.name c ∧ suboffset = 0 ∧ sub.method = submeth) ∨
      (sub = ⟨mysection.name, 1, size, submeth⟩ ∧ suboffset = c) := by
  by_cases h0 : 0 < size ∧ mysection.bytes_per_line % size ≠ 0
  · rw [uniform_split_none _ _ _ _ h0] at h
    cases h
  · by_cases h1 : (if 0 < size then mysection.bytes_per_line / size else 1) = 1
    · rw [uniform_split_one _ _ _ _ h0 h1] at h
      cases h
      exact Or.inr ⟨rfl, rfl⟩
    · rw [uniform_split_many _ _ _ _ h0 h1] at h
      cases h
      exact Or.inl ⟨rfl, rfl, rfl⟩

/-- The guard `submeth != mysection.method`: on the section that a uniform rule has given the
kind of the rule, the same line finds the same rule and does not apply it. -/
theorem resolve_guarded (simple : simple_table) (manual : manual_table)
    (mysection : «section») (c : Nat) (key : text) (submeth : translation_type)
    (hrule : resolve simple manual mysection c = resolution.uniform key submeth)
    (count size : Nat) (k : text) (m : translation_type) :
    resolve simple manual ⟨mysection.name, count, size, submeth⟩ c ≠
      resolution.uniform k m := by
  simp only [resolve, resolve_line] at hrule ⊢
  split at hrule
  · rename_i sm hl
    split at hrule
    · injection hrule with _ hs
      subst hs
      simp only [hl, ne_eq, not_true_eq_false, if_false]
      split <;> simp
    · split at hrule <;> cases hrule
  · split at hrule <;> cases hrule

theorem resolve_deep (simple : simple_table) (manual : manual_table) (mysection : «section»)
    (c : Nat) (h : key_levels simple manual ≤ levels mysection.name) :
    resolve simple manual mysection c = resolution.leaf := by
  unfold resolve
  apply resolve_line_deep
  rw [levels_subsection_name]
  omega

/-- From the bound `2 * d + 1` on, the result of `unpack_section` on a section whose name is
within `d` index levels of the deepest key does not depend on the bound, and it is not the
end of the bound. -/
theorem unpack_section_stable (simple : simple_table) (manual : manual_table) :
    ∀ (d : Nat) (mysection : «section»),
      key_levels simple manual ≤ levels mysection.name + d →
      ∀ f1 f2, 2 * d + 1 ≤ f1 → 2 * d + 1 ≤ f2 → ∀ offset st,
        unpack_section simple manual f1 mysection offset st =
            unpack_section simple manual f2 mysection offset st ∧
          unpack_section simple manual f1 mysection offset st ≠
            Except.error abort_reason.out_of_fuel := by
  intro d
  induction d with
  | zero =>
    intro mysection hK f1 f2 h1 h2 offset st
    obtain ⟨g1, rfl⟩ : ∃ g, f1 = g + 1 := ⟨f1 - 1, by omega⟩
    obtain ⟨g2, rfl⟩ : ∃ g, f2 = g + 1 := ⟨f2 - 1, by omega⟩
    apply unpack_section_congr
    intro d _ acc
    have hleaf := resolve_deep simple manual mysection (offset + d) (by omega)
    apply unpack_line_congr
    · intro key submeth size sub suboffset hres
      rw [hleaf] at hres
      cases hres
    · intro key info hres
      rw [hleaf] at hres
      cases hres
  | succ d ih =>
    intro mysection hK f1 f2 h1 h2 offset st
    obtain ⟨g1, rfl⟩ : ∃ g, f1 = g + 1 := ⟨f1 - 1, by omega⟩
    obtain ⟨g2, rfl⟩ : ∃ g, f2 = g + 1 := ⟨f2 - 1, by omega⟩
    have hchild : ∀ (c count width : Nat) (m : translation_type) (e1 e2 : Nat),
        2 * d + 1 ≤ e1 → 2 * d + 1 ≤ e2 → ∀ off st1,
        unpack_section simple manual e1 ⟨subsection_name mysection.name c, count, width, m⟩
              off st1 =
            unpack_section simple manual e2
              ⟨subsection_name mysection.name c, count, width, m⟩ off st1 ∧
          unpack_section simple manual e1 ⟨subsection_name mysection.name c, count, width, m⟩
            off st1 ≠ Except.error abort_reason.out_of_fuel := by
      intro c count width m e1 e2 he1 he2 off st1
      apply ih _ _ e1 e2 he1 he2
      dsimp only
      rw [levels_subsection_name]
      omega
    apply unpack_section_congr
    intro i _ acc
    apply unpack_line_congr
    · intro key submeth size sub suboffset hres hsize hsplit st1
      rcases uniform_split_shape _ _ _ _ _ _ hsplit with ⟨hn, _, _⟩ | ⟨hsub, hoff⟩
      · obtain ⟨name, count, width, m⟩ := sub
        dsimp only at hn
        subst hn
        exact hchild _ count width m g1 g2 (by omega) (by omega) suboffset st1
      · subst hsub hoff
        obtain ⟨e1, rfl⟩ : ∃ g, g1 = g + 1 := ⟨g1 - 1, by omega⟩
        obtain ⟨e2, rfl⟩ : ∃ g, g2 = g + 1 := ⟨g2 - 1, by omega⟩
        apply unpack_section_congr
        intro j hj acc1
        have hj0 : j = 0 := by
          dsimp only at hj
          omega
        subst hj0
        rw [Nat.add_zero]
        apply unpack_line_congr
        · intro key1 submeth1 size1 sub1 suboffset1 hres1
          exact absurd hres1 (resolve_guarded simple manual mysection _ key submeth hres 1 size
            key1 submeth1)
        · intro key1 info1 _ subinfo _ off st2
          exact hchild _ subinfo.multiplier subinfo.byte_count subinfo.method e1 e2 (by omega)
            (by omega) off st2
    · intro key info _ subinfo _ off st1
      exact hchild _ subinfo.multiplier subinfo.byte_count subinfo.method g1 g2 (by omega)
        (by omega) off st1

/-- C24. For every contents of the two rule tables, every section and every offset the
recursion of `unpack_section` ends: with `K` the most index levels of a rule key, every
recursion bound from `2 * K + 1` on gives the same result, and that result is not the end of
the bound.  A recursive call either is on the name of the line, which has one index level
more than the name of the section, or (the single child of a uniform rule) is on the same name
with the kind of the rule and the offset of the line, where the uniform rule is not applied
again.  A line whose name has more index levels than every rule key has no rule and is a
leaf. -/
theorem unpack_section_terminates (simple : simple_table) (manual : manual_table)
    (mysection : «section») (offset : Nat) (st : unpack_state) :
    (∀ fuel, 2 * key_levels simple manual + 1 ≤ fuel →
      unpack_section simple manual fuel mysection offset st =
        unpack_section simple manual (2 * key_levels simple manual + 1) mysection offset st) ∧
    unpack_section simple manual (2 * key_levels simple manual + 1) mysection offset st ≠
      Except.error abort_reason.out_of_fuel ∧
    (∀ c key submeth size sub suboffset,
      resolve simple manual mysection c = resolution.uniform key submeth →
      uniform_split mysection c submeth size = some (sub, suboffset) →
      (sub.name = subsection_name mysection.name c ∧ suboffset = 0 ∧
          levels sub.name = levels mysection.name + 1) ∨
        (sub = ⟨mysection.name, 1, size, submeth⟩ ∧ suboffset = c ∧
          ∀ k m, resolve simple manual sub c ≠ resolution.uniform k m)) ∧
    (∀ c, levels (subsection_name mysection.name c) = levels mysection.name + 1) ∧
    (∀ c, key_levels simple manual < levels (subsection_name mysection.name c) →
      resolve simple manual mysection c = resolution.leaf) := by
  have hst := unpack_section_stable simple manual (key_levels simple manual) mysection
    (by omega)
  refine ⟨?_, ?_, ?_, ?_, ?_⟩
  · intro fuel hf
    exact (hst fuel _ hf (Nat.le_refl _) offset st).1
  · exact (hst _ _ (Nat.le_refl _) (Nat.le_refl _) offset st).2
  · intro c key submeth size sub suboffset hres hsplit
    rcases uniform_split_shape _ _ _ _ _ _ hsplit with ⟨hn, ho, _⟩ | ⟨hsub, hoff⟩
    · left
      refine ⟨hn, ho, ?_⟩
      rw [hn, levels_subsection_name]
    · right
      refine ⟨hsub, hoff, ?_⟩
      intro k m
      rw [hsub]
      exact resolve_guarded simple manual mysection c key submeth hres 1 size k m
  · intro c
    exact levels_subsection_name _ _
  · intro c h
    exact resolve_line_deep simple manual _ _ h

/-! ## The two leaf decoders -/

theorem read_one_stream_at (pre rest : List byte) (x b0 : byte) :
    LineReading.read_one (stream_at pre [x] rest) b0 =
      (x, ⟨pre ++ [x] ++ rest, pre.length + 1, false⟩) := by
  have h := read_stream_at pre [x] rest
  simp only [List.length_cons, List.length_nil, Nat.zero_add, Nat.cast_one] at h
  simp only [LineReading.read_one, h]

theorem stream_at_cons (pre : List byte) (x : byte) (xs rest : List byte) :
    stream_at pre (x :: xs) rest = stream_at pre [x] (xs ++ rest) := by
  simp [stream_at, List.append_assoc]

theorem stream_after_one (pre : List byte) (x : byte) (xs rest : List byte) :
    (⟨pre ++ [x] ++ (xs ++ rest), pre.length + 1, false⟩ : ifstream) =
      stream_at (pre ++ [x]) xs rest := by
  simp [stream_at, List.append_assoc]

theorem hex_lower_of_upper (d : Nat) (h : d < 16) : (hex_upper d).toLower = hex_lower d := by
  have key : ∀ a : Fin 16, (hex_upper a.val).toLower = hex_lower a.val := by decide
  exact key ⟨d, h⟩

theorem bulk_hex_value_lower (bytes : List byte) :
    bulk_hex_value bytes = bytes.foldl (fun res x => res ++ sprintf_02x x) [] := by
  have happ : ∀ (l : List byte) (init : text),
      l.foldl (fun res x => res ++ sprintf_02x x) init =
        init ++ l.foldl (fun res x => res ++ sprintf_02x x) [] := by
    intro l
    induction l with
    | nil => intro init; simp
    | cons x xs ih =>
      intro init
      simp only [List.foldl_cons, List.nil_append]
      rw [ih (init ++ sprintf_02x x), ih (sprintf_02x x), List.append_assoc]
  induction bytes with
  | nil => rfl
  | cons x xs ih =>
    have hx := x.isLt
    rw [bulk_hex_value_cons, ih, List.foldl_cons, List.nil_append, happ xs (sprintf_02x x),
      hex_lower_of_upper _ (by omega), hex_lower_of_upper _ (by omega)]
    rfl

theorem bulk_loop_stream_at (bytes : List byte) :
    ∀ (pre rest : List byte) (b0 : byte) (ss : text),
      LineReading.bulk_loop bytes.length (stream_at pre bytes rest) b0 ss =
        (bytes.foldl (fun res x => res ++ sprintf_02x x) ss,
          ⟨pre ++ bytes ++ rest, pre.length + bytes.length, false⟩) := by
  induction bytes with
  | nil =>
    intro pre rest b0 ss
    simp [LineReading.bulk_loop, stream_at]
  | cons x xs ih =>
    intro pre rest b0 ss
    simp only [List.length_cons, LineReading.bulk_loop, List.foldl_cons]
    rw [stream_at_cons, read_one_stream_at]
    dsimp only
    rw [stream_after_one, ih]
    simp [List.append_assoc, Nat.add_assoc, Nat.add_comm 1]

theorem zero_loop_stream_at (bytes : List byte) :
    ∀ (pre rest : List byte) (b0 : byte),
      LineReading.zero_loop bytes.length (stream_at pre bytes rest) b0 =
        if bytes.all (fun x => x == 0) then
          some ⟨pre ++ bytes ++ rest, pre.length + bytes.length, false⟩
        else none := by
  induction bytes with
  | nil =>
    intro pre rest b0
    simp [LineReading.zero_loop, stream_at]
  | cons x xs ih =>
    intro pre rest b0
    simp only [List.length_cons, LineReading.zero_loop, List.all_cons]
    rw [stream_at_cons, read_one_stream_at]
    dsimp only
    by_cases hx : x = 0
    · subst hx
      rw [stream_after_one, ih]
      simp [List.append_assoc, Nat.add_assoc, Nat.add_comm 1]
    · simp [hx]

theorem byte_of_schar (a : byte) : (Fin.ofNat (schar a % 256).toNat : byte) = a := by
  have ha := a.isLt
  apply Fin.ext
  have h : (schar a % 256).toNat = a.val := by
    unfold schar
    split <;> omega
  rw [h]
  exact Nat.mod_eq_of_lt ha

theorem to_int32_to_uint32 (x : Int) (hlo : -(2 ^ 31 : Int) ≤ x) (hhi : x < 2 ^ 31) :
    to_int32 (to_uint32 x) = x := by
  unfold to_int32 to_uint32
  split <;> omega

theorem read_nat_stream_at (pre bytes rest : List byte) (n : Nat) (h : bytes.length = n) :
    (stream_at pre bytes rest).read (n : Int) =
      (bytes, ⟨pre ++ bytes ++ rest, pre.length + n, false⟩) := by
  subst h
  exact read_stream_at pre bytes rest

theorem read_line_hex (pre rest : List byte) (a b c d : byte) (lc : text)
    (fs1 : List LineReading.info_for_line_decode) :
    LineReading.read_line (stream_at pre [a, b, c, d] rest) lc HEX 4 fs1 =
      Except.ok (⟨hex_value [a, b, c, d],
          to_int32 (to_uint32 (to_int32 (to_uint32 (to_int32 (to_uint32
            (schar d * 256 + (c.val : Int))) * 256 + (b.val : Int))) * 256 + (a.val : Int))),
          lc⟩, fs1,
        ⟨pre ++ [a, b, c, d] ++ rest, pre.length + 4, false⟩) := by
  have h := read_nat_stream_at pre [a, b, c, d] rest 4 rfl
  simp only [LineReading.read_line, size_for_method, ne_eq, not_true_eq_false, if_false, h]
  simp [List.range, List.range.loop, LineReading.number_step, LineReading.number_text,
    at_index, hex_value_four, sprintf_02X]

theorem read_line_one (method : translation_type) (f : byte → text)
    (hs : size_for_method method = some 1) (hhex : method ≠ HEX)
    (hm : ∀ s lc w fs1, LineReading.read_line s lc method w fs1 =
      match size_for_method method with
      | none => Except.error LineReading.read_failure.out_of_range
      | some size =>
        if w ≠ size then Except.error LineReading.read_failure.incorrect_size
        else
          Except.ok (⟨((List.range w).reverse.foldl
              (LineReading.number_step (s.read w).1 method w) (0, [])).2 ++
              LineReading.number_text method ((List.range w).reverse.foldl
                (LineReading.number_step (s.read w).1 method w) (0, [])).1,
            ((List.range w).reverse.foldl
              (LineReading.number_step (s.read w).1 method w) (0, [])).1, lc⟩, fs1,
            (s.read w).2))
    (hf : ∀ a : byte, LineReading.number_text method (schar a) = f a)
    (pre rest : List byte) (a : byte) (lc : text)
    (fs1 : List LineReading.info_for_line_decode) :
    LineReading.read_line (stream_at pre [a] rest) lc method 1 fs1 =
      Except.ok (⟨f a, schar a, lc⟩, fs1, ⟨pre ++ [a] ++ rest, pre.length + 1, false⟩) := by
  have h := read_nat_stream_at pre [a] rest 1 rfl
  rw [hm, hs]
  simp only [ne_eq, not_true_eq_false, if_false, h]
  simp [List.range, List.range.loop, LineReading.number_step, at_index, hhex, hf]

theorem read_line_short (pre rest : List byte) (a b : byte) (lc : text)
    (fs1 : List LineReading.info_for_line_decode) :
    LineReading.read_line (stream_at pre [a, b] rest) lc SHORT 2 fs1 =
      Except.ok (⟨int_to_string (short_of_bytes a b), short_of_bytes a b, lc⟩, fs1,
        ⟨pre ++ [a, b] ++ rest, pre.length + 2, false⟩) := by
  have ha := a.isLt
  have hb := b.isLt
  have h := read_nat_stream_at pre [a, b] rest 2 rfl
  have hv : to_int32 (to_uint32 (schar b * 256 + (a.val : Int))) = short_of_bytes a b := by
    rw [short_of_bytes_eq, to_int32_to_uint32]
    · ring
    · unfold schar
      split <;> omega
    · unfold schar
      split <;> omega
  simp only [LineReading.read_line, size_for_method, ne_eq, not_true_eq_false, if_false, h]
  simp [List.range, List.range.loop, LineReading.number_step, LineReading.number_text,
    at_index, hv]

/-- C25. The two implementations of the leaf decoders agree on the kinds HEX, BINARY, SHORT,
CHAR, LCHAR, BULK, ZERO, FMAP, SMAP and CMAP.  For every such kind and every input of the
declared width (the fixed size of the kind where it has one, at most the 600 bytes of the
buffer for a grid): either the kind is ZERO, a byte of the input is not zero and both
`read_line` of LineReading.cpp and the leaf decode of `unpack_section` fail, or both return,
with the same value text and the stream in the same state, and for the grid kinds they append
records with the same sequence of identifiers and raw bytes (no record for the other
kinds). -/
theorem leaf_decoders_agree (method : translation_type) (w : Nat) (pre bytes rest : List byte)
    (line_code : text) (features : List feature)
    (features1 : List LineReading.info_for_line_decode)
    (hm : method ∈ [HEX, BINARY, SHORT, CHAR, LCHAR, BULK, ZERO, FMAP, SMAP, CMAP])
    (hlen : bytes.length = w)
    (hfix : method ∈ [HEX, BINARY, SHORT, CHAR, LCHAR] → size_for_method method = some w)
    (hgrid : method ∈ [FMAP, SMAP, CMAP] → w ≤ 600) :
    (method = ZERO ∧ (∃ x ∈ bytes, x ≠ 0) ∧
      decode_leaf method w line_code features (stream_at pre bytes rest) =
        Except.error abort_reason.non_zeros ∧
      LineReading.read_line (stream_at pre bytes rest) line_code method w features1 =
        Except.error LineReading.read_failure.non_zeros) ∨
    ((method = ZERO → ∀ x ∈ bytes, x = 0) ∧
      ∃ value v A B,
        decode_leaf method w line_code features (stream_at pre bytes rest) =
          Except.ok (value, features ++ A, ⟨pre ++ bytes ++ rest, pre.length + w, false⟩) ∧
        LineReading.read_line (stream_at pre bytes rest) line_code method w features1 =
          Except.ok (⟨value, v, line_code⟩, features1 ++ B,
            ⟨pre ++ bytes ++ rest, pre.length + w, false⟩) ∧
        B.map (fun r => (r.line_code, r.v)) = A.map (fun f => (f.line_code, (f.v.val : Int))) ∧
        (method ∉ [FMAP, SMAP, CMAP] → A = [] ∧ B = [])) := by
  have hsize : ∀ n, method ∈ [HEX, BINARY, SHORT, CHAR, LCHAR] →
      size_for_method method = some n → w = n := by
    intro n h1 h2
    have := hfix h1
    rw [h2] at this
    injection this with this
    exact this.symm
  have hplain : ∀ (f : List byte → text) (n : Nat), bytes.length = n →
      ((decode_fixed n f (stream_at pre bytes rest)).map fun p => (p.1, features, p.2)) =
        Except.ok (f bytes, features ++ [],
          ⟨pre ++ bytes ++ rest, pre.length + n, false⟩) := by
    intro f n hn
    rw [decode_fixed_stream_at n f pre bytes rest hn]
    simp [Except.map]
  have hgridcase : ∀ m : translation_type, method = m → m ∈ [FMAP, SMAP, CMAP] →
      (∀ s lc ww fs1, LineReading.read_line s lc m ww fs1 =
        match LineReading.read_world_map s ww m lc fs1 with
        | Except.error e => Except.error e
        | Except.ok (value, features1, s1) => Except.ok (⟨value, 0, lc⟩, features1, s1)) →
      (∀ s lc ww fs, decode_leaf m ww lc fs s = read_world_map s ww m lc fs) →
      ∃ value v A B,
        decode_leaf method w line_code features (stream_at pre bytes rest) =
          Except.ok (value, features ++ A, ⟨pre ++ bytes ++ rest, pre.length + w, false⟩) ∧
        LineReading.read_line (stream_at pre bytes rest) line_code method w features1 =
          Except.ok (⟨value, v, line_code⟩, features1 ++ B,
            ⟨pre ++ bytes ++ rest, pre.length + w, false⟩) ∧
        B.map (fun r => (r.line_code, r.v)) = A.map (fun f => (f.line_code, (f.v.val : Int))) ∧
        (method ∉ [FMAP, SMAP, CMAP] → A = [] ∧ B = []) := by
    intro m hmm hin hL hP
    subst hmm
    have hw := hgrid hin
    refine ⟨(if method = SMAP then [] else
        ((List.range w).foldl
          (fun bs i => if is_land method (at_index bytes i) = true then
            set_bit bs (i / 4) (3 - i % 4) else bs) (List.replicate (w / 4 + 1) 0)).map
          hex_lower), 0,
      ((List.range w).filter fun i => is_anomaly method (at_index bytes i)).map
        (fun i => (⟨line_code ++ '_' :: nat_to_string i, at_index bytes i⟩ : feature)),
      ((List.range w).filter fun i => is_anomaly method (at_index bytes i)).map
        (fun i => (⟨sprintf_02x (at_index bytes i), (at_index bytes i).val,
          line_code ++ '_' :: nat_to_string i⟩ : LineReading.info_for_line_decode)),
      ?_, ?_, ?_, fun h => absurd hin h⟩
    · rw [hP, read_world_map_stream_at pre bytes rest w hw hlen, world_map_value_eq]
    · rw [hL, line_read_world_map_stream_at pre bytes rest w hw hlen,
        line_world_map_value_eq]
    · simp only [List.map_map]
      rfl
  simp only [List.mem_cons, List.mem_singleton, List.not_mem_nil, or_false] at hm
  rcases hm with rfl | rfl | rfl | rfl | rfl | rfl | rfl | rfl | rfl | rfl
  · right
    have h4 := hsize 4 (by decide) rfl
    subst h4
    obtain ⟨a, b, c, d, rfl⟩ := length_four bytes hlen
    refine ⟨(fun h => by cases h), ⟨hex_value [a, b, c, d],
      to_int32 (to_uint32 (to_int32 (to_uint32 (to_int32 (to_uint32
        (schar d * 256 + (c.val : Int))) * 256 + (b.val : Int))) * 256 + (a.val : Int))),
      [], [], ?_, ?_, rfl, fun _ => ⟨rfl, rfl⟩⟩⟩
    · simp only [decode_leaf]
      exact hplain hex_value 4 rfl
    · rw [read_line_hex, List.append_nil]
  · right
    have h1 := hsize 1 (by decide) rfl
    subst h1
    obtain ⟨a, rfl⟩ := length_one bytes hlen
    refine ⟨(fun h => by cases h), ⟨binary_value a, schar a, [], [], ?_, ?_, rfl,
      fun _ => ⟨rfl, rfl⟩⟩⟩
    · simp only [decode_leaf]
      exact hplain (fun b => binary_value (at_index b 0)) 1 rfl
    · rw [read_line_one BINARY binary_value rfl (by decide) (fun _ _ _ _ => rfl)
        (fun a => by simp [LineReading.number_text, byte_of_schar]), List.append_nil]
  · right
    have h2 := hsize 2 (by decide) rfl
    subst h2
    obtain ⟨a, b, rfl⟩ := length_two bytes hlen
    refine ⟨(fun h => by cases h), ⟨int_to_string (short_of_bytes a b), short_of_bytes a b,
      [], [], ?_, ?_, rfl, fun _ => ⟨rfl, rfl⟩⟩⟩
    · simp only [decode_leaf]
      exact hplain (fun b => int_to_string (short_of_bytes (at_index b 0) (at_index b 1))) 2 rfl
    · rw [read_line_short, List.append_nil]
  · right
    have h1 := hsize 1 (by decide) rfl
    subst h1
    obtain ⟨a, rfl⟩ := length_one bytes hlen
    refine ⟨(fun h => by cases h), ⟨char_value a, schar a, [], [], ?_, ?_, rfl,
      fun _ => ⟨rfl, rfl⟩⟩⟩
    · simp only [decode_leaf]
      exact hplain (fun b => char_value (at_index b 0)) 1 rfl
    · rw [read_line_one CHAR char_value rfl (by decide) (fun _ _ _ _ => rfl)
        (fun a => rfl), List.append_nil]
  · right
    have h1 := hsize 1 (by decide) rfl
    subst h1
    obtain ⟨a, rfl⟩ := length_one bytes hlen
    refine ⟨(fun h => by cases h), ⟨char_value a, schar a, [], [], ?_, ?_, rfl,
      fun _ => ⟨rfl, rfl⟩⟩⟩
    · simp only [decode_leaf]
      exact hplain (fun b => char_value (at_index b 0)) 1 rfl
    · rw [read_line_one LCHAR char_value rfl (by decide) (fun _ _ _ _ => rfl)
        (fun a => rfl), List.append_nil]
  · right
    subst hlen
    refine ⟨(fun h => by cases h), ⟨bulk_hex_value bytes, 0, [], [], ?_, ?_, rfl,
      fun _ => ⟨rfl, rfl⟩⟩⟩
    · simp only [decode_leaf]
      exact hplain bulk_hex_value bytes.length rfl
    · simp only [LineReading.read_line, bulk_loop_stream_at, bulk_hex_value_lower,
        List.append_nil]
  · subst hlen
    by_cases hz : bytes.all (fun x => x == 0) = true
    · right
      have hall : ∀ x ∈ bytes, x = 0 := by
        intro x hx
        rw [List.all_eq_true] at hz
        simpa using hz x hx
      refine ⟨fun _ => hall, ⟨"zero_string".toList, 0, [], [], ?_, ?_, rfl,
        fun _ => ⟨rfl, rfl⟩⟩⟩
      · simp only [decode_leaf, read_full_stream_at pre bytes rest bytes.length rfl, hz,
          if_true, List.append_nil]
      · simp only [LineReading.read_line, zero_loop_stream_at, hz, if_true, List.append_nil]
    · left
      have hz2 : bytes.all (fun x => x == 0) = false := by simpa using hz
      refine ⟨rfl, ?_, ?_, ?_⟩
      · by_contra hcon
        apply hz
        rw [List.all_eq_true]
        intro x hx
        by_contra hne
        exact hcon ⟨x, hx, by simpa using hne⟩
      · simp only [decode_leaf, read_full_stream_at pre bytes rest bytes.length rfl, hz2,
          Bool.false_eq_true, if_false]
      · simp only [LineReading.read_line, zero_loop_stream_at, hz2, Bool.false_eq_true,
          if_false]
  · right
    exact ⟨(fun h => by cases h), hgridcase FMAP rfl (by decide) (fun _ _ _ _ => rfl)
      (fun _ _ _ _ => rfl)⟩
  · right
    exact ⟨(fun h => by cases h), hgridcase SMAP rfl (by decide) (fun _ _ _ _ => rfl)
      (fun _ _ _ _ => rfl)⟩
  · right
    exact ⟨(fun h => by cases h), hgridcase CMAP rfl (by decide) (fun _ _ _ _ => rfl)
      (fun _ _ _ _ => rfl)⟩

set_option maxRecDepth 100000 in
theorem leaf_decoders_agree_witness :
    (CMAP ∈ [HEX, BINARY, SHORT, CHAR, LCHAR, BULK, ZERO, FMAP, SMAP, CMAP] ∧
      ([9, 0, 5, 255] : List byte).length = 4 ∧
      (CMAP ∈ [HEX, BINARY, SHORT, CHAR, LCHAR] → size_for_method CMAP = some 4) ∧
      (CMAP ∈ [FMAP, SMAP, CMAP] → 4 ≤ 600)) ∧
    decode_leaf CMAP 4 "CoastMap_0".toList [] (stream_at [] [9, 0, 5, 255] []) =
      Except.ok ("b0".toList, [⟨"CoastMap_0_2".toList, 5⟩, ⟨"CoastMap_0_3".toList, 255⟩],
        ⟨[9, 0, 5, 255], 4, false⟩) ∧
    LineReading.read_line (stream_at [] [9, 0, 5, 255] []) "CoastMap_0".toList CMAP 4 [] =
      Except.ok (⟨"b0".toList, 0, "CoastMap_0".toList⟩,
        [⟨"05".toList, 5, "CoastMap_0_2".toList⟩,
          ⟨"ff".toList, 255, "CoastMap_0_3".toList⟩],
        ⟨[9, 0, 5, 255], 4, false⟩) ∧
    ((CMAP = ZERO ∧ (∃ x ∈ ([9, 0, 5, 255] : List byte), x ≠ 0) ∧
        decode_leaf CMAP 4 "CoastMap_0".toList [] (stream_at [] [9, 0, 5, 255] []) =
          Except.error abort_reason.non_zeros ∧
        LineReading.read_line (stream_at [] [9, 0, 5, 255] []) "CoastMap_0".toList CMAP 4 [] =
          Except.error LineReading.read_failure.non_zeros) ∨
      ((CMAP = ZERO → ∀ x ∈ ([9, 0, 5, 255] : List byte), x = 0) ∧
        ∃ value v A B,
          decode_leaf CMAP 4 "CoastMap_0".toList [] (stream_at [] [9, 0, 5, 255] []) =
            Except.ok (value, [] ++ A, ⟨[] ++ [9, 0, 5, 255] ++ [], ([] : List byte).length + 4,
              false⟩) ∧
          LineReading.read_line (stream_at [] [9, 0, 5, 255] []) "CoastMap_0".toList CMAP 4 [] =
            Except.ok (⟨value, v, "CoastMap_0".toList⟩, [] ++ B,
              ⟨[] ++ [9, 0, 5, 255] ++ [], ([] : List byte).length + 4, false⟩) ∧
          B.map (fun r => (r.line_code, r.v)) =
            A.map (fun f => (f.line_code, (f.v.val : Int))) ∧
          (CMAP ∉ [FMAP, SMAP, CMAP] → A = [] ∧ B = []))) :=
  ⟨⟨by decide, rfl, by decide, by decide⟩, by decide, by decide,
    leaf_decoders_agree CMAP 4 [] [9, 0, 5, 255] [] "CoastMap_0".toList [] [] (by decide) rfl
      (by decide) (by decide)⟩

/-! ## The stream stays aligned on a file that holds the bytes -/

theorem read_full_room (data : List byte) (p n : Nat) (h : p + n ≤ data.length) :
    (⟨data, p, false⟩ : ifstream).read_full n =
      some ((data.drop p).take n, ⟨data, p + n, false⟩) := by
  have hn : ¬ ((n : Int) < 0) := by omega
  have hle : n ≤ (data.drop p).length := by
    rw [List.length_drop]
    omega
  have hlen : ((data.drop p).take n).length = n := by
    rw [List.length_take]
    omega
  simp only [ifstream.read_full, ifstream.read, Bool.false_eq_true, if_false, hn,
    Int.toNat_ofNat, hle, if_true, hlen]

theorem decode_fixed_room (n : Nat) (f : List byte → text) (data : List byte) (p : Nat)
    (h : p + n ≤ data.length) :
    decode_fixed n f ⟨data, p, false⟩ =
      Except.ok (f ((data.drop p).take n), ⟨data, p + n, false⟩) := by
  simp only [decode_fixed, read_full_room data p n h]

/-- With the bytes of the region in the file, the leaf read of a kind that is not a text kind
returns with the cursor at the end of the region, or it is the abort of the zero-fill kind on
a byte that is not zero; the value it returns passes the remap of negative integers. -/
theorem decode_leaf_room (m : translation_type) (bpl : Nat) (lc : text) (fs : List feature)
    (data : List byte) (p : Nat)
    (hfix : m ∈ fixed_kinds → size_for_method m = some bpl)
    (h0 : m ≠ TEXT0) (h8 : m ≠ TEXT8) (hmap : is_world_map m = true → bpl ≤ 600)
    (h : p + bpl ≤ data.length) :
    (m = ZERO ∧ decode_leaf m bpl lc fs ⟨data, p, false⟩ =
        Except.error abort_reason.non_zeros) ∨
      ∃ v fs1 v1, decode_leaf m bpl lc fs ⟨data, p, false⟩ =
          Except.ok (v, fs1, ⟨data, p + bpl, false⟩) ∧
        remap_negative m v = Except.ok v1 := by
  have hsz : ∀ n, m ∈ fixed_kinds → size_for_method m = some n → n = bpl := by
    intro n hm hn
    have := hfix hm
    rw [hn] at this
    injection this
  cases m
  case TEXT0 => exact absurd rfl h0
  case TEXT8 => exact absurd rfl h8
  case INT =>
    have h4 := hsz 4 (by decide) rfl
    subst h4
    right
    have hr := int_of_bytes_range (at_index data p) (at_index data (p + 1))
      (at_index data (p + 2)) (at_index data (p + 3))
    refine ⟨int_to_string (int_of_bytes (at_index data p) (at_index data (p + 1))
      (at_index data (p + 2)) (at_index data (p + 3))), fs, _, ?_,
      remap_int_to_string _ hr.1 hr.2⟩
    simp only [decode_leaf, read_int_at data p h]
  case mFLOAT =>
    have h4 := hsz 4 (by decide) rfl
    subst h4
    right
    simp only [decode_leaf, read_int_at data p h]
    exact ⟨_, _, _, rfl, rfl⟩
  case uFLOAT =>
    have h4 := hsz 4 (by decide) rfl
    subst h4
    right
    simp only [decode_leaf, read_int_at data p h]
    exact ⟨_, _, _, rfl, rfl⟩
  case HEX =>
    have h4 := hsz 4 (by decide) rfl
    subst h4
    right
    simp only [decode_leaf, decode_fixed_room _ _ data p h, Except.map]
    exact ⟨_, _, _, rfl, rfl⟩
  case BINARY =>
    have h4 := hsz 1 (by decide) rfl
    subst h4
    right
    simp only [decode_leaf, decode_fixed_room _ _ data p h, Except.map]
    exact ⟨_, _, _, rfl, rfl⟩
  case SHORT =>
    have h4 := hsz 2 (by decide) rfl
    subst h4
    right
    simp only [decode_leaf, decode_fixed_room _ _ data p h, Except.map]
    exact ⟨_, _, _, rfl, rfl⟩
  case CHAR =>
    have h4 := hsz 1 (by decide) rfl
    subst h4
    right
    simp only [decode_leaf, decode_fixed_room _ _ data p h, Except.map]
    exact ⟨_, _, _, rfl, rfl⟩
  case LCHAR =>
    have h4 := hsz 1 (by decide) rfl
    subst h4
    right
    simp only [decode_leaf, decode_fixed_room _ _ data p h, Except.map]
    exact ⟨_, _, _, rfl, rfl⟩
  case BULK =>
    right
    simp only [decode_leaf, decode_fixed_room _ _ data p h, Except.map]
    exact ⟨_, _, _, rfl, rfl⟩
  case ZERO =>
    by_cases hz : ((data.drop p).take bpl).all (fun x => x == 0) = true
    · right
      simp only [decode_leaf, read_full_room data p bpl h, hz, if_true]
      exact ⟨_, _, _, rfl, rfl⟩
    · left
      refine ⟨rfl, ?_⟩
      simp only [decode_leaf, read_full_room data p bpl h, hz, if_false]
      simp
  all_goals
    have hb : ¬ (600 < bpl) := by
      have := hmap (by decide)
      omega
    right
    simp only [decode_leaf, read_world_map, hb, if_false, read_full_room data p bpl h]
    exact ⟨_, _, _, rfl, rfl⟩
/-- The only line with the name `Personal_0` is line 0 of a section named `Personal`. -/
theorem subsection_name_sentinel (name : text) (c : Nat)
    (h : subsection_name name c = start_of_fixed_length_section) :
    name = "Personal".toList ∧ c = 0 := by
  have hl := levels_subsection_name name c
  rw [h] at hl
  have h1 : levels start_of_fixed_length_section = 1 := by decide
  have h0 : levels name = 0 := by omega
  have hb : ∀ ch ∈ name, ch ≠ '_' := by
    intro ch hch hc
    subst hc
    have := List.count_pos_iff.mpr hch
    unfold levels at h0
    omega
  have ht := takeWhile_base name (nat_to_string c) hb
  unfold subsection_name at h
  rw [h] at ht
  have hname : name = "Personal".toList := by
    rw [← ht]
    decide
  subst hname
  refine ⟨rfl, ?_⟩
  have h2 : nat_to_string c = nat_to_string 0 := by
    have := List.append_cancel_left
      (show "Personal".toList ++ '_' :: nat_to_string c =
        "Personal".toList ++ '_' :: nat_to_string 0 from h)
    injection this
  exact nat_to_string_injective h2

/-- With the bytes of the region in the file, and at the line `Personal_0` also the four bytes
at the end of the jump, the leaf part of the loop body returns with the cursor at the end of
the region, or it is the abort of the zero-fill kind. -/
theorem unpack_leaf_room (mysection : «section») (c : Nat) (acc : unpack_state × List feature)
    (data : List byte) (p : Nat)
    (hfix : mysection.method ∈ fixed_kinds →
      size_for_method mysection.method = some mysection.bytes_per_line)
    (h0 : mysection.method ≠ TEXT0) (h8 : mysection.method ≠ TEXT8)
    (hmap : is_world_map mysection.method = true → mysection.bytes_per_line ≤ 600)
    (hin : acc.1.input = ⟨data, p, false⟩)
    (hroom : p + mysection.bytes_per_line ≤ data.length)
    (hyear : subsection_name mysection.name c = start_of_fixed_length_section →
      p + mysection.bytes_per_line + 887272 + 4 ≤ data.length) :
    (mysection.method = ZERO ∧
        unpack_leaf mysection c acc = Except.error abort_reason.non_zeros) ∨
      ∃ r, unpack_leaf mysection c acc = Except.ok r ∧
        r.1.input = ⟨data, p + mysection.bytes_per_line, false⟩ := by
  obtain ⟨⟨input, out, year⟩, fs⟩ := acc
  dsimp only at hin
  subst hin
  rcases decode_leaf_room mysection.method mysection.bytes_per_line
      (subsection_name mysection.name c) fs data p hfix h0 h8 hmap hroom with
    ⟨hz, hdec⟩ | ⟨v, fs1, v1, hdec, hremap⟩
  · left
    refine ⟨hz, ?_⟩
    simp only [unpack_leaf, hdec]
  · right
    by_cases hs : subsection_name mysection.name c = start_of_fixed_length_section
    · have hst := store_startingyear_eq data (p + mysection.bytes_per_line) out year
        (hyear hs)
      rw [hs] at hdec
      simp only [unpack_leaf, hs, hdec, if_true, hst, hremap]
      exact ⟨_, rfl, rfl⟩
    · simp only [unpack_leaf, hdec, hs, if_false, hremap]
      exact ⟨_, rfl, rfl⟩
theorem unpack_loop_room
    (body : Nat → unpack_state × List feature →
      Except abort_reason (unpack_state × List feature)) (w : Nat) (data : List byte) :
    ∀ (left c p : Nat) (acc : unpack_state × List feature),
      (∀ d acc1, d < left → acc1.1.input = ⟨data, p + d * w, false⟩ →
        body (c + d) acc1 = Except.error abort_reason.non_zeros ∨
          ∃ r, body (c + d) acc1 = Except.ok r ∧
            r.1.input = ⟨data, p + d * w + w, false⟩) →
      acc.1.input = ⟨data, p, false⟩ →
      unpack_loop body left c acc = Except.error abort_reason.non_zeros ∨
        ∃ r, unpack_loop body left c acc = Except.ok r ∧
          r.1.input = ⟨data, p + left * w, false⟩ := by
  intro left
  induction left with
  | zero =>
    intro c p acc _ hin
    right
    refine ⟨acc, by simp only [unpack_loop], ?_⟩
    rw [hin, Nat.zero_mul, Nat.add_zero]
  | succ left ih =>
    intro c p acc hbody hin
    have h0 := hbody 0 acc (Nat.succ_pos left) (by rw [hin, Nat.zero_mul, Nat.add_zero])
    rw [Nat.zero_mul, Nat.add_zero, Nat.add_zero] at h0
    rcases h0 with h0 | ⟨r, h0, hr⟩
    · left
      simp only [unpack_loop, h0]
    · have hrest := ih (c + 1) (p + w) r
        (fun d acc1 hd hacc => by
          have := hbody (d + 1) acc1 (by omega)
            (by rw [hacc, Nat.succ_mul]; congr 1; omega)
          rw [show c + (d + 1) = c + 1 + d by omega,
            show p + (d + 1) * w + w = p + w + d * w + w by rw [Nat.succ_mul]; omega] at this
          exact this) hr
      rw [show p + w + left * w = p + (left + 1) * w by rw [Nat.succ_mul]; omega] at hrest
      simp only [unpack_loop, h0]
      exact hrest

theorem unpack_manual_room
    (recur : «section» → Nat → unpack_state → Except abort_reason unpack_state)
    (subsection : text) (data : List byte) :
    ∀ (info : List subsection_info) (suboffset check p : Nat) (st : unpack_state),
      (∀ q ∈ manual_offsets suboffset info, ∀ st1 p1, st1.input = ⟨data, p1, false⟩ →
        p1 + q.2.multiplier * q.2.byte_count ≤ data.length →
        recur ⟨subsection, q.2.multiplier, q.2.byte_count, q.2.method⟩ q.1 st1 =
            Except.error abort_reason.non_zeros ∨
          ∃ st2, recur ⟨subsection, q.2.multiplier, q.2.byte_count, q.2.method⟩ q.1 st1 =
              Except.ok st2 ∧
            st2.input = ⟨data, p1 + q.2.multiplier * q.2.byte_count, false⟩) →
      st.input = ⟨data, p, false⟩ →
      p + (info.map fun t => t.byte_count * t.multiplier).sum ≤ data.length →
      unpack_manual recur subsection info (st, suboffset, check) =
          Except.error abort_reason.non_zeros ∨
        ∃ r, unpack_manual recur subsection info (st, suboffset, check) = Except.ok r ∧
          r.1.input = ⟨data, p + (info.map fun t => t.byte_count * t.multiplier).sum, false⟩ ∧
          r.2.2 = check + (info.map fun t => t.byte_count * t.multiplier).sum := by
  intro info
  induction info with
  | nil =>
    intro suboffset check p st _ hin _
    right
    refine ⟨(st, suboffset, check), by simp only [unpack_manual], ?_, ?_⟩
    · simp [hin]
    · simp
  | cons t rest ih =>
    intro suboffset check p st hrec hin hroom
    simp only [List.map_cons, List.sum_cons] at hroom ⊢
    have hq := hrec (suboffset, t) (by simp [manual_offsets]) st p hin (by
      dsimp only
      rw [Nat.mul_comm]
      omega)
    dsimp only at hq
    rcases hq with hq | ⟨st2, hq, hst2⟩
    · left
      simp only [unpack_manual, hq]
    · have hrest := ih (suboffset + t.multiplier) (check + t.multiplier * t.byte_count)
        (p + t.multiplier * t.byte_count) st2
        (fun q hq1 => hrec q (by simp [manual_offsets, hq1])) hst2 (by
          rw [Nat.mul_comm t.multiplier]
          omega)
      simp only [unpack_manual, hq]
      rcases hrest with hrest | ⟨r, hrest, hr1, hr2⟩
      · exact Or.inl hrest
      · right
        refine ⟨r, hrest, ?_, ?_⟩
        · rw [hr1, Nat.mul_comm t.multiplier, Nat.add_assoc]
        · rw [hr2, Nat.mul_comm t.multiplier, Nat.add_assoc]
theorem manual_rule_fits :
    ∀ kv ∈ subsection_manual_decode, ∀ si ∈ kv.2,
      is_world_map si.method = true → si.byte_count ≤ 600 := by
  have h : (subsection_manual_decode.all fun kv => kv.2.all fun si =>
      decide (is_world_map si.method = true → si.byte_count ≤ 600)) = true := by
    decide
  rw [List.all_eq_true] at h
  intro kv hkv si hsi
  have h1 := h kv hkv
  rw [List.all_eq_true] at h1
  have h2 := h1 si hsi
  simp only [decide_eq_true_eq] at h2
  exact h2

theorem map_fits_iff (sec : «section») :
    map_fits sec = true ↔ (is_world_map sec.method = true → sec.bytes_per_line ≤ 600) := by
  unfold map_fits
  cases is_world_map sec.method <;> simp

theorem subsection_name_ne_sentinel_section (name : text) (c : Nat) :
    subsection_name name c ≠ "Personal".toList := by
  intro h
  have hl := levels_subsection_name name c
  rw [h] at hl
  have h1 : levels "Personal".toList = 0 := by decide
  omega

/-- One line of the loop of `unpack_section` on the declared tables, for a section that is
aligned and passes the schema check, on a file that holds the bytes of the region: when the
recursive calls behave so, the line returns with the cursor at the end of the region, or the
run ends in the abort of the zero-fill kind. -/
theorem unpack_line_room
    (recur : «section» → Nat → unpack_state → Except abort_reason unpack_state) (K : Nat)
    (data : List byte)
    (hrec : ∀ sub off st p,
      section_ok subsection_simple_decode subsection_manual_decode K sub off = true →
      aligned sub = true → map_fits sub = true → st.input = ⟨data, p, false⟩ →
      p + sub.count * sub.bytes_per_line ≤ data.length →
      (sub.name = "Personal".toList → off = 0 →
        p + sub.bytes_per_line + 887272 + 4 ≤ data.length) →
      recur sub off st = Except.error abort_reason.non_zeros ∨
        ∃ st1, recur sub off st = Except.ok st1 ∧
          st1.input = ⟨data, p + sub.count * sub.bytes_per_line, false⟩)
    (mysection : «section») (c : Nat) (acc : unpack_state × List feature) (p : Nat)
    (hline : line_check subsection_simple_decode subsection_manual_decode
      (fun sub suboffset =>
        section_ok subsection_simple_decode subsection_manual_decode K sub suboffset)
      mysection c = true)
    (hal : aligned mysection = true) (hfit : map_fits mysection = true)
    (hin : acc.1.input = ⟨data, p, false⟩)
    (hroom : p + mysection.bytes_per_line ≤ data.length)
    (hyear : mysection.name = "Personal".toList → c = 0 →
      p + mysection.bytes_per_line + 887272 + 4 ≤ data.length) :
    unpack_line subsection_simple_decode subsection_manual_decode recur mysection c acc =
        Except.error abort_reason.non_zeros ∨
      ∃ r, unpack_line subsection_simple_decode subsection_manual_decode recur mysection c
          acc = Except.ok r ∧
        r.1.input = ⟨data, p + mysection.bytes_per_line, false⟩ := by
  obtain ⟨hn, h0, h8, hfix⟩ := (aligned_iff mysection).mp hal
  unfold unpack_line
  unfold line_check at hline
  cases hres : resolve subsection_simple_decode subsection_manual_decode mysection c with
  | uniform key submeth =>
    rw [hres] at hline
    dsimp only at hline ⊢
    cases hsize : size_for_method submeth with
    | none =>
      rw [hsize] at hline
      cases hline
    | some size =>
      rw [hsize] at hline
      dsimp only at hline ⊢
      cases hsplit : uniform_split mysection c submeth size with
      | none =>
        rw [hsplit] at hline
        cases hline
      | some q =>
        obtain ⟨sub, suboffset⟩ := q
        rw [hsplit] at hline
        dsimp only at hline ⊢
        obtain ⟨hsub, hw⟩ := uniform_child_aligned _ _ _ _ _ _ _ hal hres hsize hsplit
        have hshape := uniform_split_shape _ _ _ _ _ _ hsplit
        have hm : sub.method = submeth := by
          rcases hshape with h | h
          · exact h.2.2
          · rw [h.1]
        have hsubfit : map_fits sub = true := by
          rw [map_fits_iff, hm, size_not_world_map _ _ hsize]
          intro h
          cases h
        have hr := hrec sub suboffset acc.1 p hline hsub hsubfit hin (by rw [hw]; exact hroom)
          (by
            intro hname hoff
            rcases hshape with h | h
            · exact absurd (h.1 ▸ hname) (subsection_name_ne_sentinel_section _ _)
            · obtain ⟨h1, h2⟩ := h
              subst h1
              dsimp only at hname hw ⊢
              rw [Nat.one_mul] at hw
              rw [hw]
              exact hyear hname (h2 ▸ hoff))
        rw [hw] at hr
        rcases hr with hr | ⟨st1, hr, hst1⟩
        · left
          rw [hr]
        · right
          rw [hr]
          exact ⟨_, rfl, hst1⟩
  | manual key info =>
    rw [hres] at hline
    dsimp only at hline ⊢
    have hmem := resolve_manual_key _ _ _ _ _ _ hres
    simp only [Bool.and_eq_true, beq_iff_eq, List.all_eq_true] at hline
    obtain ⟨hkids, hsum⟩ := hline
    rw [byte_count_check_eq_sum] at hsum
    have hm := unpack_manual_room recur (subsection_name mysection.name c) data info 0 0 p
      acc.1
      (fun q hq st1 p1 hst1 hp1 => by
        have hsi := manual_offsets_mem info 0 q hq
        obtain ⟨a0, a8, afix⟩ := manual_rule_kinds _ hmem _ hsi
        have hal2 : aligned ⟨subsection_name mysection.name c, q.2.multiplier,
            q.2.byte_count, q.2.method⟩ = true :=
          (aligned_iff _).mpr ⟨by
            dsimp only
            rw [takeWhile_subsection_name]
            exact hn, a0, a8, afix⟩
        have hfit2 : map_fits ⟨subsection_name mysection.name c, q.2.multiplier,
            q.2.byte_count, q.2.method⟩ = true :=
          (map_fits_iff _).mpr (manual_rule_fits _ hmem _ hsi)
        exact hrec _ q.1 st1 p1 (hkids q hq) hal2 hfit2 hst1 hp1
          (fun hname _ => absurd hname (subsection_name_ne_sentinel_section _ _)))
      hin (by rw [hsum]; exact hroom)
    rw [hsum] at hm
    rcases hm with hm | ⟨r, hm, hr1, hr2⟩
    · left
      rw [hm]
    · right
      obtain ⟨st1, off1, check⟩ := r
      dsimp only at hr1 hr2
      rw [Nat.zero_add] at hr2
      rw [hm]
      dsimp only
      rw [if_neg (by rw [hr2]; exact fun h => h rfl)]
      exact ⟨_, rfl, hr1⟩
  | leaf =>
    dsimp only
    rcases unpack_leaf_room mysection c acc data p hfix h0 h8 ((map_fits_iff _).mp hfit) hin
        hroom (fun hs => by
          obtain ⟨h1, h2⟩ := subsection_name_sentinel _ _ hs
          exact hyear h1 h2) with h | h
    · exact Or.inl h.2
    · exact Or.inr h
/-- A call of `unpack_section` on the declared tables, for a section that is aligned and passes
the schema check, on a file that holds the bytes of the section (and, for line `Personal_0`,
the bytes of the jump): it returns with the cursor `count * bytes_per_line` further and the
stream good, or the run ends in the abort of the zero-fill kind. -/
theorem unpack_section_room (data : List byte) :
    ∀ (k K : Nat) (mysection : «section») (offset : Nat) (st : unpack_state) (p : Nat),
      section_ok subsection_simple_decode subsection_manual_decode K mysection offset = true →
      K ≤ k → aligned mysection = true → map_fits mysection = true →
      st.input = ⟨data, p, false⟩ →
      p + mysection.count * mysection.bytes_per_line ≤ data.length →
      (mysection.name = "Personal".toList → offset = 0 →
        p + mysection.bytes_per_line + 887272 + 4 ≤ data.length) →
      unpack_section subsection_simple_decode subsection_manual_decode k mysection offset st =
          Except.error abort_reason.non_zeros ∨
        ∃ st1, unpack_section subsection_simple_decode subsection_manual_decode k mysection
            offset st = Except.ok st1 ∧
          st1.input = ⟨data, p + mysection.count * mysection.bytes_per_line, false⟩ := by
  intro k
  induction k with
  | zero =>
    intro K mysection offset st p hok hK
    obtain ⟨K1, rfl⟩ := section_ok_pos _ _ K mysection offset hok
    omega
  | succ k ih =>
    intro K mysection offset st p hok hK hal hfit hin hroom hyear
    obtain ⟨K1, rfl⟩ := section_ok_pos _ _ K mysection offset hok
    have hloop := unpack_loop_room
      (unpack_line subsection_simple_decode subsection_manual_decode
        (fun sub suboffset st1 =>
          unpack_section subsection_simple_decode subsection_manual_decode k sub suboffset st1)
        mysection)
      mysection.bytes_per_line data mysection.count offset p
      (if mysection.name = "Log".toList then
          ({ st with out := st.out ++ [pst_line.remark "# Ship's Log".toList] } : unpack_state)
        else st, [])
      (fun d acc1 hd hacc =>
        unpack_line_room _ K1 data
          (fun sub off st2 p2 hsub => ih K1 sub off st2 p2 hsub (by omega))
          mysection (offset + d) acc1 (p + d * mysection.bytes_per_line)
          (section_ok_line _ _ K1 mysection offset hok d hd) hal hfit hacc
          (by
            have : (d + 1) * mysection.bytes_per_line ≤
                mysection.count * mysection.bytes_per_line :=
              Nat.mul_le_mul_right _ hd
            rw [Nat.succ_mul] at this
            omega)
          (fun hname hc => by
            have hd0 : d = 0 := Nat.eq_zero_of_add_eq_zero_left hc
            have ho : offset = 0 := Nat.eq_zero_of_add_eq_zero_right hc
            have e : p + d * mysection.bytes_per_line = p := by
              rw [hd0, Nat.zero_mul, Nat.add_zero]
            rw [e]
            exact hyear hname ho))
      (by
        dsimp only
        split <;> exact hin)
    simp only [unpack_section]
    rcases hloop with hloop | ⟨r, hloop, hr⟩
    · left
      rw [hloop]
    · right
      obtain ⟨st1, features⟩ := r
      rw [hloop]
      dsimp only at hr ⊢
      split
      · exact ⟨_, rfl, hr⟩
      · exact ⟨_, rfl, hr⟩
theorem top_map_fits (sec : «section») (hsec : sec ∈ section_vector) :
    map_fits sec = true ∧ (sec.name = "Personal".toList → sec.bytes_per_line = 4) := by
  have h : (section_vector.all fun sec =>
      map_fits sec && decide (sec.name = "Personal".toList → sec.bytes_per_line = 4)) =
      true := by decide
  rw [List.all_eq_true] at h
  have h1 := h sec hsec
  simp only [Bool.and_eq_true, decide_eq_true_eq] at h1
  exact h1

theorem good_stream_eq (s : ifstream) (h : s.failed = false) : s = ⟨s.data, s.pos, false⟩ := by
  obtain ⟨data, pos, failed⟩ := s
  dsimp only at h
  subst h
  rfl

/-- On a file that ends inside a region the model has no result: the read stores fewer bytes
than the code uses afterwards (here 2 of the 4 bytes of `j_0`), where the source goes on with
a failed stream and the bytes its buffer happened to hold.  The hypothesis of the theorem below
that the file holds the bytes of the section excludes these runs. -/
theorem short_file_is_short_read :
    unpack_section subsection_simple_decode subsection_manual_decode 4 ⟨"j".toList, 1, 4, HEX⟩
        0 ⟨⟨[1, 2], 0, false⟩, [], 0⟩ = Except.error abort_reason.short_read := by
  decide

/-- C21. In the walk of `section_vector` with the declared rule tables the stream does not
misalign, on a file that holds the bytes that are read.  Every section of the walk whose kind
has a fixed size (INT, HEX, BINARY, SHORT, CHAR, LCHAR, uFLOAT, mFLOAT) has exactly that size
as width, and a leaf line of such a kind, on a good stream that holds the `bytes_per_line`
bytes of the line (at line `Personal_0` also the four bytes of the starting year at the end of
the jump), is decoded and moves the cursor by exactly its `bytes_per_line`.  Consequently, for
every top-level section other than Intro, CityName and ShipName, on a good stream that holds
the `count * bytes_per_line` bytes of the section (for Personal also the four bytes of the
starting year), a call of `unpack_section` with a recursion bound of at least 4 either ends in
the abort of a zero-fill region that holds a byte other than zero, or returns with the stream
good and the cursor exactly `count * bytes_per_line` bytes further. -/
theorem stream_stays_aligned (sec : «section») (fuel : Nat) (st : unpack_state)
    (hsec : sec ∈ section_vector)
    (hname : sec.name ≠ "Intro".toList ∧ sec.name ≠ "CityName".toList ∧
      sec.name ≠ "ShipName".toList)
    (hfuel : 4 ≤ fuel)
    (hgood : st.input.failed = false)
    (hbytes : st.input.pos + sec.count * sec.bytes_per_line ≤ st.input.data.length)
    (hjump : sec.name = "Personal".toList →
      st.input.pos + 4 + 887272 + 4 ≤ st.input.data.length) :
    (unpack_section subsection_simple_decode subsection_manual_decode fuel sec 0 st =
        Except.error abort_reason.non_zeros ∨
      ∃ st1, unpack_section subsection_simple_decode subsection_manual_decode fuel sec 0 st =
          Except.ok st1 ∧
        st1.input.pos = st.input.pos + sec.count * sec.bytes_per_line ∧
        st1.input.failed = false ∧ st1.input.data = st.input.data) ∧
    (∀ s c, in_walk subsection_simple_decode subsection_manual_decode section_vector s c →
      s.method ∈ fixed_kinds → size_for_method s.method = some s.bytes_per_line) ∧
    (∀ s c, in_walk subsection_simple_decode subsection_manual_decode section_vector s c →
      resolve subsection_simple_decode subsection_manual_decode s c = resolution.leaf →
      s.method ∈ fixed_kinds →
      ∀ recur acc, acc.1.input.failed = false →
        acc.1.input.pos + s.bytes_per_line ≤ acc.1.input.data.length →
        (subsection_name s.name c = start_of_fixed_length_section →
          acc.1.input.pos + s.bytes_per_line + 887272 + 4 ≤ acc.1.input.data.length) →
        ∃ r, unpack_line subsection_simple_decode subsection_manual_decode recur s c acc =
            Except.ok r ∧
          r.1.input.pos = acc.1.input.pos + s.bytes_per_line ∧
          r.1.input.failed = false ∧ r.1.input.data = acc.1.input.data) := by
  refine ⟨?_, walk_fixed_width, ?_⟩
  · obtain ⟨hfit, hfour⟩ := top_map_fits sec hsec
    have hok := schema_ok_section subsection_simple_decode subsection_manual_decode 3
      section_vector declared_schema_ok sec hsec
    rcases unpack_section_room st.input.data fuel 4 sec 0 st st.input.pos hok hfuel
        (top_aligned sec hsec hname.1 hname.2.1 hname.2.2) hfit (good_stream_eq _ hgood)
        hbytes (fun hp _ => by
          rw [hfour hp]
          exact hjump hp) with h | ⟨st1, h, hst1⟩
    · exact Or.inl h
    · right
      refine ⟨st1, h, ?_, ?_, ?_⟩ <;> rw [hst1]
  · intro s c hw hleaf hfixed recur acc hg hroom hyear
    have h0 : s.method ≠ TEXT0 := by
      intro h
      rw [h] at hfixed
      exact absurd hfixed (by decide)
    have h8 : s.method ≠ TEXT8 := by
      intro h
      rw [h] at hfixed
      exact absurd hfixed (by decide)
    have hz : s.method ≠ ZERO := by
      intro h
      rw [h] at hfixed
      exact absurd hfixed (by decide)
    have hmap : is_world_map s.method = true → s.bytes_per_line ≤ 600 := by
      intro h
      have := size_not_world_map _ _ (walk_fixed_width s c hw hfixed)
      rw [this] at h
      cases h
    simp only [unpack_line, hleaf]
    rcases unpack_leaf_room s c acc acc.1.input.data acc.1.input.pos
        (walk_fixed_width s c hw) h0 h8 hmap (good_stream_eq _ hg) hroom hyear with
      h | ⟨r, h, hr⟩
    · exact absurd h.1 hz
    · refine ⟨r, h, ?_, ?_, ?_⟩ <;> rw [hr]

theorem stream_stays_aligned_witness :
    ((⟨"Personal".toList, 57, 4, INT⟩ : «section») ∈ section_vector ∧
      (0 + 57 * 4 ≤ (List.replicate 887300 (0 : byte)).length) ∧
      (0 + 4 + 887272 + 4 ≤ (List.replicate 887300 (0 : byte)).length)) ∧
    (unpack_section subsection_simple_decode subsection_manual_decode 4
          ⟨"Personal".toList, 57, 4, INT⟩ 0 ⟨⟨List.replicate 887300 0, 0, false⟩, [], 0⟩ =
        Except.error abort_reason.non_zeros ∨
      ∃ st1, unpack_section subsection_simple_decode subsection_manual_decode 4
          ⟨"Personal".toList, 57, 4, INT⟩ 0 ⟨⟨List.replicate 887300 0, 0, false⟩, [], 0⟩ =
            Except.ok st1 ∧
        st1.input.pos = 0 + 57 * 4 ∧ st1.input.failed = false ∧
        st1.input.data = List.replicate 887300 0) :=
  ⟨⟨by decide, by rw [List.length_replicate]; decide,
      by rw [List.length_replicate]; decide⟩,
    (stream_stays_aligned ⟨"Personal".toList, 57, 4, INT⟩ 4
      ⟨⟨List.replicate 887300 0, 0, false⟩, [], 0⟩
      (by decide) (by decide) (by decide) rfl
      (by rw [List.length_replicate]; decide)
      (fun _ => by rw [List.length_replicate]; decide)).1⟩
